import Mathlib

/-!
Verification development for the orbweaver directed-graph library.

The Rust source is shallowly embedded: 32-bit symbols become naturals,
FxHashSet values become insertion-ordered duplicate-free lists (the Rust
iteration order of a hash set is unspecified, so a canonical
determinization is chosen), Vec push becomes list append, and fallible
operations return Except.  Definitions follow the corresponding source
functions in src/utils and src/directed statement by statement.
-/

namespace OW

/- Symbols (src/utils/sym.rs) are dense 32-bit identifiers, modelled as plain naturals. -/

/-- The reserved sentinel Nat::RESERVED = u32::MAX. -/
def symReserved : Nat := 2 ^ 32 - 1

/-- LazySet (src/utils/node_map.rs): three-state adjacency slot.
Constructor names shortened from Uninitialized / Empty / Initialized;
the contained hash set is modelled as an insertion-ordered list. -/
inductive LazySet where
  | uninit : LazySet
  | empty : LazySet
  | init (s : List Nat) : LazySet
deriving Repr, DecidableEq

/-- Elements of a LazySet slot (empty for the two setless states). -/
def LazySet.elems : LazySet → List Nat
  | .init s => s
  | _ => []

/-- LazySet::is_empty. -/
def LazySet.isEmpty : LazySet → Bool
  | .empty => true
  | _ => false

/-- LazySet::is_uninitialized. -/
def LazySet.isUninit : LazySet → Bool
  | .uninit => true
  | _ => false

/-- LazySet::is_initialized. -/
def LazySet.isInit : LazySet → Bool
  | .init _ => true
  | _ => false

/-- Models `slot.or_init().insert(x)`: the new slot plus the was-added flag of
HashSet::insert.  On `.uninit` the source transitions to an empty set first.
On `.empty` the source executes `unreachable_unchecked` (undefined behavior);
the benign continuation used here is paired with an explicit hit-flag where
that case matters (the subset operations). -/
def LazySet.orInitInsert : LazySet → Nat → LazySet × Bool
  | .uninit, x => (.init [x], true)
  | .init s, x => if x ∈ s then (.init s, false) else (.init (s ++ [x]), true)
  | .empty, x => (.init [x], true)

/-- True when `or_init` on this slot would take the undefined-behavior branch. -/
def LazySet.orInitUB : LazySet → Bool
  | .empty => true
  | _ => false

/-- Models `HashSet::remove` on the slot of an initialized LazySet. -/
def LazySet.removeElem : LazySet → Nat → LazySet
  | .init s, x => .init (s.erase x)
  | l, _ => l

/-- NodeMap (src/utils/node_map.rs): a dense vector of LazySet indexed by symbol. -/
structure NodeMap where
  map : List LazySet
deriving Repr, DecidableEq

/-- NodeMap::new. -/
def NodeMap.new (n : Nat) : NodeMap := ⟨List.replicate n .uninit⟩

/-- NodeMap::get (direct vector index). -/
def NodeMap.get (m : NodeMap) (k : Nat) : LazySet := m.map.getD k .uninit

/-- Writing back through NodeMap::get_mut. -/
def NodeMap.setSlot (m : NodeMap) (k : Nat) (v : LazySet) : NodeMap := ⟨m.map.set k v⟩

/-- NodeMap::contains_key: true iff the state is Initialized. -/
def NodeMap.containsKey (m : NodeMap) (k : Nat) : Bool := (m.get k).isInit

/-- NodeMap::initialized_keys: all symbols whose state is Initialized. -/
def NodeMap.initKeys (m : NodeMap) : List Nat :=
  (List.range m.map.length).filter (fun i => (m.get i).isInit)

/-- NodeMap length. -/
def NodeMap.len (m : NodeMap) : Nat := m.map.length

/-- InternerBuilder (src/utils/interner.rs): the labels seen so far, in
first-insertion order; the symbol of a label is its position in this list. -/
structure InternerBuilder where
  strs : List String
deriving Repr, DecidableEq

/-- InternerBuilder::new. -/
def InternerBuilder.new : InternerBuilder := ⟨[]⟩

/-- InternerBuilder::get_or_intern: the existing symbol if the label has been
seen, otherwise the next dense symbol is allocated. -/
def InternerBuilder.getOrIntern (b : InternerBuilder) (l : String) : Nat × InternerBuilder :=
  if l ∈ b.strs then (b.strs.indexOf l, b)
  else (b.strs.length, ⟨b.strs ++ [l]⟩)

/-- Resolver (src/utils/interner.rs): the finalized arena, with labels stored
in symbol order (the source collects hash-map entries and sorts by symbol). -/
structure Resolver where
  strs : List String
deriving Repr, DecidableEq

/-- InternerBuilder::build. -/
def InternerBuilder.build (b : InternerBuilder) : Resolver := ⟨b.strs⟩

/-- Resolver::get. -/
def Resolver.get (r : Resolver) (l : String) : Option Nat :=
  if l ∈ r.strs then some (r.strs.indexOf l) else none

/-- Resolver::resolve_unchecked (callers guarantee the symbol is valid). -/
def Resolver.resolve (r : Resolver) (s : Nat) : String := r.strs.getD s ""

/-- Resolver::len. -/
def Resolver.len (r : Resolver) : Nat := r.strs.length

/-- DirectedGraphBuilder (src/directed/builder.rs). -/
structure DirectedGraphBuilder where
  parents : List Nat
  children : List Nat
  interner : InternerBuilder
deriving Repr, DecidableEq

/-- DirectedGraphBuilder::new. -/
def DirectedGraphBuilder.new : DirectedGraphBuilder := ⟨[], [], .new⟩

/-- DirectedGraphBuilder::add_edge. -/
def DirectedGraphBuilder.addEdge (b : DirectedGraphBuilder) (f t : String) :
    DirectedGraphBuilder :=
  let fr := b.interner.getOrIntern f
  let tr := fr.2.getOrIntern t
  ⟨b.parents ++ [fr.1], b.children ++ [tr.1], tr.2⟩

/-- A builder fed a list of (parent-label, child-label) pairs. -/
def mkBuilder (es : List (String × String)) : DirectedGraphBuilder :=
  es.foldl (fun b e => b.addEdge e.1 e.2) .new

/-- Rust sort_unstable followed by dedup of adjacent duplicates. -/
def sortDedup (l : List Nat) : List Nat := (List.insertionSort (· ≤ ·) l).dedup

/-- find_leaves (src/directed/builder.rs): children absent from the sorted
parent list (binary_search is membership on the sorted input), then
sorted and deduplicated. -/
def findLeavesB (uparents uchildren : List Nat) : List Nat :=
  sortDedup (uchildren.filter (fun c => !(uparents.contains c)))

/-- find_roots (src/directed/builder.rs). -/
def findRootsB (uparents uchildren : List Nat) : List Nat :=
  sortDedup (uparents.filter (fun p => !(uchildren.contains p)))

/-- The first loop of build_directed: insert each child into
children_map[parent].or_init(), counting true insertions. -/
def buildChildrenMap (pairs : List (Nat × Nat)) (n : Nat) : NodeMap × Nat :=
  pairs.foldl
    (fun st pc =>
      let r := (st.1.get pc.1).orInitInsert pc.2
      (st.1.setSlot pc.1 r.1, if r.2 then st.2 + 1 else st.2))
    (NodeMap.new n, 0)

/-- The second loop of build_directed: insert each parent into
parent_map[child].or_init() (no counting). -/
def buildParentMap (pairs : List (Nat × Nat)) (n : Nat) : NodeMap :=
  pairs.foldl (fun m pc => m.setSlot pc.2 ((m.get pc.2).orInitInsert pc.1).1) (NodeMap.new n)

/-- The final loop of build_directed: every node whose slot is still
Uninitialized is transitioned to Empty. -/
def fillEmpties (m : NodeMap) (nodes : List Nat) : NodeMap :=
  nodes.foldl (fun acc v => if (acc.get v).isUninit then acc.setSlot v .empty else acc) m

/-- DirectedGraph (src/directed/mod.rs); the scratch buffers carry no
observable state and are omitted. -/
structure DirectedGraph where
  interner : Resolver
  leaves : List Nat
  roots : List Nat
  nodes : List Nat
  children_map : NodeMap
  parent_map : NodeMap
  n_edges : Nat
deriving Repr, DecidableEq

/-- DirectedGraphBuilder::build_directed (src/directed/builder.rs). -/
def DirectedGraphBuilder.buildDirected (b : DirectedGraphBuilder) : DirectedGraph :=
  let uniqueParents := sortDedup b.parents
  let uniqueChildren := sortDedup b.children
  let nodes := sortDedup (uniqueParents ++ uniqueChildren)
  let leaves := findLeavesB uniqueParents uniqueChildren
  let roots := findRootsB uniqueParents uniqueChildren
  let interner := b.interner.build
  let cm := buildChildrenMap (b.parents.zip b.children) interner.len
  let pm := buildParentMap (b.parents.zip b.children) interner.len
  { interner := interner
    leaves := leaves
    roots := roots
    nodes := nodes
    children_map := fillEmpties cm.1 nodes
    parent_map := fillEmpties pm nodes
    n_edges := cm.2 }

/-- Build the finalized graph of a list of labeled edges. -/
def mkGraph (es : List (String × String)) : DirectedGraph :=
  (mkBuilder es).buildDirected

/-- Children symbols of a node (elements of children_map[p]). -/
def DirectedGraph.childSyms (g : DirectedGraph) (p : Nat) : List Nat :=
  (g.children_map.get p).elems

/-- Parent symbols of a node (elements of parent_map[c]). -/
def DirectedGraph.parentSyms (g : DirectedGraph) (c : Nat) : List Nat :=
  (g.parent_map.get c).elems

/-- The edge relation of a finalized graph, read off children_map. -/
def DirectedGraph.Edge (g : DirectedGraph) (p c : Nat) : Prop :=
  c ∈ g.childSyms p

instance (g : DirectedGraph) (p c : Nat) : Decidable (g.Edge p c) := by
  unfold DirectedGraph.Edge; infer_instance

/-! ### List index helpers -/

theorem getD_set_self {α : Type} (l : List α) (i : Nat) (v d : α) (h : i < l.length) :
    (l.set i v).getD i d = v := by
  induction l generalizing i with
  | nil => simp at h
  | cons a t ih =>
    cases i with
    | zero => simp [List.getD]
    | succ j => simpa [List.getD] using ih j (by simpa using h)

theorem getD_set_ne {α : Type} (l : List α) (i j : Nat) (v d : α) (h : i ≠ j) :
    (l.set i v).getD j d = l.getD j d := by
  induction l generalizing i j with
  | nil => simp
  | cons a t ih =>
    cases i with
    | zero =>
      cases j with
      | zero => exact absurd rfl h
      | succ k => simp [List.getD]
    | succ i2 =>
      cases j with
      | zero => simp [List.getD]
      | succ k => simpa [List.getD] using ih i2 k (fun hh => h (by simp [hh]))

theorem getD_of_len_le {α : Type} (l : List α) (i : Nat) (d : α) (h : l.length ≤ i) :
    l.getD i d = d := by
  induction l generalizing i with
  | nil => simp [List.getD]
  | cons a t ih =>
    cases i with
    | zero => simp at h
    | succ j => simpa [List.getD] using ih j (by simpa using h)

theorem getD_replicate {α : Type} (n i : Nat) (v d : α) (h : i < n) :
    (List.replicate n v).getD i d = v := by
  induction n generalizing i with
  | zero => simp at h
  | succ m ih =>
    cases i with
    | zero => simp [List.getD]
    | succ j => simpa [List.replicate, List.getD] using ih j (by omega)

theorem sum_map_set {α : Type} (f : α → Nat) (l : List α) (i : Nat) (v d : α)
    (h : i < l.length) :
    ((l.set i v).map f).sum + f (l.getD i d) = (l.map f).sum + f v := by
  induction l generalizing i with
  | nil => simp at h
  | cons a t ih =>
    cases i with
    | zero => simp [List.getD]; omega
    | succ j =>
      have := ih j (by simpa using h)
      simp only [List.set, List.map, List.sum_cons, List.getD_cons_succ] at *
      omega

/-! ### NodeMap and LazySet lemmas -/

theorem NodeMap.get_new (n k : Nat) : (NodeMap.new n).get k = .uninit := by
  unfold NodeMap.new NodeMap.get
  rcases Nat.lt_or_ge k n with h | h
  · exact getD_replicate n k _ _ h
  · exact getD_of_len_le _ k _ (by simpa using h)

theorem NodeMap.len_new (n : Nat) : (NodeMap.new n).map.length = n := by
  simp [NodeMap.new]

theorem NodeMap.len_setSlot (m : NodeMap) (k : Nat) (v : LazySet) :
    (m.setSlot k v).map.length = m.map.length := by
  simp [NodeMap.setSlot]

theorem NodeMap.get_setSlot_self (m : NodeMap) (k : Nat) (v : LazySet)
    (h : k < m.map.length) : (m.setSlot k v).get k = v :=
  getD_set_self m.map k v _ h

theorem NodeMap.get_setSlot_ne (m : NodeMap) (k j : Nat) (v : LazySet) (h : k ≠ j) :
    (m.setSlot k v).get j = m.get j :=
  getD_set_ne m.map k j v _ h

theorem NodeMap.get_of_len_le (m : NodeMap) (k : Nat) (h : m.map.length ≤ k) :
    m.get k = .uninit :=
  getD_of_len_le m.map k _ h

/-- Behavior of `or_init().insert` on a slot that is not Empty. -/
theorem orInitInsert_spec (s : LazySet) (c : Nat) (h : s ≠ .empty) :
    (s.orInitInsert c).1.elems = (if c ∈ s.elems then s.elems else s.elems ++ [c])
    ∧ ((s.orInitInsert c).2 = true ↔ c ∉ s.elems)
    ∧ (s.orInitInsert c).1 ≠ .empty
    ∧ (s.orInitInsert c).1.isUninit = false := by
  cases s with
  | uninit => simp [LazySet.orInitInsert, LazySet.elems, LazySet.isUninit]
  | empty => exact absurd rfl h
  | init t =>
    by_cases hc : c ∈ t <;>
      simp [LazySet.orInitInsert, LazySet.elems, LazySet.isUninit, hc]

theorem isUninit_iff (s : LazySet) : s.isUninit = true ↔ s = .uninit := by
  cases s <;> simp [LazySet.isUninit]

theorem elems_uninit_nil (s : LazySet) (h : s.isUninit = true) : s.elems = [] := by
  cases s <;> simp_all [LazySet.isUninit, LazySet.elems]

/-! ### Invariants of the two adjacency-map construction loops -/

/-- State invariant of the children_map loop of build_directed, after the
pairs in `done` have been processed into state `st`. -/
structure CMInv (n : Nat) (done : List (Nat × Nat)) (st : NodeMap × Nat) : Prop where
  len : st.1.map.length = n
  mem : ∀ p c, c ∈ (st.1.get p).elems ↔ (p, c) ∈ done
  nodup : ∀ p, (st.1.get p).elems.Nodup
  ne_empty : ∀ p, st.1.get p ≠ .empty
  uninit_iff : ∀ p, (st.1.get p).isUninit = true ↔ ∀ c, (p, c) ∉ done
  cnt : st.2 = done.toFinset.card
  sums : (st.1.map.map (fun l => l.elems.length)).sum = st.2

theorem cmInv_start (n : Nat) : CMInv n [] (NodeMap.new n, 0) := by
  refine ⟨NodeMap.len_new n, ?_, ?_, ?_, ?_, ?_, ?_⟩
  · intro p c; simp [NodeMap.get_new, LazySet.elems]
  · intro p; simp [NodeMap.get_new, LazySet.elems]
  · intro p; simp [NodeMap.get_new]
  · intro p; simp [NodeMap.get_new, LazySet.isUninit]
  · simp
  · simp [NodeMap.new, List.map_replicate, LazySet.elems]

theorem cmInv_step (n : Nat) (done : List (Nat × Nat)) (st : NodeMap × Nat)
    (pc : Nat × Nat) (hp : pc.1 < n)
    (hinv : CMInv n done st) :
    CMInv n (done ++ [pc])
      (st.1.setSlot pc.1 ((st.1.get pc.1).orInitInsert pc.2).1,
       if ((st.1.get pc.1).orInitInsert pc.2).2 then st.2 + 1 else st.2) := by
  obtain ⟨p, c⟩ := pc
  obtain ⟨hlen, hmem, hnd, hne, hun, hcnt, hsum⟩ := hinv
  replace hp : p < n := hp
  have hplen : p < st.1.map.length := lt_of_lt_of_eq hp hlen.symm
  have hspec := orInitInsert_spec (st.1.get p) c (hne p)
  have hget : ∀ q, (st.1.setSlot p ((st.1.get p).orInitInsert c).1).get q =
      (if q = p then ((st.1.get p).orInitInsert c).1 else st.1.get q) := by
    intro q
    by_cases hq : q = p
    · rw [if_pos hq, hq, NodeMap.get_setSlot_self st.1 p _ hplen]
    · rw [if_neg hq, NodeMap.get_setSlot_ne st.1 p q _ (fun hh => hq hh.symm)]
  constructor
  · simpa [NodeMap.len_setSlot] using hlen
  · intro q d
    rw [hget]
    by_cases hq : q = p
    · subst hq
      rw [if_pos rfl, hspec.1]
      have h1 := hmem q d
      by_cases hc : c ∈ (st.1.get q).elems
      · rw [if_pos hc]
        have h2 := hmem q c
        simp only [List.mem_append, List.mem_singleton, Prod.mk.injEq, true_and]
        constructor
        · intro hd; exact Or.inl (h1.mp hd)
        · rintro (hd | rfl)
          · exact h1.mpr hd
          · exact hc
      · rw [if_neg hc]
        simp only [List.mem_append, List.mem_singleton, Prod.mk.injEq, true_and]
        constructor
        · rintro (hd | hd)
          · exact Or.inl (h1.mp hd)
          · exact Or.inr hd
        · rintro (hd | rfl)
          · exact Or.inl (h1.mpr hd)
          · exact Or.inr rfl
    · rw [if_neg hq]
      have h1 := hmem q d
      simp only [List.mem_append, List.mem_singleton, Prod.mk.injEq]
      constructor
      · intro hd; exact Or.inl (h1.mp hd)
      · rintro (hd | ⟨rfl, rfl⟩)
        · exact h1.mpr hd
        · exact absurd rfl hq
  · intro q
    rw [hget]
    by_cases hq : q = p
    · subst hq
      rw [if_pos rfl, hspec.1]
      by_cases hc : c ∈ (st.1.get q).elems
      · rw [if_pos hc]; exact hnd q
      · rw [if_neg hc]
        simp only [List.nodup_append, List.nodup_singleton]
        exact ⟨hnd q, trivial, by simpa using hc⟩
    · rw [if_neg hq]; exact hnd q
  · intro q
    rw [hget]
    by_cases hq : q = p
    · rw [if_pos hq]; exact hspec.2.2.1
    · rw [if_neg hq]; exact hne q
  · intro q
    rw [hget]
    by_cases hq : q = p
    · subst hq
      rw [if_pos rfl]
      refine iff_of_false (by simp [hspec.2.2.2]) ?_
      intro h
      exact h c (List.mem_append.mpr (Or.inr (List.mem_singleton.mpr rfl)))
    · rw [if_neg hq]
      rw [hun q]
      constructor
      · intro h d hd
        rcases List.mem_append.mp hd with hd | hd
        · exact h d hd
        · have hx : (q, d) = (p, c) := List.mem_singleton.mp hd
          exact hq (congrArg Prod.fst hx)
      · intro h d hd
        exact h d (List.mem_append.mpr (Or.inl hd))
  · have hfresh := hspec.2.1
    have htf : (done ++ [(p, c)]).toFinset = insert (p, c) done.toFinset := by
      rw [List.toFinset_append]
      rw [Finset.union_comm]
      simp [Finset.insert_eq]
    by_cases hin : ((st.1.get p).orInitInsert c).2 = true
    · have hcnotin : (p, c) ∉ done := by
        rw [← hmem p c]; exact (hfresh.mp hin)
      simp only [if_pos hin]
      rw [hcnt, htf, Finset.card_insert_of_not_mem (by simpa using hcnotin)]
    · have hcin : (p, c) ∈ done := by
        rw [← hmem p c]
        by_contra hno
        exact hin (hfresh.mpr hno)
      simp only [if_neg hin]
      rw [hcnt]
      rw [htf, Finset.insert_eq_self.mpr (by simpa using hcin)]
  · have hkey2 : ((st.1.map.set p ((st.1.get p).orInitInsert c).1).map
        (fun l => l.elems.length)).sum + (st.1.get p).elems.length
        = (st.1.map.map (fun l => l.elems.length)).sum
          + ((st.1.get p).orInitInsert c).1.elems.length :=
      sum_map_set (fun l => l.elems.length) st.1.map p
        ((st.1.get p).orInitInsert c).1 .uninit hplen
    rw [hspec.1] at hkey2
    by_cases hc : c ∈ (st.1.get p).elems
    · have hin : ¬ ((st.1.get p).orInitInsert c).2 = true := by
        intro hh; exact (hspec.2.1.mp hh) hc
      rw [if_pos hc] at hkey2
      simp only [if_neg hin, NodeMap.setSlot] at *
      omega
    · have hin : ((st.1.get p).orInitInsert c).2 = true := hspec.2.1.mpr hc
      rw [if_neg hc] at hkey2
      simp only [List.length_append, List.length_cons, List.length_nil] at hkey2
      simp only [if_pos hin, NodeMap.setSlot] at *
      omega

/-- Processing a list of pairs through the children_map loop preserves the invariant. -/
theorem cmInv_fold (n : Nat) (pairs : List (Nat × Nat)) :
    ∀ (done : List (Nat × Nat)) (st : NodeMap × Nat),
    (∀ pc ∈ pairs, pc.1 < n) → CMInv n done st →
    CMInv n (done ++ pairs)
      (pairs.foldl
        (fun st pc =>
          let r := (st.1.get pc.1).orInitInsert pc.2
          (st.1.setSlot pc.1 r.1, if r.2 then st.2 + 1 else st.2)) st) := by
  induction pairs with
  | nil => intro done st _ h; simpa using h
  | cons pc rest ih =>
    intro done st hwf h
    have h1 := cmInv_step n done st pc (hwf pc (by simp)) h
    have h2 := ih (done ++ [pc]) _ (fun x hx => hwf x (by simp [hx])) h1
    simpa using h2

theorem buildChildrenMap_inv (pairs : List (Nat × Nat)) (n : Nat)
    (hwf : ∀ pc ∈ pairs, pc.1 < n) :
    CMInv n pairs (buildChildrenMap pairs n) := by
  have := cmInv_fold n pairs [] (NodeMap.new n, 0) hwf (cmInv_start n)
  simpa [buildChildrenMap] using this

/-- State invariant of the parent_map loop of build_directed. -/
structure PMInv (n : Nat) (done : List (Nat × Nat)) (m : NodeMap) : Prop where
  len : m.map.length = n
  mem : ∀ p c, p ∈ (m.get c).elems ↔ (p, c) ∈ done
  nodup : ∀ c, (m.get c).elems.Nodup
  ne_empty : ∀ c, m.get c ≠ .empty
  uninit_iff : ∀ c, (m.get c).isUninit = true ↔ ∀ p, (p, c) ∉ done
  sums : (m.map.map (fun l => l.elems.length)).sum = done.toFinset.card

theorem pmInv_start (n : Nat) : PMInv n [] (NodeMap.new n) := by
  refine ⟨NodeMap.len_new n, ?_, ?_, ?_, ?_, ?_⟩
  · intro p c; simp [NodeMap.get_new, LazySet.elems]
  · intro c; simp [NodeMap.get_new, LazySet.elems]
  · intro c; simp [NodeMap.get_new]
  · intro c; simp [NodeMap.get_new, LazySet.isUninit]
  · simp [NodeMap.new, List.map_replicate, LazySet.elems]

theorem pmInv_step (n : Nat) (done : List (Nat × Nat)) (m : NodeMap)
    (pc : Nat × Nat) (hc2 : pc.2 < n)
    (hinv : PMInv n done m) :
    PMInv n (done ++ [pc]) (m.setSlot pc.2 ((m.get pc.2).orInitInsert pc.1).1) := by
  obtain ⟨p, c⟩ := pc
  obtain ⟨hlen, hmem, hnd, hne, hun, hsum⟩ := hinv
  replace hc2 : c < n := hc2
  have hclen : c < m.map.length := lt_of_lt_of_eq hc2 hlen.symm
  have hspec := orInitInsert_spec (m.get c) p (hne c)
  have hget : ∀ q, (m.setSlot c ((m.get c).orInitInsert p).1).get q =
      (if q = c then ((m.get c).orInitInsert p).1 else m.get q) := by
    intro q
    by_cases hq : q = c
    · rw [if_pos hq, hq, NodeMap.get_setSlot_self m c _ hclen]
    · rw [if_neg hq, NodeMap.get_setSlot_ne m c q _ (fun hh => hq hh.symm)]
  constructor
  · simpa [NodeMap.len_setSlot] using hlen
  · intro d q
    rw [hget]
    by_cases hq : q = c
    · subst hq
      rw [if_pos rfl, hspec.1]
      have h1 := hmem d q
      by_cases hcm : p ∈ (m.get q).elems
      · rw [if_pos hcm]
        simp only [List.mem_append, List.mem_singleton, Prod.mk.injEq, and_true]
        constructor
        · intro hd; exact Or.inl (h1.mp hd)
        · rintro (hd | rfl)
          · exact h1.mpr hd
          · exact hcm
      · rw [if_neg hcm]
        simp only [List.mem_append, List.mem_singleton, Prod.mk.injEq, and_true]
        constructor
        · rintro (hd | hd)
          · exact Or.inl (h1.mp hd)
          · exact Or.inr hd
        · rintro (hd | rfl)
          · exact Or.inl (h1.mpr hd)
          · exact Or.inr rfl
    · rw [if_neg hq]
      have h1 := hmem d q
      simp only [List.mem_append, List.mem_singleton, Prod.mk.injEq]
      constructor
      · intro hd; exact Or.inl (h1.mp hd)
      · rintro (hd | ⟨rfl, rfl⟩)
        · exact h1.mpr hd
        · exact absurd rfl hq
  · intro q
    rw [hget]
    by_cases hq : q = c
    · subst hq
      rw [if_pos rfl, hspec.1]
      by_cases hcm : p ∈ (m.get q).elems
      · rw [if_pos hcm]; exact hnd q
      · rw [if_neg hcm]
        simp only [List.nodup_append, List.nodup_singleton]
        exact ⟨hnd q, trivial, by simpa using hcm⟩
    · rw [if_neg hq]; exact hnd q
  · intro q
    rw [hget]
    by_cases hq : q = c
    · rw [if_pos hq]; exact hspec.2.2.1
    · rw [if_neg hq]; exact hne q
  · intro q
    rw [hget]
    by_cases hq : q = c
    · subst hq
      rw [if_pos rfl]
      refine iff_of_false (by simp [hspec.2.2.2]) ?_
      intro h
      exact h p (List.mem_append.mpr (Or.inr (List.mem_singleton.mpr rfl)))
    · rw [if_neg hq]
      rw [hun q]
      constructor
      · intro h d hd
        rcases List.mem_append.mp hd with hd | hd
        · exact h d hd
        · have hx : (d, q) = (p, c) := List.mem_singleton.mp hd
          exact hq (congrArg Prod.snd hx)
      · intro h d hd
        exact h d (List.mem_append.mpr (Or.inl hd))
  · have htf : (done ++ [(p, c)]).toFinset = insert (p, c) done.toFinset := by
      rw [List.toFinset_append]
      rw [Finset.union_comm]
      simp [Finset.insert_eq]
    have hkey2 : ((m.map.set c ((m.get c).orInitInsert p).1).map
        (fun l => l.elems.length)).sum + (m.get c).elems.length
        = (m.map.map (fun l => l.elems.length)).sum
          + ((m.get c).orInitInsert p).1.elems.length :=
      sum_map_set (fun l => l.elems.length) m.map c
        ((m.get c).orInitInsert p).1 .uninit hclen
    rw [hspec.1] at hkey2
    by_cases hcm : p ∈ (m.get c).elems
    · have hcin : (p, c) ∈ done := (hmem p c).mp hcm
      rw [if_pos hcm] at hkey2
      rw [htf, Finset.insert_eq_self.mpr (by simpa using hcin)]
      simp only [NodeMap.setSlot] at *
      omega
    · have hcnotin : (p, c) ∉ done := fun hh => hcm ((hmem p c).mpr hh)
      rw [if_neg hcm] at hkey2
      simp only [List.length_append, List.length_cons, List.length_nil] at hkey2
      rw [htf, Finset.card_insert_of_not_mem (by simpa using hcnotin)]
      simp only [NodeMap.setSlot] at *
      omega

theorem pmInv_fold (n : Nat) (pairs : List (Nat × Nat)) :
    ∀ (done : List (Nat × Nat)) (m : NodeMap),
    (∀ pc ∈ pairs, pc.2 < n) → PMInv n done m →
    PMInv n (done ++ pairs)
      (pairs.foldl (fun m pc => m.setSlot pc.2 ((m.get pc.2).orInitInsert pc.1).1) m) := by
  induction pairs with
  | nil => intro done m _ h; simpa using h
  | cons pc rest ih =>
    intro done m hwf h
    have h1 := pmInv_step n done m pc (hwf pc (by simp)) h
    have h2 := ih (done ++ [pc]) _ (fun x hx => hwf x (by simp [hx])) h1
    simpa using h2

theorem buildParentMap_inv (pairs : List (Nat × Nat)) (n : Nat)
    (hwf : ∀ pc ∈ pairs, pc.2 < n) :
    PMInv n pairs (buildParentMap pairs n) := by
  have := pmInv_fold n pairs [] (NodeMap.new n) hwf (pmInv_start n)
  simpa [buildParentMap] using this

/-! ### fillEmpties lemmas -/

theorem fillEmpties_len (m : NodeMap) (nodes : List Nat) :
    (fillEmpties m nodes).map.length = m.map.length := by
  induction nodes generalizing m with
  | nil => simp [fillEmpties]
  | cons a rest ih =>
    show (fillEmpties (if (m.get a).isUninit then m.setSlot a .empty else m) rest).map.length = _
    by_cases h : (m.get a).isUninit = true
    · rw [if_pos h, ih]; exact NodeMap.len_setSlot m a .empty
    · rw [if_neg h, ih]

theorem fillEmpties_get (m : NodeMap) (nodes : List Nat) (v : Nat) :
    (fillEmpties m nodes).get v =
      if v ∈ nodes ∧ (m.get v).isUninit = true ∧ v < m.map.length then .empty
      else m.get v := by
  induction nodes generalizing m with
  | nil => simp [fillEmpties]
  | cons a rest ih =>
    show (fillEmpties (if (m.get a).isUninit then m.setSlot a .empty else m) rest).get v = _
    by_cases ha : (m.get a).isUninit = true
    · rw [if_pos ha]
      rw [ih]
      by_cases hva : v = a
      · subst hva
        by_cases hlt : v < m.map.length
        · have hget : (m.setSlot v .empty).get v = .empty :=
            NodeMap.get_setSlot_self m v .empty hlt
          have hcondL : ¬ (v ∈ rest ∧ ((m.setSlot v .empty).get v).isUninit = true
              ∧ v < (m.setSlot v .empty).map.length) := by
            rw [hget]
            rintro ⟨_, hu, _⟩
            simp [LazySet.isUninit] at hu
          rw [if_neg hcondL, hget, if_pos ⟨List.mem_cons_self v rest, ha, hlt⟩]
        · have hset : m.setSlot v .empty = m := by
            unfold NodeMap.setSlot
            rw [List.set_eq_of_length_le (by omega)]
          rw [hset]
          have hcond : ¬ (v ∈ v :: rest ∧ (m.get v).isUninit = true ∧ v < m.map.length) := by
            rintro ⟨_, _, hh⟩; omega
          rw [if_neg hcond]
          by_cases hvr : v ∈ rest ∧ (m.get v).isUninit = true ∧ v < m.map.length
          · omega
          · rw [if_neg hvr]
      · have hget : (m.setSlot a .empty).get v = m.get v :=
          NodeMap.get_setSlot_ne m a v .empty (fun hh => hva hh.symm)
        rw [hget, NodeMap.len_setSlot]
        by_cases hvr : v ∈ rest ∧ (m.get v).isUninit = true ∧ v < m.map.length
        · rw [if_pos hvr, if_pos ⟨by simp [hvr.1], hvr.2⟩]
        · rw [if_neg hvr, if_neg (by
            rintro ⟨hm, hrest⟩
            rcases List.mem_cons.mp hm with rfl | hm
            · exact hva rfl
            · exact hvr ⟨hm, hrest⟩)]
    · rw [if_neg ha]
      rw [ih]
      by_cases hvr : v ∈ rest ∧ (m.get v).isUninit = true ∧ v < m.map.length
      · rw [if_pos hvr, if_pos ⟨by simp [hvr.1], hvr.2⟩]
      · rw [if_neg hvr, if_neg (by
          rintro ⟨hm, hrest⟩
          rcases List.mem_cons.mp hm with rfl | hm
          · exact ha hrest.1
          · exact hvr ⟨hm, hrest⟩)]

theorem fillEmpties_elems (m : NodeMap) (nodes : List Nat) (v : Nat) :
    ((fillEmpties m nodes).get v).elems = (m.get v).elems := by
  rw [fillEmpties_get]
  by_cases h : v ∈ nodes ∧ (m.get v).isUninit = true ∧ v < m.map.length
  · rw [if_pos h]
    rw [elems_uninit_nil _ h.2.1]
    simp [LazySet.elems]
  · rw [if_neg h]

theorem fillEmpties_sum (m : NodeMap) (nodes : List Nat) :
    ((fillEmpties m nodes).map.map (fun l => l.elems.length)).sum
      = (m.map.map (fun l => l.elems.length)).sum := by
  induction nodes generalizing m with
  | nil => simp [fillEmpties]
  | cons a rest ih =>
    show ((fillEmpties (if (m.get a).isUninit then m.setSlot a .empty else m) rest).map.map _).sum = _
    by_cases ha : (m.get a).isUninit = true
    · rw [if_pos ha, ih]
      by_cases hlt : a < m.map.length
      · have hkey : ((m.map.set a LazySet.empty).map (fun l => l.elems.length)).sum
            + (m.get a).elems.length
            = (m.map.map (fun l => l.elems.length)).sum + LazySet.empty.elems.length :=
          sum_map_set (fun l => l.elems.length) m.map a .empty .uninit hlt
        rw [elems_uninit_nil _ ha] at hkey
        simp only [LazySet.elems, List.length_nil, Nat.add_zero] at hkey
        simpa [NodeMap.setSlot] using hkey
      · have hset : m.setSlot a .empty = m := by
          unfold NodeMap.setSlot
          rw [List.set_eq_of_length_le (by omega)]
        rw [hset]
    · rw [if_neg ha, ih]

/-! ### sortDedup lemmas -/

theorem mem_sortDedup (l : List Nat) (v : Nat) : v ∈ sortDedup l ↔ v ∈ l := by
  unfold sortDedup
  rw [List.mem_dedup]
  exact (List.perm_insertionSort (· ≤ ·) l).mem_iff

theorem sortDedup_sorted_le (l : List Nat) : (sortDedup l).Sorted (· ≤ ·) :=
  (List.sorted_insertionSort (· ≤ ·) l).sublist (List.dedup_sublist _)

theorem sortDedup_nodup (l : List Nat) : (sortDedup l).Nodup :=
  List.nodup_dedup _

theorem sortDedup_sorted_lt (l : List Nat) : (sortDedup l).Sorted (· < ·) := by
  have hle := sortDedup_sorted_le l
  have hnd := sortDedup_nodup l
  rw [List.Sorted] at *
  rw [List.Nodup] at hnd
  exact (List.pairwise_and_iff.mpr ⟨hle, hnd⟩).imp (fun h => lt_of_le_of_ne h.1 h.2)

/-! ### Interner lemmas -/

theorem getOrIntern_isPrefixOf (b : InternerBuilder) (l : String) :
    b.strs <+: (b.getOrIntern l).2.strs := by
  unfold InternerBuilder.getOrIntern
  by_cases h : l ∈ b.strs
  · rw [if_pos h]
  · rw [if_neg h]; exact ⟨[l], rfl⟩

theorem getOrIntern_nodup (b : InternerBuilder) (l : String) (h : b.strs.Nodup) :
    (b.getOrIntern l).2.strs.Nodup := by
  unfold InternerBuilder.getOrIntern
  by_cases hm : l ∈ b.strs
  · rw [if_pos hm]; exact h
  · rw [if_neg hm]
    simp [List.nodup_append, h, hm]

theorem getOrIntern_mem_iff (b : InternerBuilder) (l x : String) :
    x ∈ (b.getOrIntern l).2.strs ↔ x ∈ b.strs ∨ x = l := by
  unfold InternerBuilder.getOrIntern
  by_cases hm : l ∈ b.strs
  · rw [if_pos hm]
    constructor
    · exact Or.inl
    · rintro (h | rfl)
      · exact h
      · exact hm
  · rw [if_neg hm]
    simp

theorem getOrIntern_mem_self (b : InternerBuilder) (l : String) :
    l ∈ (b.getOrIntern l).2.strs := by
  rw [getOrIntern_mem_iff]; exact Or.inr rfl

theorem getOrIntern_sym (b : InternerBuilder) (l : String) :
    (b.getOrIntern l).1 = (b.getOrIntern l).2.strs.indexOf l := by
  unfold InternerBuilder.getOrIntern
  by_cases hm : l ∈ b.strs
  · rw [if_pos hm]
  · rw [if_neg hm]
    show b.strs.length = (b.strs ++ [l]).indexOf l
    rw [List.indexOf_append_of_not_mem hm]
    simp

theorem indexOf_prefix_stable (s1 s2 : List String) (l : String)
    (h : l ∈ s1) (hp : s1 <+: s2) : s2.indexOf l = s1.indexOf l := by
  obtain ⟨t, rfl⟩ := hp
  exact List.indexOf_append_of_mem h

theorem mem_of_isPrefixOf {s1 s2 : List String} {l : String} (h : l ∈ s1) (hp : s1 <+: s2) :
    l ∈ s2 := by
  obtain ⟨t, rfl⟩ := hp
  exact List.mem_append.mpr (Or.inl h)

/-! ### The builder fold: what add_edge accumulates -/

/-- Everything relating a starting builder `b`, the edges `es` subsequently fed
to add_edge, and the resulting builder `bf`. -/
structure BuildSpec (b bf : DirectedGraphBuilder) (es : List (String × String)) : Prop where
  pre : b.interner.strs <+: bf.interner.strs
  nodup : bf.interner.strs.Nodup
  parents_eq : bf.parents = b.parents ++ es.map (fun e => bf.interner.strs.indexOf e.1)
  children_eq : bf.children = b.children ++ es.map (fun e => bf.interner.strs.indexOf e.2)
  mem_labels : ∀ e ∈ es, e.1 ∈ bf.interner.strs ∧ e.2 ∈ bf.interner.strs
  mem_iff : ∀ l, l ∈ bf.interner.strs ↔ l ∈ b.interner.strs ∨ ∃ e ∈ es, l = e.1 ∨ l = e.2

theorem buildSpec_fold (es : List (String × String)) :
    ∀ (b : DirectedGraphBuilder), b.interner.strs.Nodup →
    BuildSpec b (es.foldl (fun b e => b.addEdge e.1 e.2) b) es := by
  induction es with
  | nil =>
    intro b hnd
    refine ⟨List.prefix_refl _, hnd, by simp, by simp, by simp, by simp⟩
  | cons e rest ih =>
    intro b hnd
    set b1 := b.addEdge e.1 e.2 with hb1
    have hi1 : b1.interner = ((b.interner.getOrIntern e.1).2.getOrIntern e.2).2 := rfl
    have hpre1 : b.interner.strs <+: b1.interner.strs := by
      rw [hi1]
      exact (getOrIntern_isPrefixOf b.interner e.1).trans
        (getOrIntern_isPrefixOf (b.interner.getOrIntern e.1).2 e.2)
    have hnd1 : b1.interner.strs.Nodup := by
      rw [hi1]
      exact getOrIntern_nodup _ _ (getOrIntern_nodup _ _ hnd)
    have hspec := ih b1 hnd1
    have hfold : rest.foldl (fun b e => b.addEdge e.1 e.2) b1
        = (e :: rest).foldl (fun b e => b.addEdge e.1 e.2) b := by
      simp [List.foldl_cons]
    set bf := rest.foldl (fun b e => b.addEdge e.1 e.2) b1 with hbf
    rw [← hfold]
    have hm1 : e.1 ∈ b1.interner.strs := by
      rw [hi1]
      exact mem_of_isPrefixOf (getOrIntern_mem_self b.interner e.1)
        (getOrIntern_isPrefixOf (b.interner.getOrIntern e.1).2 e.2)
    have hm2 : e.2 ∈ b1.interner.strs := by
      rw [hi1]
      exact getOrIntern_mem_self (b.interner.getOrIntern e.1).2 e.2
    have hsym1 : (b.interner.getOrIntern e.1).1 = bf.interner.strs.indexOf e.1 := by
      rw [getOrIntern_sym]
      have hmem : e.1 ∈ (b.interner.getOrIntern e.1).2.strs :=
        getOrIntern_mem_self b.interner e.1
      have hp2 : (b.interner.getOrIntern e.1).2.strs <+: bf.interner.strs :=
        (getOrIntern_isPrefixOf (b.interner.getOrIntern e.1).2 e.2).trans hspec.pre
      exact (indexOf_prefix_stable _ _ _ hmem hp2).symm
    have hsym2 : ((b.interner.getOrIntern e.1).2.getOrIntern e.2).1
        = bf.interner.strs.indexOf e.2 := by
      rw [getOrIntern_sym]
      exact (indexOf_prefix_stable _ _ _ hm2 hspec.pre).symm
    refine ⟨hpre1.trans hspec.pre, hspec.nodup, ?_, ?_, ?_, ?_⟩
    · rw [hspec.parents_eq]
      have hp1 : b1.parents = b.parents ++ [(b.interner.getOrIntern e.1).1] := rfl
      rw [hp1, hsym1]
      simp
    · rw [hspec.children_eq]
      have hc1 : b1.children = b.children ++ [((b.interner.getOrIntern e.1).2.getOrIntern e.2).1] := rfl
      rw [hc1, hsym2]
      simp
    · intro x hx
      rcases List.mem_cons.mp hx with rfl | hx
      · exact ⟨mem_of_isPrefixOf hm1 hspec.pre, mem_of_isPrefixOf hm2 hspec.pre⟩
      · exact hspec.mem_labels x hx
    · intro l
      rw [hspec.mem_iff l]
      have hb1mem : l ∈ b1.interner.strs ↔ l ∈ b.interner.strs ∨ l = e.1 ∨ l = e.2 := by
        rw [hi1, getOrIntern_mem_iff, getOrIntern_mem_iff]
        tauto
      rw [hb1mem]
      constructor
      · rintro ((h | h | h) | ⟨d, hd, h⟩)
        · exact Or.inl h
        · exact Or.inr ⟨e, by simp, Or.inl h⟩
        · exact Or.inr ⟨e, by simp, Or.inr h⟩
        · exact Or.inr ⟨d, by simp [hd], h⟩
      · rintro (h | ⟨d, hd, h⟩)
        · exact Or.inl (Or.inl h)
        · rcases List.mem_cons.mp hd with rfl | hd
          · exact Or.inl (Or.inr h)
          · exact Or.inr ⟨d, hd, h⟩

/-- The specification of mkBuilder es relative to the empty builder. -/
theorem mkBuilder_spec (es : List (String × String)) :
    BuildSpec .new (mkBuilder es) es :=
  buildSpec_fold es .new (by simp [DirectedGraphBuilder.new, InternerBuilder.new])

/-! ### Characterization of the finalized graph -/

/-- Well-formedness of a builder state: the two edge vectors run in parallel
and every stored symbol was issued by the interner. -/
def BWF (b : DirectedGraphBuilder) : Prop :=
  b.parents.length = b.children.length ∧
  (∀ s ∈ b.parents, s < b.interner.strs.length) ∧
  (∀ s ∈ b.children, s < b.interner.strs.length)

theorem mkBuilder_wf (es : List (String × String)) : BWF (mkBuilder es) := by
  have hs := mkBuilder_spec es
  refine ⟨?_, ?_, ?_⟩
  · rw [hs.parents_eq, hs.children_eq]; simp [DirectedGraphBuilder.new]
  · intro s hsmem
    rw [hs.parents_eq] at hsmem
    simp only [DirectedGraphBuilder.new, List.nil_append, List.mem_map] at hsmem
    obtain ⟨e, he, rfl⟩ := hsmem
    exact List.indexOf_lt_length.mpr (hs.mem_labels e he).1
  · intro s hsmem
    rw [hs.children_eq] at hsmem
    simp only [DirectedGraphBuilder.new, List.nil_append, List.mem_map] at hsmem
    obtain ⟨e, he, rfl⟩ := hsmem
    exact List.indexOf_lt_length.mpr (hs.mem_labels e he).2

/-- The edge list a builder state holds. -/
def DirectedGraphBuilder.pairs (b : DirectedGraphBuilder) : List (Nat × Nat) :=
  b.parents.zip b.children

theorem buildDirected_interner (b : DirectedGraphBuilder) :
    (b.buildDirected).interner = b.interner.build := rfl

theorem buildDirected_nodes (b : DirectedGraphBuilder) :
    (b.buildDirected).nodes = sortDedup (sortDedup b.parents ++ sortDedup b.children) := rfl

theorem buildDirected_roots (b : DirectedGraphBuilder) :
    (b.buildDirected).roots = findRootsB (sortDedup b.parents) (sortDedup b.children) := rfl

theorem buildDirected_leaves (b : DirectedGraphBuilder) :
    (b.buildDirected).leaves = findLeavesB (sortDedup b.parents) (sortDedup b.children) := rfl

theorem buildDirected_children_map (b : DirectedGraphBuilder) :
    (b.buildDirected).children_map =
      fillEmpties (buildChildrenMap b.pairs b.interner.strs.length).1
        (b.buildDirected).nodes := rfl

theorem buildDirected_parent_map (b : DirectedGraphBuilder) :
    (b.buildDirected).parent_map =
      fillEmpties (buildParentMap b.pairs b.interner.strs.length)
        (b.buildDirected).nodes := rfl

theorem buildDirected_n_edges (b : DirectedGraphBuilder) :
    (b.buildDirected).n_edges = (buildChildrenMap b.pairs b.interner.strs.length).2 := rfl

theorem pairs_wf (b : DirectedGraphBuilder) (hwf : BWF b) :
    ∀ pc ∈ b.pairs, pc.1 < b.interner.strs.length ∧ pc.2 < b.interner.strs.length := by
  intro pc hpc
  have := List.of_mem_zip hpc
  exact ⟨hwf.2.1 pc.1 this.1, hwf.2.2 pc.2 this.2⟩

theorem exists_mem_zip_right {α β : Type} (l1 : List α) (l2 : List β)
    (h : l1.length = l2.length) (c : β) (hc : c ∈ l2) : ∃ p, (p, c) ∈ l1.zip l2 := by
  induction l1 generalizing l2 with
  | nil => cases l2 with
    | nil => simp at hc
    | cons x xs => simp at h
  | cons a t ih =>
    cases l2 with
    | nil => simp at hc
    | cons x xs =>
      rcases List.mem_cons.mp hc with rfl | hc
      · exact ⟨a, by simp⟩
      · obtain ⟨p, hp⟩ := ih xs (by simpa using h) hc
        exact ⟨p, by simp [hp]⟩

theorem exists_mem_zip_left {α β : Type} (l1 : List α) (l2 : List β)
    (h : l1.length = l2.length) (p : α) (hp : p ∈ l1) : ∃ c, (p, c) ∈ l1.zip l2 := by
  induction l1 generalizing l2 with
  | nil => simp at hp
  | cons a t ih =>
    cases l2 with
    | nil => simp at h
    | cons x xs =>
      rcases List.mem_cons.mp hp with rfl | hp
      · exact ⟨x, by simp⟩
      · obtain ⟨c, hc⟩ := ih xs (by simpa using h) hp
        exact ⟨c, by simp [hc]⟩

theorem mem_parents_iff_pairs (b : DirectedGraphBuilder) (hwf : BWF b) (p : Nat) :
    p ∈ b.parents ↔ ∃ c, (p, c) ∈ b.pairs := by
  constructor
  · intro h; exact exists_mem_zip_left b.parents b.children hwf.1 p h
  · rintro ⟨c, hc⟩; exact (List.of_mem_zip hc).1

theorem mem_children_iff_pairs (b : DirectedGraphBuilder) (hwf : BWF b) (c : Nat) :
    c ∈ b.children ↔ ∃ p, (p, c) ∈ b.pairs := by
  constructor
  · intro h; exact exists_mem_zip_right b.parents b.children hwf.1 c h
  · rintro ⟨p, hp⟩; exact (List.of_mem_zip hp).2

theorem mem_nodes_iff (b : DirectedGraphBuilder) (v : Nat) :
    v ∈ (b.buildDirected).nodes ↔ v ∈ b.parents ∨ v ∈ b.children := by
  rw [buildDirected_nodes, mem_sortDedup, List.mem_append, mem_sortDedup, mem_sortDedup]

/-- Membership in the finalized children map is exactly the edge list. -/
theorem childSyms_iff (b : DirectedGraphBuilder) (hwf : BWF b) (p c : Nat) :
    c ∈ (b.buildDirected).childSyms p ↔ (p, c) ∈ b.pairs := by
  have hinv := buildChildrenMap_inv b.pairs b.interner.strs.length
    (fun pc hpc => (pairs_wf b hwf pc hpc).1)
  unfold DirectedGraph.childSyms
  rw [buildDirected_children_map, fillEmpties_elems]
  exact hinv.mem p c

theorem parentSyms_iff (b : DirectedGraphBuilder) (hwf : BWF b) (p c : Nat) :
    p ∈ (b.buildDirected).parentSyms c ↔ (p, c) ∈ b.pairs := by
  have hinv := buildParentMap_inv b.pairs b.interner.strs.length
    (fun pc hpc => (pairs_wf b hwf pc hpc).2)
  unfold DirectedGraph.parentSyms
  rw [buildDirected_parent_map, fillEmpties_elems]
  exact hinv.mem p c

theorem childSyms_nodup (b : DirectedGraphBuilder) (hwf : BWF b) (p : Nat) :
    ((b.buildDirected).childSyms p).Nodup := by
  have hinv := buildChildrenMap_inv b.pairs b.interner.strs.length
    (fun pc hpc => (pairs_wf b hwf pc hpc).1)
  unfold DirectedGraph.childSyms
  rw [buildDirected_children_map, fillEmpties_elems]
  exact hinv.nodup p

theorem parentSyms_nodup (b : DirectedGraphBuilder) (hwf : BWF b) (c : Nat) :
    ((b.buildDirected).parentSyms c).Nodup := by
  have hinv := buildParentMap_inv b.pairs b.interner.strs.length
    (fun pc hpc => (pairs_wf b hwf pc hpc).2)
  unfold DirectedGraph.parentSyms
  rw [buildDirected_parent_map, fillEmpties_elems]
  exact hinv.nodup c

theorem n_edges_eq_card (b : DirectedGraphBuilder) (hwf : BWF b) :
    (b.buildDirected).n_edges = b.pairs.toFinset.card := by
  have hinv := buildChildrenMap_inv b.pairs b.interner.strs.length
    (fun pc hpc => (pairs_wf b hwf pc hpc).1)
  rw [buildDirected_n_edges]
  exact hinv.cnt

/-- The parent slot of a finalized graph is in the Empty state exactly for the
nodes that never occur as a child. -/
theorem parent_map_empty_iff (b : DirectedGraphBuilder) (hwf : BWF b) (v : Nat) :
    (b.buildDirected).parent_map.get v = .empty ↔
      v ∈ (b.buildDirected).nodes ∧ v ∉ b.children := by
  have hinv := buildParentMap_inv b.pairs b.interner.strs.length
    (fun pc hpc => (pairs_wf b hwf pc hpc).2)
  rw [buildDirected_parent_map, fillEmpties_get]
  by_cases hcond : v ∈ (b.buildDirected).nodes
      ∧ ((buildParentMap b.pairs b.interner.strs.length).get v).isUninit = true
      ∧ v < (buildParentMap b.pairs b.interner.strs.length).map.length
  · rw [if_pos hcond]
    simp only [true_iff]
    refine ⟨hcond.1, ?_⟩
    intro hvc
    obtain ⟨p, hp⟩ := (mem_children_iff_pairs b hwf v).mp hvc
    exact ((hinv.uninit_iff v).mp hcond.2.1) p hp
  · rw [if_neg hcond]
    constructor
    · intro habs
      exact absurd habs (hinv.ne_empty v)
    · rintro ⟨hv, hnc⟩
      exfalso
      apply hcond
      refine ⟨hv, ?_, ?_⟩
      · rw [hinv.uninit_iff v]
        intro p hp
        exact hnc ((mem_children_iff_pairs b hwf v).mpr ⟨p, hp⟩)
      · rw [hinv.len]
        rcases (mem_nodes_iff b v).mp hv with h | h
        · exact hwf.2.1 v h
        · exact hwf.2.2 v h

/-- The child slot of a finalized graph is in the Empty state exactly for the
nodes that never occur as a parent. -/
theorem children_map_empty_iff (b : DirectedGraphBuilder) (hwf : BWF b) (v : Nat) :
    (b.buildDirected).children_map.get v = .empty ↔
      v ∈ (b.buildDirected).nodes ∧ v ∉ b.parents := by
  have hinv := buildChildrenMap_inv b.pairs b.interner.strs.length
    (fun pc hpc => (pairs_wf b hwf pc hpc).1)
  rw [buildDirected_children_map, fillEmpties_get]
  by_cases hcond : v ∈ (b.buildDirected).nodes
      ∧ ((buildChildrenMap b.pairs b.interner.strs.length).1.get v).isUninit = true
      ∧ v < (buildChildrenMap b.pairs b.interner.strs.length).1.map.length
  · rw [if_pos hcond]
    simp only [true_iff]
    refine ⟨hcond.1, ?_⟩
    intro hvp
    obtain ⟨c, hc⟩ := (mem_parents_iff_pairs b hwf v).mp hvp
    exact ((hinv.uninit_iff v).mp hcond.2.1) c hc
  · rw [if_neg hcond]
    constructor
    · intro habs
      exact absurd habs (hinv.ne_empty v)
    · rintro ⟨hv, hnp⟩
      exfalso
      apply hcond
      refine ⟨hv, ?_, ?_⟩
      · rw [hinv.uninit_iff v]
        intro c hc
        exact hnp ((mem_parents_iff_pairs b hwf v).mpr ⟨c, hc⟩)
      · rw [hinv.len]
        rcases (mem_nodes_iff b v).mp hv with h | h
        · exact hwf.2.1 v h
        · exact hwf.2.2 v h

theorem mem_roots_iff (b : DirectedGraphBuilder) (v : Nat) :
    v ∈ (b.buildDirected).roots ↔ v ∈ b.parents ∧ v ∉ b.children := by
  rw [buildDirected_roots]
  unfold findRootsB
  rw [mem_sortDedup, List.mem_filter]
  simp [mem_sortDedup]

theorem mem_leaves_iff (b : DirectedGraphBuilder) (v : Nat) :
    v ∈ (b.buildDirected).leaves ↔ v ∈ b.children ∧ v ∉ b.parents := by
  rw [buildDirected_leaves]
  unfold findLeavesB
  rw [mem_sortDedup, List.mem_filter]
  simp [mem_sortDedup]

/-- The symbol pairs of the builder are the interned images of the label pairs. -/
theorem mkBuilder_pairs (es : List (String × String)) :
    (mkBuilder es).pairs = es.map (fun e =>
      ((mkBuilder es).interner.strs.indexOf e.1, (mkBuilder es).interner.strs.indexOf e.2)) := by
  have hs := mkBuilder_spec es
  unfold DirectedGraphBuilder.pairs
  rw [hs.parents_eq, hs.children_eq]
  simp only [DirectedGraphBuilder.new, List.nil_append]
  exact List.zip_map' _ _ es

/-- Distinct label pairs map to distinct symbol pairs. -/
theorem list_toFinset_map {α β : Type} [DecidableEq α] [DecidableEq β]
    (l : List α) (f : α → β) : (l.map f).toFinset = l.toFinset.image f := by
  have h := Multiset.toFinset_map f (l : Multiset α)
  rw [Multiset.map_coe] at h
  exact h

theorem pairs_card_eq (es : List (String × String)) :
    (mkBuilder es).pairs.toFinset.card = es.toFinset.card := by
  have hs := mkBuilder_spec es
  rw [mkBuilder_pairs es, list_toFinset_map]
  apply Finset.card_image_of_injOn
  intro x hx y hy hxy
  simp only [List.coe_toFinset, Set.mem_setOf_eq] at hx hy
  have hx1 := (hs.mem_labels x hx).1
  have hx2 := (hs.mem_labels x hx).2
  have hy1 := (hs.mem_labels y hy).1
  have hy2 := (hs.mem_labels y hy).2
  have h1 : x.1 = y.1 := (List.indexOf_inj hx1 hy1).mp (congrArg Prod.fst hxy)
  have h2 : x.2 = y.2 := (List.indexOf_inj hx2 hy2).mp (congrArg Prod.snd hxy)
  exact Prod.ext h1 h2

/-- Sum of a function over a list as a sum over index positions. -/
theorem sum_map_eq_range_sum {α : Type} (l : List α) (f : α → Nat) (d : α) :
    (l.map f).sum = ∑ i ∈ Finset.range l.length, f (l.getD i d) := by
  induction l with
  | nil => simp
  | cons a t ih =>
    rw [List.map_cons, List.sum_cons, ih, List.length_cons, Finset.sum_range_succ']
    simp only [List.getD_cons_succ, List.getD_cons_zero]
    exact Nat.add_comm _ _

/-- The whole-map adjacency sum equals the sum over the node vector, because
slots outside the node vector hold no elements. -/
theorem map_sum_eq_nodes_sum (b : DirectedGraphBuilder) (hwf : BWF b)
    (m : NodeMap) (hlen : m.map.length = b.interner.strs.length)
    (hmem : ∀ v c, c ∈ (m.get v).elems → v ∈ (b.buildDirected).nodes) :
    (m.map.map (fun l => l.elems.length)).sum
      = ((b.buildDirected).nodes.map (fun v => ((m.get v).elems).length)).sum := by
  have hnd : (b.buildDirected).nodes.Nodup := by
    rw [buildDirected_nodes]; exact sortDedup_nodup _
  rw [sum_map_eq_range_sum m.map (fun l => l.elems.length) .uninit]
  have hsub : (b.buildDirected).nodes.toFinset ⊆ Finset.range m.map.length := by
    intro v hv
    simp only [List.mem_toFinset] at hv
    rw [Finset.mem_range, hlen]
    rcases (mem_nodes_iff b v).mp hv with h | h
    · exact hwf.2.1 v h
    · exact hwf.2.2 v h
  have hzero : ∀ i ∈ Finset.range m.map.length, i ∉ (b.buildDirected).nodes.toFinset →
      ((m.get i).elems).length = 0 := by
    intro i _ hno
    rw [List.length_eq_zero]
    by_contra hne
    obtain ⟨c, hc⟩ := List.exists_mem_of_ne_nil _ hne
    exact hno (List.mem_toFinset.mpr (hmem i c hc))
  have hrange : ∑ i ∈ Finset.range m.map.length, (fun j => ((m.get j).elems).length) i
      = ∑ v ∈ (b.buildDirected).nodes.toFinset, ((m.get v).elems).length :=
    (Finset.sum_subset hsub (fun i hi hni => hzero i hi hni)).symm
  have hlist : ∑ v ∈ (b.buildDirected).nodes.toFinset, ((m.get v).elems).length
      = ((b.buildDirected).nodes.map (fun v => ((m.get v).elems).length)).sum := by
    rw [List.sum_toFinset _ hnd]
  rw [← hlist, ← hrange]
  rfl

/-- C1, builder-level: duality of the two adjacency maps and exactness of the
edge count. -/
theorem build_duality (b : DirectedGraphBuilder) (hwf : BWF b) (p c : Nat) :
    (b.buildDirected).Edge p c ↔ p ∈ (b.buildDirected).parentSyms c := by
  unfold DirectedGraph.Edge
  rw [childSyms_iff b hwf, parentSyms_iff b hwf]

theorem build_sum_children (b : DirectedGraphBuilder) (hwf : BWF b) :
    (b.buildDirected).n_edges
      = ((b.buildDirected).nodes.map (fun v => ((b.buildDirected).childSyms v).length)).sum := by
  have hinv := buildChildrenMap_inv b.pairs b.interner.strs.length
    (fun pc hpc => (pairs_wf b hwf pc hpc).1)
  have hfe : ∀ v, (b.buildDirected).childSyms v
      = ((buildChildrenMap b.pairs b.interner.strs.length).1.get v).elems := by
    intro v
    unfold DirectedGraph.childSyms
    rw [buildDirected_children_map, fillEmpties_elems]
  have hmem : ∀ v c, c ∈ ((buildChildrenMap b.pairs b.interner.strs.length).1.get v).elems →
      v ∈ (b.buildDirected).nodes := by
    intro v c hc
    rw [hinv.mem v c] at hc
    exact (mem_nodes_iff b v).mpr (Or.inl (List.of_mem_zip hc).1)
  have hsum := map_sum_eq_nodes_sum b hwf
    (buildChildrenMap b.pairs b.interner.strs.length).1 hinv.len hmem
  rw [buildDirected_n_edges, ← hinv.sums, hsum]
  congr 1
  apply List.map_congr_left
  intro v _
  rw [hfe v]

theorem build_sum_parents (b : DirectedGraphBuilder) (hwf : BWF b) :
    (b.buildDirected).n_edges
      = ((b.buildDirected).nodes.map (fun v => ((b.buildDirected).parentSyms v).length)).sum := by
  have hcinv := buildChildrenMap_inv b.pairs b.interner.strs.length
    (fun pc hpc => (pairs_wf b hwf pc hpc).1)
  have hinv := buildParentMap_inv b.pairs b.interner.strs.length
    (fun pc hpc => (pairs_wf b hwf pc hpc).2)
  have hfe : ∀ v, (b.buildDirected).parentSyms v
      = ((buildParentMap b.pairs b.interner.strs.length).get v).elems := by
    intro v
    unfold DirectedGraph.parentSyms
    rw [buildDirected_parent_map, fillEmpties_elems]
  have hmem : ∀ v p, p ∈ ((buildParentMap b.pairs b.interner.strs.length).get v).elems →
      v ∈ (b.buildDirected).nodes := by
    intro v p hp
    rw [hinv.mem p v] at hp
    exact (mem_nodes_iff b v).mpr (Or.inr (List.of_mem_zip hp).2)
  have hsum := map_sum_eq_nodes_sum b hwf
    (buildParentMap b.pairs b.interner.strs.length) hinv.len hmem
  rw [buildDirected_n_edges, hcinv.cnt, ← hinv.sums, hsum]
  congr 1
  apply List.map_congr_left
  intro v _
  rw [hfe v]

/-- C1: for every finalized graph built from a list of labeled edges, the
children and parent maps are dual, and n_edges equals the number of distinct
(parent, child) label pairs fed to the builder, which equals the sum of the
children-set sizes over all nodes and the sum of the parent-set sizes. -/
theorem C1_adjacency_duality_edge_count (es : List (String × String)) :
    (∀ p c, (mkGraph es).Edge p c ↔ p ∈ (mkGraph es).parentSyms c)
    ∧ (mkGraph es).n_edges = es.dedup.length
    ∧ (mkGraph es).n_edges
        = ((mkGraph es).nodes.map (fun v => ((mkGraph es).childSyms v).length)).sum
    ∧ (mkGraph es).n_edges
        = ((mkGraph es).nodes.map (fun v => ((mkGraph es).parentSyms v).length)).sum := by
  have hwf := mkBuilder_wf es
  refine ⟨fun p c => build_duality (mkBuilder es) hwf p c, ?_,
    build_sum_children (mkBuilder es) hwf, build_sum_parents (mkBuilder es) hwf⟩
  show (mkBuilder es).buildDirected.n_edges = es.dedup.length
  rw [n_edges_eq_card (mkBuilder es) hwf, pairs_card_eq es, List.card_toFinset]

/-- C2, builder level: roots are exactly the Empty parent slots. -/
theorem roots_iff_empty (b : DirectedGraphBuilder) (hwf : BWF b) (v : Nat) :
    v ∈ (b.buildDirected).roots ↔ (b.buildDirected).parent_map.get v = .empty := by
  rw [mem_roots_iff, parent_map_empty_iff b hwf, mem_nodes_iff]
  constructor
  · rintro ⟨hp, hnc⟩; exact ⟨Or.inl hp, hnc⟩
  · rintro ⟨hv, hnc⟩
    rcases hv with h | h
    · exact ⟨h, hnc⟩
    · exact absurd h hnc

theorem leaves_iff_empty (b : DirectedGraphBuilder) (hwf : BWF b) (v : Nat) :
    v ∈ (b.buildDirected).leaves ↔ (b.buildDirected).children_map.get v = .empty := by
  rw [mem_leaves_iff, children_map_empty_iff b hwf, mem_nodes_iff]
  constructor
  · rintro ⟨hc, hnp⟩; exact ⟨Or.inr hc, hnp⟩
  · rintro ⟨hv, hnp⟩
    rcases hv with h | h
    · exact absurd h hnp
    · exact ⟨h, hnp⟩

/-- C2: in every finalized graph, a node is a root exactly when its parent
slot is Empty, a leaf exactly when its child slot is Empty, and the roots,
leaves and nodes vectors are strictly sorted (hence duplicate-free). -/
theorem C2_roots_leaves_states_sorted (es : List (String × String)) :
    (∀ v, v ∈ (mkGraph es).roots ↔ (mkGraph es).parent_map.get v = .empty)
    ∧ (∀ v, v ∈ (mkGraph es).leaves ↔ (mkGraph es).children_map.get v = .empty)
    ∧ (mkGraph es).roots.Sorted (· < ·) ∧ (mkGraph es).roots.Nodup
    ∧ (mkGraph es).leaves.Sorted (· < ·) ∧ (mkGraph es).leaves.Nodup
    ∧ (mkGraph es).nodes.Sorted (· < ·) ∧ (mkGraph es).nodes.Nodup := by
  have hwf := mkBuilder_wf es
  refine ⟨fun v => roots_iff_empty (mkBuilder es) hwf v,
    fun v => leaves_iff_empty (mkBuilder es) hwf v, ?_, ?_, ?_, ?_, ?_, ?_⟩
  · rw [show (mkGraph es).roots = findRootsB _ _ from buildDirected_roots (mkBuilder es)]
    exact sortDedup_sorted_lt _
  · rw [show (mkGraph es).roots = findRootsB _ _ from buildDirected_roots (mkBuilder es)]
    exact sortDedup_nodup _
  · rw [show (mkGraph es).leaves = findLeavesB _ _ from buildDirected_leaves (mkBuilder es)]
    exact sortDedup_sorted_lt _
  · rw [show (mkGraph es).leaves = findLeavesB _ _ from buildDirected_leaves (mkBuilder es)]
    exact sortDedup_nodup _
  · rw [show (mkGraph es).nodes = sortDedup _ from buildDirected_nodes (mkBuilder es)]
    exact sortDedup_sorted_lt _
  · rw [show (mkGraph es).nodes = sortDedup _ from buildDirected_nodes (mkBuilder es)]
    exact sortDedup_nodup _

/-! ### The interner round trip (C9) -/

/-- Interning a sequence of labels one after another, collecting the symbols
returned by get_or_intern. -/
def internAll (ls : List String) : List Nat × InternerBuilder :=
  ls.foldl (fun ac l => ((ac.1 ++ [(ac.2.getOrIntern l).1]), (ac.2.getOrIntern l).2)) ([], .new)

/-- Relation between a starting interner, the labels fed to it, and the result. -/
structure InternSpec (b bf : InternerBuilder) (ls : List String)
    (syms0 symsf : List Nat) : Prop where
  pre : b.strs <+: bf.strs
  nodup : bf.strs.Nodup
  syms_eq : symsf = syms0 ++ ls.map (fun l => bf.strs.indexOf l)
  mem_iff : ∀ l, l ∈ bf.strs ↔ l ∈ b.strs ∨ l ∈ ls
  strs_eq : bf.strs = ls.foldl (fun acc l => if l ∈ acc then acc else acc ++ [l]) b.strs

theorem getOrIntern_strs_eq (b : InternerBuilder) (l : String) :
    (b.getOrIntern l).2.strs = (if l ∈ b.strs then b.strs else b.strs ++ [l]) := by
  unfold InternerBuilder.getOrIntern
  by_cases h : l ∈ b.strs
  · rw [if_pos h, if_pos h]
  · rw [if_neg h, if_neg h]

theorem internSpec_fold (ls : List String) :
    ∀ (b : InternerBuilder) (syms0 : List Nat), b.strs.Nodup →
    InternSpec b
      (ls.foldl (fun ac l => ((ac.1 ++ [(ac.2.getOrIntern l).1]), (ac.2.getOrIntern l).2))
        (syms0, b)).2
      ls syms0
      (ls.foldl (fun ac l => ((ac.1 ++ [(ac.2.getOrIntern l).1]), (ac.2.getOrIntern l).2))
        (syms0, b)).1 := by
  induction ls with
  | nil =>
    intro b syms0 hnd
    exact ⟨List.prefix_refl _, hnd, by simp, by simp, by simp⟩
  | cons l rest ih =>
    intro b syms0 hnd
    have hfold : (l :: rest).foldl
        (fun ac l => ((ac.1 ++ [(ac.2.getOrIntern l).1]), (ac.2.getOrIntern l).2)) (syms0, b)
        = rest.foldl
        (fun ac l => ((ac.1 ++ [(ac.2.getOrIntern l).1]), (ac.2.getOrIntern l).2))
        (syms0 ++ [(b.getOrIntern l).1], (b.getOrIntern l).2) := by
      simp [List.foldl_cons]
    rw [hfold]
    have hstep := ih (b.getOrIntern l).2 (syms0 ++ [(b.getOrIntern l).1])
      (getOrIntern_nodup b l hnd)
    refine ⟨(getOrIntern_isPrefixOf b l).trans hstep.pre, hstep.nodup, ?_, ?_, ?_⟩
    · rw [hstep.syms_eq]
      have hsym : (b.getOrIntern l).1 =
          (rest.foldl
            (fun ac l => ((ac.1 ++ [(ac.2.getOrIntern l).1]), (ac.2.getOrIntern l).2))
            (syms0 ++ [(b.getOrIntern l).1], (b.getOrIntern l).2)).2.strs.indexOf l := by
        exact (getOrIntern_sym b l).trans
          (indexOf_prefix_stable _ _ _ (getOrIntern_mem_self b l) hstep.pre).symm
      rw [List.map_cons, ← hsym]
      simp
    · intro x
      rw [hstep.mem_iff x, getOrIntern_mem_iff]
      constructor
      · rintro ((h | h) | h)
        · exact Or.inl h
        · exact Or.inr (by simp [h])
        · exact Or.inr (by simp [h])
      · rintro (h | h)
        · exact Or.inl (Or.inl h)
        · rcases List.mem_cons.mp h with rfl | h
          · exact Or.inl (Or.inr rfl)
          · exact Or.inr h
    · rw [hstep.strs_eq, List.foldl_cons, getOrIntern_strs_eq]

theorem getD_map {α β : Type} (f : α → β) (l : List α) (i : Nat) (d : α)
    (h : i < l.length) : (l.map f).getD i (f d) = f (l.getD i d) := by
  induction l generalizing i with
  | nil => simp at h
  | cons a t ih =>
    cases i with
    | zero => simp [List.getD]
    | succ j =>
      rw [List.map_cons, List.getD_cons_succ, List.getD_cons_succ]
      exact ih j (by simpa using h)

theorem getD_mem {α : Type} (l : List α) (i : Nat) (d : α) (h : i < l.length) :
    l.getD i d ∈ l := by
  induction l generalizing i with
  | nil => simp at h
  | cons a t ih =>
    cases i with
    | zero => simp [List.getD]
    | succ j =>
      rw [List.getD_cons_succ]
      exact List.mem_cons.mpr (Or.inr (ih j (by simpa using h)))

theorem exists_getD_of_mem {α : Type} (l : List α) (a : α) (d : α) (h : a ∈ l) :
    ∃ i, i < l.length ∧ l.getD i d = a := by
  induction l with
  | nil => simp at h
  | cons x t ih =>
    rcases List.mem_cons.mp h with rfl | h
    · exact ⟨0, by simp, by simp [List.getD]⟩
    · obtain ⟨i, hi, hgd⟩ := ih h
      exact ⟨i + 1, by simpa using hi, by simpa [List.getD_cons_succ] using hgd⟩

theorem getD_eq_get {α : Type} (l : List α) (i : Nat) (d : α) (h : i < l.length) :
    l.getD i d = l.get ⟨i, h⟩ := by
  induction l generalizing i with
  | nil => simp at h
  | cons a t ih =>
    cases i with
    | zero => simp [List.getD]
    | succ j =>
      rw [List.getD_cons_succ]
      exact ih j (by simpa using h)

/-- In a duplicate-free list the index of the i-th element is i. -/
theorem nodup_indexOf_get {α : Type} [DecidableEq α] (l : List α) (hnd : l.Nodup)
    (i : Nat) (h : i < l.length) : l.indexOf (l.get ⟨i, h⟩) = i := by
  have hmem : l.get ⟨i, h⟩ ∈ l := l.get_mem i h
  have hlt : l.indexOf (l.get ⟨i, h⟩) < l.length := List.indexOf_lt_length.mpr hmem
  have hget : l.get ⟨l.indexOf (l.get ⟨i, h⟩), hlt⟩ = l.get ⟨i, h⟩ :=
    List.indexOf_get hlt
  have hfin : (⟨l.indexOf (l.get ⟨i, h⟩), hlt⟩ : Fin l.length) = ⟨i, h⟩ :=
    (List.Nodup.get_inj_iff hnd).mp hget
  exact congrArg Fin.val hfin

/-- C9: the interner round trip.  Feeding any sequence of labels through
get_or_intern assigns symbols densely from 0 in first-insertion order
(the arena is the first-occurrence subsequence, each symbol is the label's
position in it, repeated labels reuse their existing symbol, and every symbol
below len is assigned), and after build the Resolver resolves every assigned
symbol back to its label and looks up exactly the interned labels. -/
theorem C9_interner_round_trip (ls : List String) :
    ((internAll ls).1.length = ls.length)
    ∧ ((internAll ls).2.strs
        = ls.foldl (fun acc l => if l ∈ acc then acc else acc ++ [l]) [])
    ∧ (∀ i, i < ls.length →
        (internAll ls).1.getD i 0 = (internAll ls).2.strs.indexOf (ls.getD i ""))
    ∧ (∀ i j, i < ls.length → j < ls.length → ls.getD i "" = ls.getD j "" →
        (internAll ls).1.getD i 0 = (internAll ls).1.getD j 0)
    ∧ (∀ i, i < ls.length →
        ((internAll ls).2.build).resolve ((internAll ls).1.getD i 0) = ls.getD i "")
    ∧ (∀ l, l ∈ ls →
        ((internAll ls).2.build).get l = some ((internAll ls).2.strs.indexOf l))
    ∧ (∀ l, l ∉ ls → ((internAll ls).2.build).get l = none)
    ∧ (∀ i, i < ls.length → (internAll ls).1.getD i 0 < ((internAll ls).2.build).len)
    ∧ (∀ s, s < ((internAll ls).2.build).len →
        ∃ i, i < ls.length ∧ (internAll ls).1.getD i 0 = s) := by
  have hspec : InternSpec .new (internAll ls).2 ls [] (internAll ls).1 :=
    internSpec_fold ls .new [] (by simp [InternerBuilder.new])
  have hmem : ∀ l, l ∈ (internAll ls).2.strs ↔ l ∈ ls := by
    intro l
    rw [hspec.mem_iff l]
    simp [InternerBuilder.new]
  have hsyms : (internAll ls).1 = ls.map (fun l => (internAll ls).2.strs.indexOf l) := by
    have := hspec.syms_eq
    simpa using this
  have hlen : (internAll ls).1.length = ls.length := by
    rw [hsyms]; simp
  have hgd : ∀ i, i < ls.length →
      (internAll ls).1.getD i 0 = (internAll ls).2.strs.indexOf (ls.getD i "") := by
    intro i hi
    rw [hsyms]
    have h0 : (0 : Nat) = (internAll ls).2.strs.indexOf "" ∨ True := Or.inr trivial
    calc (ls.map (fun l => (internAll ls).2.strs.indexOf l)).getD i 0
        = (ls.map (fun l => (internAll ls).2.strs.indexOf l)).get ⟨i, by simpa using hi⟩ :=
          getD_eq_get _ i 0 (by simpa using hi)
      _ = (internAll ls).2.strs.indexOf (ls.get ⟨i, hi⟩) := by
          simp
      _ = (internAll ls).2.strs.indexOf (ls.getD i "") := by
          rw [getD_eq_get ls i "" hi]
  refine ⟨hlen, by simpa [InternerBuilder.new] using hspec.strs_eq, hgd, ?_, ?_, ?_, ?_, ?_, ?_⟩
  · intro i j hi hj heq
    rw [hgd i hi, hgd j hj, heq]
  · intro i hi
    rw [hgd i hi]
    unfold Resolver.resolve InternerBuilder.build
    have hm : ls.getD i "" ∈ (internAll ls).2.strs := (hmem _).mpr (getD_mem ls i "" hi)
    have hlt : (internAll ls).2.strs.indexOf (ls.getD i "") < (internAll ls).2.strs.length :=
      List.indexOf_lt_length.mpr hm
    rw [getD_eq_get _ _ _ hlt]
    exact List.indexOf_get hlt
  · intro l hl
    unfold Resolver.get InternerBuilder.build
    rw [if_pos ((hmem l).mpr hl)]
  · intro l hl
    unfold Resolver.get InternerBuilder.build
    rw [if_neg (fun hc => hl ((hmem l).mp hc))]
  · intro i hi
    rw [hgd i hi]
    unfold Resolver.len InternerBuilder.build
    exact List.indexOf_lt_length.mpr ((hmem _).mpr (getD_mem ls i "" hi))
  · intro s hs
    have hslen : s < (internAll ls).2.strs.length := hs
    set a := (internAll ls).2.strs.get ⟨s, hslen⟩ with ha
    have hain : a ∈ (internAll ls).2.strs := List.get_mem _ s hslen
    have hals : a ∈ ls := (hmem a).mp hain
    obtain ⟨i, hi, hgda⟩ := exists_getD_of_mem ls a "" hals
    refine ⟨i, hi, ?_⟩
    rw [hgd i hi, hgda]
    exact nodup_indexOf_get _ hspec.nodup s hslen

/-- Witness for C9 at a concrete label sequence with a repeat. -/
theorem C9_interner_round_trip_witness :
    (internAll ["a", "b", "a"]).2.build.get "a"
        = some ((internAll ["a", "b", "a"]).2.strs.indexOf "a")
    ∧ (internAll ["a", "b", "a"]).2.build.get "c" = none
    ∧ (internAll ["a", "b", "a"]).1.getD 0 0 = (internAll ["a", "b", "a"]).1.getD 2 0
    ∧ (internAll ["a", "b", "a"]).2.build.resolve ((internAll ["a", "b", "a"]).1.getD 1 0)
        = "b" :=
  ⟨(C9_interner_round_trip ["a", "b", "a"]).2.2.2.2.2.1 "a" (by decide),
   (C9_interner_round_trip ["a", "b", "a"]).2.2.2.2.2.2.1 "c" (by decide),
   (C9_interner_round_trip ["a", "b", "a"]).2.2.2.1 0 2 (by decide) (by decide) (by decide),
   (C9_interner_round_trip ["a", "b", "a"]).2.2.2.2.1 1 (by decide)⟩

/-! ### Error surface (src/error.rs) -/

/-- GraphInteractionError (src/error.rs). -/
inductive GraphInteractionError where
  | nodeNotExist (label : String)
  | internalResolve (sym : Nat)
  | zeroSubsetLimit
deriving Repr, DecidableEq

/-- GraphHasCycle (src/error.rs): a bare marker error. -/
inductive GraphHasCycle where
  | mk
deriving Repr, DecidableEq

/-- DirectedGraph::get_internal: label lookup or NodeNotExist. -/
def DirectedGraph.getInternal (g : DirectedGraph) (l : String) :
    Except GraphInteractionError Nat :=
  match g.interner.get l with
  | some s => .ok s
  | none => .error (.nodeNotExist l)

/-- DirectedGraph::edge_exists: to ∈ children_map[from].set. -/
def DirectedGraph.edgeExists (g : DirectedGraph) (f t : Nat) : Bool :=
  decide (t ∈ (g.children_map.get f).elems)

/-! ### subset_multi_u32 (src/directed/mod.rs), with an undefined-behavior flag.

The state of the traversal.  `ubHit` records whether any or_init call was made
on a slot in the Empty state, i.e. whether the unreachable_unchecked branch of
LazySet::or_init was executed; when it is true the Rust program's behavior is
undefined and the rest of the computation here is only the benign
continuation. -/

structure SubState where
  leaves : List Nat
  visited : List Nat
  cm : NodeMap
  pm : NodeMap
  queue : List (Nat × Nat)
  n_edges : Nat
  nodes : List Nat
  ubHit : Bool
deriving Repr, DecidableEq

/-- One pass of the inner while-loop of subset_multi_u32, driven by fuel
(the loop terminates because every enqueue follows a fresh visit; the fuel
chosen by the callers is proven sufficient for built graphs). -/
def subsetLoop (g : DirectedGraph) : Nat → SubState → SubState
  | 0, st => st
  | fuel + 1, st =>
    match st.queue with
    | [] => st
    | (parent, node) :: rest =>
      let ub1 := (st.cm.get parent).orInitUB
      let cm2 := st.cm.setSlot parent ((st.cm.get parent).orInitInsert node).1
      let ub2 := (st.pm.get node).orInitUB
      let pm2 := st.pm.setSlot node ((st.pm.get node).orInitInsert parent).1
      let ubh := st.ubHit || ub1 || ub2
      if node ∈ st.visited then
        subsetLoop g fuel
          { st with cm := cm2, pm := pm2, queue := rest,
                    n_edges := st.n_edges + 1, ubHit := ubh }
      else
        let visited2 := st.visited ++ [node]
        match g.children_map.get node with
        | .empty =>
          subsetLoop g fuel
            { st with cm := cm2.setSlot node .empty, pm := pm2, queue := rest,
                      n_edges := st.n_edges + 1, visited := visited2,
                      leaves := st.leaves ++ [node], ubHit := ubh }
        | .init children =>
          subsetLoop g fuel
            { st with cm := cm2, pm := pm2,
                      queue := rest ++ children.map (fun c => (node, c)),
                      n_edges := st.n_edges + 1, visited := visited2, ubHit := ubh }
        | .uninit =>
          subsetLoop g fuel
            { st with cm := cm2, pm := pm2, queue := rest,
                      n_edges := st.n_edges + 1, visited := visited2, ubHit := ubh }

/-- One iteration of the outer per-seed loop of subset_multi_u32. -/
def subsetSeed (g : DirectedGraph) (fuel : Nat) (st : SubState) (seed : Nat) : SubState :=
  if seed ∈ st.visited then st
  else
    let pm1 := st.pm.setSlot seed .empty
    let visited1 := st.visited ++ [seed]
    let st1 :=
      match g.children_map.get seed with
      | .init children =>
        { st with pm := pm1, visited := visited1,
                  queue := children.map (fun c => (seed, c)) }
      | .empty =>
        { st with pm := pm1, visited := visited1,
                  cm := st.cm.setSlot seed .empty, leaves := st.leaves ++ [seed] }
      | .uninit => { st with pm := pm1, visited := visited1 }
    let st2 := subsetLoop g fuel st1
    { st2 with nodes := st2.nodes ++ st2.pm.initKeys ++ [seed] }

/-- DirectedGraph::subset_multi_u32.  Returns the subset graph together with
the or_init-on-Empty flag. -/
def DirectedGraph.subsetMultiU32 (g : DirectedGraph) (seeds : List Nat) :
    DirectedGraph × Bool :=
  if seeds = [] then (g, false)
  else
    let fuel := g.interner.len * g.interner.len + g.interner.len + 1
    let st0 : SubState :=
      ⟨[], [], NodeMap.new g.interner.len, NodeMap.new g.interner.len, [], 0, [], false⟩
    let stf := seeds.foldl (subsetSeed g fuel) st0
    ({ interner := g.interner
       nodes := sortDedup stf.nodes
       leaves := sortDedup stf.leaves
       roots := (sortDedup stf.nodes).filter (fun v => (stf.pm.get v).isEmpty)
       children_map := stf.cm
       parent_map := stf.pm
       n_edges := stf.n_edges }, stf.ubHit)

/-- DirectedGraph::subset (single seed, label boundary). -/
def DirectedGraph.subsetOp (g : DirectedGraph) (l : String) :
    Except GraphInteractionError (DirectedGraph × Bool) :=
  (g.getInternal l).map (fun s => g.subsetMultiU32 [s])

/-! ### subset_multi_u32_with_limit (src/directed/mod.rs) -/

/-- Inner while-loop of subset_multi_u32_with_limit; queue entries carry the
depth level, starting at 1 at the seeds. -/
def subsetLoopL (g : DirectedGraph) (limit : Nat) : Nat → SubState →
    List (Nat × Nat × Nat) → SubState × List (Nat × Nat × Nat)
  | 0, st, q => (st, q)
  | fuel + 1, st, q =>
    match q with
    | [] => (st, [])
    | (level, parent, node) :: rest =>
      let ub1 := (st.cm.get parent).orInitUB
      let cm2 := st.cm.setSlot parent ((st.cm.get parent).orInitInsert node).1
      let ub2 := (st.pm.get node).orInitUB
      let pm2 := st.pm.setSlot node ((st.pm.get node).orInitInsert parent).1
      let ubh := st.ubHit || ub1 || ub2
      if node ∈ st.visited then
        subsetLoopL g limit fuel
          { st with cm := cm2, pm := pm2, n_edges := st.n_edges + 1, ubHit := ubh } rest
      else
        let visited2 := st.visited ++ [node]
        match g.children_map.get node with
        | .empty =>
          subsetLoopL g limit fuel
            { st with cm := cm2.setSlot node .empty, pm := pm2,
                      n_edges := st.n_edges + 1, visited := visited2,
                      leaves := st.leaves ++ [node], ubHit := ubh } rest
        | .init children =>
          if limit ≤ level then
            subsetLoopL g limit fuel
              { st with cm := cm2.setSlot node .empty, pm := pm2,
                        n_edges := st.n_edges + 1, visited := visited2,
                        leaves := st.leaves ++ [node], ubHit := ubh } rest
          else
            subsetLoopL g limit fuel
              { st with cm := cm2, pm := pm2, n_edges := st.n_edges + 1,
                        visited := visited2, ubHit := ubh }
              (rest ++ children.map (fun c => (level + 1, node, c)))
        | .uninit =>
          subsetLoopL g limit fuel
            { st with cm := cm2, pm := pm2, n_edges := st.n_edges + 1,
                      visited := visited2, ubHit := ubh } rest

/-- Per-seed step of subset_multi_u32_with_limit. -/
def subsetSeedL (g : DirectedGraph) (limit fuel : Nat) (st : SubState) (seed : Nat) :
    SubState :=
  if seed ∈ st.visited then st
  else
    let pm1 := st.pm.setSlot seed .empty
    let visited1 := st.visited ++ [seed]
    let stq :=
      match g.children_map.get seed with
      | .init children =>
        ({ st with pm := pm1, visited := visited1 },
         children.map (fun c => (1, seed, c)))
      | .empty =>
        ({ st with pm := pm1, visited := visited1,
                   cm := st.cm.setSlot seed .empty, leaves := st.leaves ++ [seed] },
         ([] : List (Nat × Nat × Nat)))
      | .uninit => ({ st with pm := pm1, visited := visited1 }, [])
    let st2 := (subsetLoopL g limit fuel stq.1 stq.2).1
    { st2 with nodes := st2.nodes ++ st2.pm.initKeys ++ [seed] }

/-- DirectedGraph::subset_multi_u32_with_limit (limit is NonZeroUsize in the
source; here a positive natural). -/
def DirectedGraph.subsetMultiU32WithLimit (g : DirectedGraph) (seeds : List Nat)
    (limit : Nat) : DirectedGraph × Bool :=
  if seeds = [] then (g, false)
  else
    let fuel := g.interner.len * g.interner.len + g.interner.len + 1
    let st0 : SubState :=
      ⟨[], [], NodeMap.new g.interner.len, NodeMap.new g.interner.len, [], 0, [], false⟩
    let stf := seeds.foldl (subsetSeedL g limit fuel) st0
    ({ interner := g.interner
       nodes := sortDedup stf.nodes
       leaves := sortDedup stf.leaves
       roots := (sortDedup stf.nodes).filter (fun v => (stf.pm.get v).isEmpty)
       children_map := stf.cm
       parent_map := stf.pm
       n_edges := stf.n_edges }, stf.ubHit)

/-- Modelled from the spec: the public boundary that accepts a plain integer
depth limit.  The Rust core's subset_with_limit takes NonZeroUsize, so a zero
limit is unrepresentable there; the rejection of k = 0 with ZeroSubsetLimit
described in the spec (§4.F, §4.I) lives in the library's language bindings,
which are not under src/.  Per the spec, k = 0 fails with ZeroSubsetLimit,
otherwise the call delegates to the core operation. -/
def DirectedGraph.subsetWithLimitChecked (g : DirectedGraph) (l : String) (k : Nat) :
    Except GraphInteractionError (DirectedGraph × Bool) :=
  if k = 0 then .error .zeroSubsetLimit
  else (g.getInternal l).map (fun s => g.subsetMultiU32WithLimit [s] k)

/-- Modelled from the spec: multi-seed variant of the zero-checked boundary
(see subsetWithLimitChecked). -/
def DirectedGraph.subsetMultiWithLimitChecked (g : DirectedGraph) (ls : List String)
    (k : Nat) : Except GraphInteractionError (DirectedGraph × Bool) :=
  if k = 0 then .error .zeroSubsetLimit
  else
    (ls.foldr (fun l acc => do
        let s ← g.getInternal l
        let r ← acc
        pure (s :: r)) (Except.ok []) : Except GraphInteractionError (List Nat)).map
      (fun ss => g.subsetMultiU32WithLimit ss k)

/-! ### find_path (src/directed/mod.rs) -/

/-- The while-loop of construct_path: walk the (child, parent) log backwards
from the goal until the start (the source loop; fuel bounds the walk, one log
entry can be consumed per step so length + 1 always suffices when the log is
a forest as in every use). -/
def constructPathGo (parents : List (Nat × Nat)) (startId : Nat) :
    Nat → Nat → List Nat → List Nat
  | 0, _, acc => acc
  | fuel + 1, current, acc =>
    if current = startId then acc
    else
      match parents.find? (fun pr => pr.1 = current) with
      | some pr => constructPathGo parents startId fuel pr.2 (acc ++ [pr.2])
      | none => acc

/-- construct_path (src/directed/mod.rs): reconstruct the start → goal path
from the BFS parent log, reversing at the end. -/
def constructPath (parents : List (Nat × Nat)) (startId goalId : Nat) : List Nat :=
  (constructPathGo parents startId (parents.length + 1) goalId [goalId]).reverse

/-- The for-loop over the children of the dequeued node in find_path: visit
fresh children, log their parent, stop as soon as the goal is inserted.
Returns the new queue, visited set, log, and whether the goal was found. -/
def bfsScan (goal current : Nat) :
    List Nat → List Nat → List Nat → List (Nat × Nat) →
    List Nat × List Nat × List (Nat × Nat) × Bool
  | [], queue, visited, log => (queue, visited, log, false)
  | c :: rest, queue, visited, log =>
    if c ∈ visited then bfsScan goal current rest queue visited log
    else
      let visited2 := visited ++ [c]
      let log2 := log ++ [(c, current)]
      if c = goal then (queue, visited2, log2, true)
      else bfsScan goal current rest (queue ++ [c]) visited2 log2

/-- The outer BFS loop of find_path (fuel bounds the number of dequeues; each
dequeue was a fresh enqueue, so interner.len + 1 suffices for built graphs). -/
def bfsLoop (g : DirectedGraph) (srcId goal : Nat) :
    Nat → List Nat → List Nat → List (Nat × Nat) → List Nat
  | 0, _, _, _ => []
  | fuel + 1, queue, visited, log =>
    match queue with
    | [] => []
    | current :: rest =>
      match g.children_map.get current with
      | .init children =>
        let r := bfsScan goal current children rest visited log
        if r.2.2.2 then constructPath r.2.2.1 srcId goal
        else bfsLoop g srcId goal fuel r.1 r.2.1 r.2.2.1
      | _ => bfsLoop g srcId goal fuel rest visited log

/-- DirectedGraph::find_path on symbols: breadth-first search over children. -/
def DirectedGraph.findPathSyms (g : DirectedGraph) (srcId goal : Nat) : List Nat :=
  if srcId = goal then [srcId]
  else bfsLoop g srcId goal (g.interner.len + 1) [srcId] [srcId] []

/-- DirectedGraph::find_path: the public label boundary. -/
def DirectedGraph.findPath (g : DirectedGraph) (a b : String) :
    Except GraphInteractionError (List String) := do
  let s ← g.getInternal a
  let t ← g.getInternal b
  .ok ((g.findPathSyms s t).map g.interner.resolve)

/-! ### topological_sort (src/directed/acyclic/topological_sort.rs) -/

/-- The inner for-loop over the parents of the popped node: remove the edge
from both cloned maps, decrement the edge count on a true removal, and push
the parent when its child set is no longer a populated nonempty set. -/
def kahnRemove (node : Nat) :
    List Nat → NodeMap → NodeMap → Nat → List Nat →
    NodeMap × NodeMap × Nat × List Nat
  | [], cm, pm, nE, noDeps => (cm, pm, nE, noDeps)
  | p :: rest, cm, pm, nE, noDeps =>
    let cm2 := cm.setSlot p ((cm.get p).removeElem node)
    let pmnE :=
      match pm.get node with
      | .init s =>
        if p ∈ s then (pm.setSlot node (.init (s.erase p)), nE - 1) else (pm, nE)
      | _ => (pm, nE)
    let noDeps2 :=
      match cm2.get p with
      | .init children => if children = [] then noDeps ++ [p] else noDeps
      | _ => noDeps ++ [p]
    kahnRemove node rest cm2 pmnE.1 pmnE.2 noDeps2

/-- The main Kahn loop: pop from the end of no_deps (Vec::pop), append to the
output, and process the popped node's current parents. -/
def kahnLoop : Nat → NodeMap → NodeMap → Nat → List Nat → List Nat →
    NodeMap × NodeMap × Nat × List Nat
  | 0, cm, pm, nE, _, res => (cm, pm, nE, res)
  | fuel + 1, cm, pm, nE, noDeps, res =>
    match noDeps.getLast? with
    | none => (cm, pm, nE, res)
    | some node =>
      let nd := noDeps.dropLast
      let ps := (pm.get node).elems
      let r := kahnRemove node ps cm pm nE nd
      kahnLoop fuel r.1 r.2.1 r.2.2.1 r.2.2.2 (res ++ [node])

/-- topological_sort (src/directed/acyclic/topological_sort.rs): Kahn's
algorithm from the leaves, on a working copy of the graph; an Err when edges
remain. -/
def topologicalSort (g : DirectedGraph) : Except GraphHasCycle (List Nat) :=
  let r := kahnLoop (g.nodes.length + 1) g.children_map g.parent_map g.n_edges g.leaves []
  if r.2.2.1 ≠ 0 then .error .mk else .ok r.2.2.2

/-! ### DirectedAcyclicGraph (src/directed/acyclic/mod.rs) -/

structure DirectedAcyclicGraph where
  dg : DirectedGraph
  topoSort : List Nat
deriving Repr, DecidableEq

/-- DirectedAcyclicGraph::build. -/
def DirectedAcyclicGraph.build (dg : DirectedGraph) :
    Except GraphHasCycle DirectedAcyclicGraph :=
  (topologicalSort dg).map (fun ts => ⟨dg, ts⟩)

/-- DirectedGraphBuilder::build_acyclic. -/
def DirectedGraphBuilder.buildAcyclic (b : DirectedGraphBuilder) :
    Except GraphHasCycle DirectedAcyclicGraph :=
  DirectedAcyclicGraph.build b.buildDirected

/-- The greedy forward walk of DirectedAcyclicGraph::find_path over the
topological slice: step into any slice node with an edge to the current tail,
return (reversed) as soon as the source is reached. -/
def dagWalk (g : DirectedGraph) (srcId : Nat) :
    List Nat → Nat → List Nat → Option (List Nat)
  | [], _, _ => none
  | n :: rest, current, path =>
    if g.edgeExists n current then
      let path2 := path ++ [n]
      if n = srcId then some path2.reverse
      else dagWalk g srcId rest n path2
    else dagWalk g srcId rest current path

/-- DirectedAcyclicGraph::find_path on symbols: positions in the leaves-first
topological order gate the search; an empty list models the empty NodeVec. -/
def DirectedAcyclicGraph.findPathSyms (d : DirectedAcyclicGraph) (srcId goal : Nat) :
    List Nat :=
  if srcId = goal then [srcId]
  else
    let topo := d.topoSort
    let startIndex := topo.indexOf srcId
    let goalIndex := topo.indexOf goal
    if startIndex < goalIndex then []
    else
      match dagWalk d.dg srcId ((topo.drop goalIndex).take (startIndex - goalIndex + 1))
          goal [goal] with
      | some p => p
      | none => []

/-- DirectedAcyclicGraph::find_path at the label boundary. -/
def DirectedAcyclicGraph.findPath (d : DirectedAcyclicGraph) (a b : String) :
    Except GraphInteractionError (List String) := do
  let s ← d.dg.getInternal a
  let t ← d.dg.getInternal b
  .ok ((d.findPathSyms s t).map d.dg.interner.resolve)

/-! ### DirectedAcyclicGraph::find_all_paths: DFS with a shared children
buffer, emitting completed paths into a flat buffer delimited by the value 0
(the source pushes the literal 0, not Sym::RESERVED). -/

mutual

/-- The recursive dfs helper of DirectedAcyclicGraph::find_all_paths.
State threaded: (current path, flat all-paths buffer, shared children buffer). -/
def dagDfs (g : DirectedGraph) (goalId : Nat) :
    Nat → Nat → List Nat → List Nat → List Nat → List Nat × List Nat × List Nat
  | 0, _, cp, ap, cb => (cp, ap, cb)
  | fuel + 1, current, cp, ap, cb =>
    let cp1 := cp ++ [current]
    if current = goalId then
      (cp1.dropLast, ap ++ cp1 ++ [0], cb)
    else
      let start := cb.length
      let cb1 := cb ++ (g.children_map.get current).elems
      let r := dagDfsWhile g goalId fuel start cp1 ap cb1
      (r.1.dropLast, r.2.1, r.2.2)

/-- The pop-recurse-break loop inside the dfs helper. -/
def dagDfsWhile (g : DirectedGraph) (goalId : Nat) :
    Nat → Nat → List Nat → List Nat → List Nat → List Nat × List Nat × List Nat
  | 0, _, cp, ap, cb => (cp, ap, cb)
  | fuel + 1, start, cp, ap, cb =>
    match cb.getLast? with
    | none => (cp, ap, cb)
    | some child =>
      let r := dagDfs g goalId fuel child cp ap cb.dropLast
      if r.2.2.length = start then r
      else dagDfsWhile g goalId fuel start r.1 r.2.1 r.2.2

end

/-- DirectedAcyclicGraph::find_all_paths on symbols: run the dfs and split the
flat buffer at the delimiter value 0, dropping empty pieces. -/
def DirectedAcyclicGraph.findAllPathsSyms (d : DirectedAcyclicGraph) (srcId goal : Nat) :
    List (List Nat) :=
  let fuel := (d.dg.interner.len + 2) * (d.dg.interner.len + 2) * (d.dg.interner.len + 2)
  let r := dagDfs d.dg goal fuel srcId [] [] []
  (r.2.1.splitOn 0).filter (fun p => ¬ p = [])

/-- DirectedAcyclicGraph::find_all_paths at the label boundary. -/
def DirectedAcyclicGraph.findAllPaths (d : DirectedAcyclicGraph) (a b : String) :
    Except GraphInteractionError (List (List String)) := do
  let s ← d.dg.getInternal a
  let t ← d.dg.getInternal b
  .ok ((d.findAllPathsSyms s t).map (fun p => p.map d.dg.interner.resolve))

example :
    (mkGraph [("A", "B"), ("B", "C"), ("C", "D")]).findPath "A" "D"
      = .ok ["A", "B", "C", "D"] := by rfl

example :
    (mkGraph [("a", "b"), ("a", "c"), ("b", "d"), ("c", "d")]).findPathSyms 0 3
      = [0, 1, 3] := by decide

example : (mkGraph [("a", "b"), ("b", "a")]).findPathSyms 0 5 = [] := by decide

example :
    (topologicalSort (mkGraph [("1", "2"), ("2", "3"), ("3", "4"), ("4", "5"), ("5", "1")])).isOk
      = false := by decide

example :
    topologicalSort (mkGraph [("1", "2"), ("2", "3")]) = .ok [2, 1, 0] := by rfl

example :
    ((mkGraph [("0", "1"), ("A", "B"), ("A", "C"), ("C", "D"), ("C", "H")]).subsetMultiU32
      [2]).1.nodes = [2, 3, 4, 5, 6] := by decide

example :
    ((mkGraph [("0", "1"), ("A", "B"), ("A", "C"), ("C", "D"), ("C", "H")]).subsetMultiU32
      [2]).1.roots = [2] := by decide

example :
    ((mkGraph [("a", "b"), ("b", "a")]).subsetMultiU32 [0]).2 = true := by decide

example :
    ((mkGraph [("A", "B"), ("A", "C"), ("C", "D"), ("C", "E"), ("E", "F")]).subsetMultiU32WithLimit
      [0] 1).1.nodes = [0, 1, 2] := by decide

/-! ### Specification-side graph notions -/

/-- A walk of exactly n edges from a to b along the children relation. -/
inductive Steps (g : DirectedGraph) : Nat → Nat → Nat → Prop where
  | refl (a : Nat) : Steps g a a 0
  | head {a b c : Nat} {n : Nat} : g.Edge a b → Steps g b c n → Steps g a c (n + 1)

/-- Forward reachability. -/
def Reach (g : DirectedGraph) (a b : Nat) : Prop := ∃ n, Steps g a b n

/-- The graph has a directed cycle. -/
def HasCycle (g : DirectedGraph) : Prop := ∃ v n, 0 < n ∧ Steps g v v n

/-- The list l is a path from a to b: nonempty, starts at a, ends at b, and
every consecutive pair is an edge. -/
def IsPathList (g : DirectedGraph) (a b : Nat) (l : List Nat) : Prop :=
  l ≠ [] ∧ l.head? = some a ∧ l.getLast? = some b ∧ l.Chain' (fun x y => g.Edge x y)

theorem steps_trans {g : DirectedGraph} {a b c m n : Nat}
    (h1 : Steps g a b m) (h2 : Steps g b c n) : Steps g a c (m + n) := by
  induction h1 generalizing c n with
  | refl => simpa using h2
  | head he _ ih =>
    have h3 := Steps.head he (ih h2)
    have harith : ∀ k j : Nat, k + j + 1 = k + 1 + j := by omega
    rw [← harith]
    exact h3

theorem steps_single {g : DirectedGraph} {a b : Nat} (h : g.Edge a b) :
    Steps g a b 1 :=
  Steps.head h (Steps.refl b)

/-- Decompose a one-more-step walk at the end. -/
theorem steps_snoc {g : DirectedGraph} {a c : Nat} {n : Nat}
    (h : Steps g a c (n + 1)) : ∃ b, Steps g a b n ∧ g.Edge b c := by
  induction n generalizing a with
  | zero =>
    cases h with
    | head he hs =>
      cases hs with
      | refl => exact ⟨a, Steps.refl a, he⟩
  | succ m ih =>
    cases h with
    | head he hs =>
      obtain ⟨b, hb, hbc⟩ := ih hs
      exact ⟨b, Steps.head he hb, hbc⟩

/-- C10 (code bug): on the graph a → b, b → a, subset("a") invokes
LazySet::or_init on the seed's parent slot, which into_empty had put in
the Empty state: the unchecked-unreachable branch IS executed.  The seed 0
("a") has an incoming edge from node 1 ("b"), which is forward-reachable
from the seed — precisely the situation the claim says is well-defined. -/
theorem C10_or_init_unreachable_is_hit :
    ((mkGraph [("a", "b"), ("b", "a")]).subsetMultiU32 [0]).2 = true
    ∧ (mkGraph [("a", "b"), ("b", "a")]).Edge 1 0
    ∧ Reach (mkGraph [("a", "b"), ("b", "a")]) 0 1 := by
  refine ⟨by decide, by decide, 1, steps_single (by decide)⟩

/-- The DAG produced by build_acyclic on the single edge a → b. -/
theorem buildAcyclic_ab :
    (mkBuilder [("a", "b")]).buildAcyclic = .ok ⟨mkGraph [("a", "b")], [1, 0]⟩ := by rfl

/-- C4 (code bug): DirectedAcyclicGraph::find_all_paths delimits the flat path
buffer with the value 0, but 0 is the symbol of the first interned label, so
every returned path containing that node is truncated.  On the single-edge DAG
a → b the only simple path from a to b is [a, b], yet the call returns
[["b"]]. -/
theorem C4_dag_delimiter_truncates_paths :
    (DirectedAcyclicGraph.mk (mkGraph [("a", "b")]) [1, 0]).findAllPaths "a" "b"
      = .ok [["b"]]
    ∧ (mkGraph [("a", "b")]).Edge 0 1
    ∧ IsPathList (mkGraph [("a", "b")]) 0 1 [0, 1]
    ∧ (mkGraph [("a", "b")]).interner.resolve 0 = "a"
    ∧ (mkGraph [("a", "b")]).interner.resolve 1 = "b" := by
  refine ⟨by rfl, by decide, ⟨by decide, by decide, by decide, ?_⟩, by rfl, by rfl⟩
  simp only [List.chain'_cons, List.chain'_singleton, and_true]
  decide

/-- C8: a zero subset limit is rejected with ZeroSubsetLimit at the checked
boundary (modelled from the spec; the Rust core makes zero unrepresentable
with NonZeroUsize), and the interaction surface produces no error other than
NodeNotExist and ZeroSubsetLimit — in particular never InternalResolve —
while build_acyclic can only fail with GraphHasCycle. -/
theorem C8_zero_limit_and_error_surface :
    (∀ (g : DirectedGraph) (l : String), g.subsetWithLimitChecked l 0
      = .error .zeroSubsetLimit)
    ∧ (∀ (g : DirectedGraph) (ls : List String), g.subsetMultiWithLimitChecked ls 0
      = .error .zeroSubsetLimit)
    ∧ (∀ (g : DirectedGraph) (l : String) (e : GraphInteractionError),
        g.getInternal l = .error e → ∃ lab, e = .nodeNotExist lab)
    ∧ (∀ (g : DirectedGraph) (a b : String) (e : GraphInteractionError),
        g.findPath a b = .error e → ∃ lab, e = .nodeNotExist lab)
    ∧ (∀ (g : DirectedGraph) (l : String) (e : GraphInteractionError),
        g.subsetOp l = .error e → ∃ lab, e = .nodeNotExist lab)
    ∧ (∀ (g : DirectedGraph) (l : String) (k : Nat) (e : GraphInteractionError),
        g.subsetWithLimitChecked l k = .error e →
          e = .zeroSubsetLimit ∨ ∃ lab, e = .nodeNotExist lab)
    ∧ (∀ (b : DirectedGraphBuilder) (e : GraphHasCycle),
        b.buildAcyclic = .error e → e = .mk) := by
  have hget : ∀ (g : DirectedGraph) (l : String) (e : GraphInteractionError),
      g.getInternal l = .error e → e = .nodeNotExist l := by
    intro g l e h
    unfold DirectedGraph.getInternal at h
    cases hr : g.interner.get l with
    | some s => rw [hr] at h; exact absurd h (by simp)
    | none => rw [hr] at h; simpa using h.symm
  refine ⟨?_, ?_, ?_, ?_, ?_, ?_, ?_⟩
  · intro g l
    unfold DirectedGraph.subsetWithLimitChecked
    rw [if_pos rfl]
  · intro g ls
    unfold DirectedGraph.subsetMultiWithLimitChecked
    rw [if_pos rfl]
  · intro g l e h
    exact ⟨l, hget g l e h⟩
  · intro g a b e h
    unfold DirectedGraph.findPath at h
    cases ha : g.getInternal a with
    | error ea =>
      rw [ha] at h
      have h2 : (Except.error ea : Except GraphInteractionError (List String))
          = .error e := h
      have hee : ea = e := by injection h2
      exact ⟨a, hee ▸ hget g a ea ha⟩
    | ok sa =>
      rw [ha] at h
      cases hb : g.getInternal b with
      | error eb =>
        rw [hb] at h
        have h2 : (Except.error eb : Except GraphInteractionError (List String))
            = .error e := h
        have hee : eb = e := by injection h2
        exact ⟨b, hee ▸ hget g b eb hb⟩
      | ok sb =>
        rw [hb] at h
        have h2 : (Except.ok ((g.findPathSyms sa sb).map g.interner.resolve) :
            Except GraphInteractionError (List String)) = .error e := h
        exact Except.noConfusion h2
  · intro g l e h
    unfold DirectedGraph.subsetOp at h
    cases ha : g.getInternal l with
    | error ea =>
      rw [ha] at h
      have h2 : (Except.error ea : Except GraphInteractionError (DirectedGraph × Bool))
          = .error e := h
      have hee : ea = e := by injection h2
      exact ⟨l, hee ▸ hget g l ea ha⟩
    | ok s =>
      rw [ha] at h
      have h2 : (Except.ok (g.subsetMultiU32 [s]) :
          Except GraphInteractionError (DirectedGraph × Bool)) = .error e := h
      exact Except.noConfusion h2
  · intro g l k e h
    unfold DirectedGraph.subsetWithLimitChecked at h
    by_cases hk : k = 0
    · rw [if_pos hk] at h
      cases h
      exact Or.inl rfl
    · rw [if_neg hk] at h
      cases ha : g.getInternal l with
      | error ea =>
        rw [ha] at h
        have h2 : (Except.error ea : Except GraphInteractionError (DirectedGraph × Bool))
            = .error e := h
        have hee : ea = e := by injection h2
        exact Or.inr ⟨l, hee ▸ hget g l ea ha⟩
      | ok s =>
        rw [ha] at h
        have h2 : (Except.ok (g.subsetMultiU32WithLimit [s] k) :
            Except GraphInteractionError (DirectedGraph × Bool)) = .error e := h
        exact Except.noConfusion h2
  · intro b e _
    cases e
    rfl

/-- Witness for C8 at concrete inputs. -/
theorem C8_zero_limit_witness :
    (mkGraph [("A", "B")]).subsetWithLimitChecked "A" 0
      = .error .zeroSubsetLimit
    ∧ (∃ lab, GraphInteractionError.nodeNotExist "Z" = .nodeNotExist lab) :=
  ⟨C8_zero_limit_and_error_surface.1 (mkGraph [("A", "B")]) "A",
   C8_zero_limit_and_error_surface.2.2.2.1 (mkGraph [("A", "B")]) "Z" "B"
     (.nodeNotExist "Z") (by rfl)⟩

/-! ### Subset closure (C5) -/

theorem mem_initKeys (m : NodeMap) (v : Nat) :
    v ∈ m.initKeys ↔ v < m.map.length ∧ (m.get v).isInit = true := by
  unfold NodeMap.initKeys
  rw [List.mem_filter, List.mem_range]

theorem isEmpty_iff (s : LazySet) : s.isEmpty = true ↔ s = .empty := by
  cases s <;> simp [LazySet.isEmpty]

theorem isInit_iff (s : LazySet) : s.isInit = true ↔ ∃ l, s = .init l := by
  cases s <;> simp [LazySet.isInit]

theorem nodup_bounded_length_le (l : List Nat) (N : Nat) (hnd : l.Nodup)
    (hlt : ∀ x ∈ l, x < N) : l.length ≤ N := by
  have h1 : l.toFinset.card = l.length := by
    rw [List.card_toFinset, List.dedup_eq_self.mpr hnd]
  have h2 : l.toFinset ⊆ Finset.range N := by
    intro x hx
    rw [Finset.mem_range]
    exact hlt x (List.mem_toFinset.mp hx)
  calc l.length = l.toFinset.card := h1.symm
    _ ≤ (Finset.range N).card := Finset.card_le_card h2
    _ = N := Finset.card_range N

theorem filter_nodup_unique (l : List Nat) (p : Nat → Bool) (s : Nat)
    (hnd : l.Nodup) (hs : s ∈ l) (hp : ∀ v ∈ l, p v = true ↔ v = s) :
    l.filter p = [s] := by
  induction l with
  | nil => simp at hs
  | cons a t ih =>
    rcases List.mem_cons.mp hs with rfl | hst
    · rw [List.filter_cons, if_pos ((hp s (by simp)).mpr rfl)]
      have ht : t.filter p = [] := by
        rw [List.filter_eq_nil_iff]
        intro v hv
        intro hpv
        have := (hp v (by simp [hv])).mp hpv
        subst this
        exact (List.nodup_cons.mp hnd).1 hv
      rw [ht]
    · have hane : ¬ p a = true := by
        intro hpa
        have := (hp a (by simp)).mp hpa
        subst this
        exact (List.nodup_cons.mp hnd).1 hst
      rw [List.filter_cons, if_neg hane]
      exact ih (List.nodup_cons.mp hnd).2 hst (fun v hv => hp v (by simp [hv]))

/-- Edge implies the child slot of the source is populated. -/
theorem edge_slot_init {g : DirectedGraph} {v c : Nat} (h : g.Edge v c) :
    ∃ l, g.children_map.get v = .init l ∧ c ∈ l := by
  unfold DirectedGraph.Edge DirectedGraph.childSyms at h
  cases hs : g.children_map.get v with
  | init l => exact ⟨l, rfl, by rwa [hs, LazySet.elems] at h⟩
  | uninit => rw [hs] at h; simp [LazySet.elems] at h
  | empty => rw [hs] at h; simp [LazySet.elems] at h

/-- Loop invariant for the single-seed subset traversal. -/
structure SubInv (g : DirectedGraph) (N s : Nat) (st : SubState) : Prop where
  pmlen : st.pm.map.length = N
  cmlen : st.cm.map.length = N
  seed_mem : s ∈ st.visited
  vis_reach : ∀ v ∈ st.visited, Reach g s v
  vis_nodup : st.visited.Nodup
  vis_lt : ∀ v ∈ st.visited, v < N
  queue_edge : ∀ pc ∈ st.queue, g.Edge pc.1 pc.2 ∧ pc.1 ∈ st.visited
  pm_seed : st.pm.get s = .empty
  pm_empty_only_seed : ∀ v, st.pm.get v = .empty → v = s
  pm_init_vis : ∀ v, (st.pm.get v).isInit = true → v ∈ st.visited
  vis_pm_init : ∀ v ∈ st.visited, v ≠ s → (st.pm.get v).isInit = true
  edge_covered : ∀ v ∈ st.visited, ∀ c, g.Edge v c →
    (v, c) ∈ st.queue ∨ (st.pm.get c).isInit = true
  cm_empty_g : ∀ v, st.cm.get v = .empty → g.children_map.get v = .empty
  leaves_g : ∀ v ∈ st.leaves, g.children_map.get v = .empty
  ub_false : st.ubHit = false

/-- The decreasing measure of the subset loop. -/
def subMeasure (N : Nat) (st : SubState) : Nat :=
  st.queue.length + (N - st.visited.length) * (N + 1)

theorem orInitInsert_isInit (s : LazySet) (x : Nat) :
    ((s.orInitInsert x).1).isInit = true := by
  cases s with
  | uninit => simp [LazySet.orInitInsert, LazySet.isInit]
  | empty => simp [LazySet.orInitInsert, LazySet.isInit]
  | init t =>
    by_cases h : x ∈ t <;> simp [LazySet.orInitInsert, LazySet.isInit, h]

theorem orInitInsert_ne_empty (s : LazySet) (x : Nat) :
    (s.orInitInsert x).1 ≠ .empty := by
  intro h
  have := orInitInsert_isInit s x
  rw [h] at this
  simp [LazySet.isInit] at this

theorem orInitUB_false (s : LazySet) (h : s ≠ .empty) : s.orInitUB = false := by
  cases s with
  | uninit => rfl
  | empty => exact absurd rfl h
  | init t => rfl

theorem subsetLoop_nil (g : DirectedGraph) (fuel : Nat) (st : SubState)
    (h : st.queue = []) : subsetLoop g fuel st = st := by
  cases fuel with
  | zero => rfl
  | succ f =>
    rw [subsetLoop, h]

theorem subsetLoop_cons (g : DirectedGraph) (fuel : Nat) (st : SubState)
    (parent node : Nat) (rest : List (Nat × Nat))
    (h : st.queue = (parent, node) :: rest) :
    subsetLoop g (fuel + 1) st =
      (let cm2 := st.cm.setSlot parent ((st.cm.get parent).orInitInsert node).1
       let pm2 := st.pm.setSlot node ((st.pm.get node).orInitInsert parent).1
       let ubh := st.ubHit || (st.cm.get parent).orInitUB || (st.pm.get node).orInitUB
       if node ∈ st.visited then
        subsetLoop g fuel
          { st with cm := cm2, pm := pm2, queue := rest,
                    n_edges := st.n_edges + 1, ubHit := ubh }
       else
        let visited2 := st.visited ++ [node]
        match g.children_map.get node with
        | .empty =>
          subsetLoop g fuel
            { st with cm := cm2.setSlot node .empty, pm := pm2, queue := rest,
                      n_edges := st.n_edges + 1, visited := visited2,
                      leaves := st.leaves ++ [node], ubHit := ubh }
        | .init children =>
          subsetLoop g fuel
            { st with cm := cm2, pm := pm2,
                      queue := rest ++ children.map (fun c => (node, c)),
                      n_edges := st.n_edges + 1, visited := visited2, ubHit := ubh }
        | .uninit =>
          subsetLoop g fuel
            { st with cm := cm2, pm := pm2, queue := rest,
                      n_edges := st.n_edges + 1, visited := visited2, ubHit := ubh }) := by
  rw [subsetLoop, h]

/-- The subset loop preserves the invariant, drains the queue, and leaves the
nodes accumulator untouched, provided the fuel dominates the measure. -/
theorem subsetLoop_post (g : DirectedGraph) (N s : Nat)
    (HB : ¬ ∃ p, Reach g s p ∧ g.Edge p s)
    (HG1 : ∀ v, (g.childSyms v).Nodup)
    (HG2 : ∀ v c, g.Edge v c → c < N) :
    ∀ (fuel : Nat) (st : SubState), SubInv g N s st → subMeasure N st < fuel →
    SubInv g N s (subsetLoop g fuel st) ∧ (subsetLoop g fuel st).queue = []
      ∧ (subsetLoop g fuel st).nodes = st.nodes := by
  intro fuel
  induction fuel with
  | zero => intro st _ hm; omega
  | succ f ih =>
    intro st hinv hm
    rcases hqs : st.queue with _ | ⟨⟨parent, node⟩, rest⟩
    · rw [subsetLoop_nil g (f + 1) st hqs]
      exact ⟨hinv, hqs, rfl⟩
    · have hE : g.Edge parent node := (hinv.queue_edge (parent, node) (by rw [hqs]; simp)).1
      have hPv : parent ∈ st.visited := (hinv.queue_edge (parent, node) (by rw [hqs]; simp)).2
      have hnodeS : node ≠ s := by
        rintro rfl
        exact HB ⟨parent, hinv.vis_reach parent hPv, hE⟩
      have hnodeN : node < N := HG2 parent node hE
      have hparN : parent < N := hinv.vis_lt parent hPv
      have hpmE : st.pm.get node ≠ .empty := fun h => hnodeS (hinv.pm_empty_only_seed node h)
      have hcmE : st.cm.get parent ≠ .empty := by
        intro h
        obtain ⟨l, hl, _⟩ := edge_slot_init hE
        rw [hinv.cm_empty_g parent h] at hl
        exact LazySet.noConfusion hl
      have hub1 : (st.cm.get parent).orInitUB = false := orInitUB_false _ hcmE
      have hub2 : (st.pm.get node).orInitUB = false := orInitUB_false _ hpmE
      have hubh : (st.ubHit || (st.cm.get parent).orInitUB || (st.pm.get node).orInitUB)
          = false := by rw [hinv.ub_false, hub1, hub2]; rfl
      -- the updated maps
      have hpm2get : ∀ v, (st.pm.setSlot node ((st.pm.get node).orInitInsert parent).1).get v
          = if v = node then ((st.pm.get node).orInitInsert parent).1 else st.pm.get v := by
        intro v
        by_cases hv : v = node
        · rw [if_pos hv, hv,
            NodeMap.get_setSlot_self _ _ _ (by rw [hinv.pmlen]; exact hnodeN)]
        · rw [if_neg hv, NodeMap.get_setSlot_ne _ _ _ _ (fun hh => hv hh.symm)]
      have hcm2get : ∀ v, (st.cm.setSlot parent ((st.cm.get parent).orInitInsert node).1).get v
          = if v = parent then ((st.cm.get parent).orInitInsert node).1 else st.cm.get v := by
        intro v
        by_cases hv : v = parent
        · rw [if_pos hv, hv,
            NodeMap.get_setSlot_self _ _ _ (by rw [hinv.cmlen]; exact hparN)]
        · rw [if_neg hv, NodeMap.get_setSlot_ne _ _ _ _ (fun hh => hv hh.symm)]
      have hpm2len : (st.pm.setSlot node ((st.pm.get node).orInitInsert parent).1).map.length
          = N := by rw [NodeMap.len_setSlot, hinv.pmlen]
      have hcm2len : (st.cm.setSlot parent ((st.cm.get parent).orInitInsert node).1).map.length
          = N := by rw [NodeMap.len_setSlot, hinv.cmlen]
      have hqlen : st.queue.length = rest.length + 1 := by rw [hqs]; simp
      rw [subsetLoop_cons g f st parent node rest hqs]
      by_cases hvis : node ∈ st.visited
      · -- already-visited branch
        rw [if_pos hvis]
        apply ih
        · constructor
          · exact hpm2len
          · exact hcm2len
          · exact hinv.seed_mem
          · exact hinv.vis_reach
          · exact hinv.vis_nodup
          · exact hinv.vis_lt
          · intro pc hpc
            exact hinv.queue_edge pc (by rw [hqs]; exact List.mem_cons.mpr (Or.inr hpc))
          · rw [hpm2get, if_neg (fun hh : s = node => hnodeS hh.symm)]
            exact hinv.pm_seed
          · intro v hv
            rw [hpm2get] at hv
            by_cases hvn : v = node
            · rw [if_pos hvn] at hv
              exact absurd hv (orInitInsert_ne_empty _ _)
            · rw [if_neg hvn] at hv
              exact hinv.pm_empty_only_seed v hv
          · intro v hv
            rw [hpm2get] at hv
            by_cases hvn : v = node
            · rw [hvn]; exact hvis
            · rw [if_neg hvn] at hv
              exact hinv.pm_init_vis v hv
          · intro v hv hvs
            rw [hpm2get]
            by_cases hvn : v = node
            · rw [if_pos hvn]; exact orInitInsert_isInit _ _
            · rw [if_neg hvn]
              exact hinv.vis_pm_init v hv hvs
          · intro v hv c hvc
            rcases hinv.edge_covered v hv c hvc with hin | hinit
            · rw [hqs] at hin
              rcases List.mem_cons.mp hin with heq | hin
            -- the popped edge is delivered into pm2
              · right
                rw [hpm2get]
                have hcn : c = node := congrArg Prod.snd heq
                rw [if_pos hcn]
                exact orInitInsert_isInit _ _
              · exact Or.inl hin
            · right
              rw [hpm2get]
              by_cases hcn : c = node
              · rw [if_pos hcn]; exact orInitInsert_isInit _ _
              · rw [if_neg hcn]; exact hinit
          · intro v hv
            rw [hcm2get] at hv
            by_cases hvp : v = parent
            · rw [if_pos hvp] at hv
              exact absurd hv (orInitInsert_ne_empty _ _)
            · rw [if_neg hvp] at hv
              exact hinv.cm_empty_g v hv
          · exact hinv.leaves_g
          · exact hubh
        · unfold subMeasure at *
          simp only [hqlen] at hm
          simp only []
          omega
      · -- fresh-visit branches
        rw [if_neg hvis]
        have hvis2nd : (st.visited ++ [node]).Nodup := by
          rw [List.nodup_append]
          exact ⟨hinv.vis_nodup, List.nodup_singleton node, by simpa using hvis⟩
        have hvis2lt : ∀ v ∈ st.visited ++ [node], v < N := by
          intro v hv
          rcases List.mem_append.mp hv with hv | hv
          · exact hinv.vis_lt v hv
          · rw [List.mem_singleton.mp hv]; exact hnodeN
        have hvislen : st.visited.length + 1 ≤ N := by
          have := nodup_bounded_length_le (st.visited ++ [node]) N hvis2nd hvis2lt
          simpa using this
        have hreach2 : ∀ v ∈ st.visited ++ [node], Reach g s v := by
          intro v hv
          rcases List.mem_append.mp hv with hv | hv
          · exact hinv.vis_reach v hv
          · rw [List.mem_singleton.mp hv]
            obtain ⟨n, hn⟩ := hinv.vis_reach parent hPv
            exact ⟨n + 1, steps_trans hn (steps_single hE)⟩
        have hseed2 : s ∈ st.visited ++ [node] :=
          List.mem_append.mpr (Or.inl hinv.seed_mem)
        -- shared pm-part obligations for all three fresh branches
        have hpm_seed2 : (st.pm.setSlot node ((st.pm.get node).orInitInsert parent).1).get s
            = .empty := by
          rw [hpm2get, if_neg (fun hh : s = node => hnodeS hh.symm)]
          exact hinv.pm_seed
        have hpm_empty2 : ∀ v,
            (st.pm.setSlot node ((st.pm.get node).orInitInsert parent).1).get v = .empty →
            v = s := by
          intro v hv
          rw [hpm2get] at hv
          by_cases hvn : v = node
          · rw [if_pos hvn] at hv
            exact absurd hv (orInitInsert_ne_empty _ _)
          · rw [if_neg hvn] at hv
            exact hinv.pm_empty_only_seed v hv
        have hpm_init_vis2 : ∀ v,
            ((st.pm.setSlot node ((st.pm.get node).orInitInsert parent).1).get v).isInit
              = true → v ∈ st.visited ++ [node] := by
          intro v hv
          rw [hpm2get] at hv
          by_cases hvn : v = node
          · rw [hvn]; exact List.mem_append.mpr (Or.inr (by simp))
          · rw [if_neg hvn] at hv
            exact List.mem_append.mpr (Or.inl (hinv.pm_init_vis v hv))
        have hvis_pm2 : ∀ v ∈ st.visited ++ [node], v ≠ s →
            ((st.pm.setSlot node ((st.pm.get node).orInitInsert parent).1).get v).isInit
              = true := by
          intro v hv hvs
          rw [hpm2get]
          by_cases hvn : v = node
          · rw [if_pos hvn]; exact orInitInsert_isInit _ _
          · rw [if_neg hvn]
            rcases List.mem_append.mp hv with hv | hv
            · exact hinv.vis_pm_init v hv hvs
            · exact absurd (List.mem_singleton.mp hv) hvn
        rcases hgn : g.children_map.get node with _ | _ | children
        · -- Uninitialized child slot: no outgoing edges
          have hnoedge : ∀ c, ¬ g.Edge node c := by
            intro c hc
            obtain ⟨l, hl, _⟩ := edge_slot_init hc
            rw [hgn] at hl
            exact LazySet.noConfusion hl
          apply ih
          · constructor
            · exact hpm2len
            · exact hcm2len
            · exact hseed2
            · exact hreach2
            · exact hvis2nd
            · exact hvis2lt
            · intro pc hpc
              have := hinv.queue_edge pc (by rw [hqs]; exact List.mem_cons.mpr (Or.inr hpc))
              exact ⟨this.1, List.mem_append.mpr (Or.inl this.2)⟩
            · exact hpm_seed2
            · exact hpm_empty2
            · exact hpm_init_vis2
            · exact hvis_pm2
            · intro v hv c hvc
              rcases List.mem_append.mp hv with hv | hv
              · rcases hinv.edge_covered v hv c hvc with hin | hinit
                · rw [hqs] at hin
                  rcases List.mem_cons.mp hin with heq | hin
                  · right
                    rw [hpm2get, if_pos (congrArg Prod.snd heq)]
                    exact orInitInsert_isInit _ _
                  · exact Or.inl hin
                · right
                  rw [hpm2get]
                  by_cases hcn : c = node
                  · rw [if_pos hcn]; exact orInitInsert_isInit _ _
                  · rw [if_neg hcn]; exact hinit
              · rw [List.mem_singleton.mp hv] at hvc
                exact absurd hvc (hnoedge c)
            · intro v hv
              rw [hcm2get] at hv
              by_cases hvp : v = parent
              · rw [if_pos hvp] at hv
                exact absurd hv (orInitInsert_ne_empty _ _)
              · rw [if_neg hvp] at hv
                exact hinv.cm_empty_g v hv
            · exact hinv.leaves_g
            · exact hubh
          · unfold subMeasure at *
            simp only [hqlen, List.length_append, List.length_singleton] at *
            have hsub : (N - (st.visited.length + 1)) * (N + 1)
                ≤ (N - st.visited.length) * (N + 1) := by
              apply Nat.mul_le_mul_right
              omega
            omega
        · -- Empty child slot: the node is pushed as a leaf
          have hnoedge : ∀ c, ¬ g.Edge node c := by
            intro c hc
            obtain ⟨l, hl, _⟩ := edge_slot_init hc
            rw [hgn] at hl
            exact LazySet.noConfusion hl
          have hnp : node ≠ parent := by
            rintro rfl
            obtain ⟨l, hl, _⟩ := edge_slot_init hE
            rw [hgn] at hl
            exact LazySet.noConfusion hl
          have hcm3get : ∀ v,
              ((st.cm.setSlot parent ((st.cm.get parent).orInitInsert node).1).setSlot
                node .empty).get v
              = if v = node then .empty
                else if v = parent then ((st.cm.get parent).orInitInsert node).1
                else st.cm.get v := by
            intro v
            by_cases hvn : v = node
            · rw [if_pos hvn, hvn, NodeMap.get_setSlot_self _ _ _
                (by rw [NodeMap.len_setSlot, hinv.cmlen]; exact hnodeN)]
            · rw [if_neg hvn, NodeMap.get_setSlot_ne _ _ _ _ (fun hh => hvn hh.symm),
                hcm2get]
          apply ih
          · constructor
            · exact hpm2len
            · rw [NodeMap.len_setSlot]; exact hcm2len
            · exact hseed2
            · exact hreach2
            · exact hvis2nd
            · exact hvis2lt
            · intro pc hpc
              have := hinv.queue_edge pc (by rw [hqs]; exact List.mem_cons.mpr (Or.inr hpc))
              exact ⟨this.1, List.mem_append.mpr (Or.inl this.2)⟩
            · exact hpm_seed2
            · exact hpm_empty2
            · exact hpm_init_vis2
            · exact hvis_pm2
            · intro v hv c hvc
              rcases List.mem_append.mp hv with hv | hv
              · rcases hinv.edge_covered v hv c hvc with hin | hinit
                · rw [hqs] at hin
                  rcases List.mem_cons.mp hin with heq | hin
                  · right
                    rw [hpm2get, if_pos (congrArg Prod.snd heq)]
                    exact orInitInsert_isInit _ _
                  · exact Or.inl hin
                · right
                  rw [hpm2get]
                  by_cases hcn : c = node
                  · rw [if_pos hcn]; exact orInitInsert_isInit _ _
                  · rw [if_neg hcn]; exact hinit
              · rw [List.mem_singleton.mp hv] at hvc
                exact absurd hvc (hnoedge c)
            · intro v hv
              rw [hcm3get] at hv
              by_cases hvn : v = node
              · rw [hvn]; exact hgn
              · rw [if_neg hvn] at hv
                by_cases hvp : v = parent
                · rw [if_pos hvp] at hv
                  exact absurd hv (orInitInsert_ne_empty _ _)
                · rw [if_neg hvp] at hv
                  exact hinv.cm_empty_g v hv
            · intro v hv
              rcases List.mem_append.mp hv with hv | hv
              · exact hinv.leaves_g v hv
              · rw [List.mem_singleton.mp hv]; exact hgn
            · exact hubh
          · unfold subMeasure at *
            simp only [hqlen, List.length_append, List.length_singleton] at *
            have hsub : (N - (st.visited.length + 1)) * (N + 1)
                ≤ (N - st.visited.length) * (N + 1) := by
              apply Nat.mul_le_mul_right
              omega
            omega
        · -- Initialized child slot: enqueue all children
          have hchild : g.childSyms node = children := by
            unfold DirectedGraph.childSyms
            rw [hgn]
            rfl
          have hchildnd : children.Nodup := hchild ▸ HG1 node
          have hchildE : ∀ c ∈ children, g.Edge node c := by
            intro c hc
            unfold DirectedGraph.Edge
            rw [hchild]
            exact hc
          have hchildlt : ∀ c ∈ children, c < N :=
            fun c hc => HG2 node c (hchildE c hc)
          have hchildlen : children.length ≤ N :=
            nodup_bounded_length_le children N hchildnd hchildlt
          apply ih
          · constructor
            · exact hpm2len
            · exact hcm2len
            · exact hseed2
            · exact hreach2
            · exact hvis2nd
            · exact hvis2lt
            · intro pc hpc
              rcases List.mem_append.mp hpc with hpc | hpc
              · have := hinv.queue_edge pc (by rw [hqs]; exact List.mem_cons.mpr (Or.inr hpc))
                exact ⟨this.1, List.mem_append.mpr (Or.inl this.2)⟩
              · obtain ⟨c, hc, rfl⟩ := List.mem_map.mp hpc
                exact ⟨hchildE c hc, List.mem_append.mpr (Or.inr (by simp))⟩
            · exact hpm_seed2
            · exact hpm_empty2
            · exact hpm_init_vis2
            · exact hvis_pm2
            · intro v hv c hvc
              rcases List.mem_append.mp hv with hv | hv
              · rcases hinv.edge_covered v hv c hvc with hin | hinit
                · rw [hqs] at hin
                  rcases List.mem_cons.mp hin with heq | hin
                  · right
                    rw [hpm2get, if_pos (congrArg Prod.snd heq)]
                    exact orInitInsert_isInit _ _
                  · exact Or.inl (List.mem_append.mpr (Or.inl hin))
                · right
                  rw [hpm2get]
                  by_cases hcn : c = node
                  · rw [if_pos hcn]; exact orInitInsert_isInit _ _
                  · rw [if_neg hcn]; exact hinit
              · left
                rw [List.mem_singleton.mp hv] at hvc ⊢
                apply List.mem_append.mpr
                right
                apply List.mem_map.mpr
                refine ⟨c, ?_, rfl⟩
                rw [← hchild]
                exact hvc
            · intro v hv
              rw [hcm2get] at hv
              by_cases hvp : v = parent
              · rw [if_pos hvp] at hv
                exact absurd hv (orInitInsert_ne_empty _ _)
              · rw [if_neg hvp] at hv
                exact hinv.cm_empty_g v hv
            · exact hinv.leaves_g
            · exact hubh
          · unfold subMeasure at *
            simp only [hqlen, List.length_append, List.length_singleton,
              List.length_map] at *
            have hvl : st.visited.length ≤ N - 1 := by omega
            have hexp : (N - st.visited.length) * (N + 1)
                = (N - (st.visited.length + 1)) * (N + 1) + (N + 1) := by
              have : N - st.visited.length = (N - (st.visited.length + 1)) + 1 := by omega
              rw [this, Nat.add_mul, Nat.one_mul]
            omega

/-- With an empty queue the visited set is closed under edges, so it contains
everything reachable from the seed. -/
theorem subInv_closed (g : DirectedGraph) (N s : Nat) (st : SubState)
    (hinv : SubInv g N s st) (hq : st.queue = []) :
    ∀ v, Reach g s v → v ∈ st.visited := by
  rintro v ⟨n, hsteps⟩
  induction n generalizing v with
  | zero => cases hsteps; exact hinv.seed_mem
  | succ m ihm =>
    obtain ⟨b, hb, hbc⟩ := steps_snoc hsteps
    have hbvis := ihm b hb
    rcases hinv.edge_covered b hbvis v hbc with hin | hinit
    · rw [hq] at hin; simp at hin
    · exact hinv.pm_init_vis v hinit

/-- What the assembled subset graph looks like once the loop has drained. -/
theorem subset_final (g : DirectedGraph) (N s : Nat) (stf : SubState)
    (hinv : SubInv g N s stf) (hq : stf.queue = []) (hnodes : stf.nodes = []) :
    stf.ubHit = false
    ∧ (∀ v, v ∈ sortDedup (stf.nodes ++ stf.pm.initKeys ++ [s]) ↔ Reach g s v)
    ∧ (sortDedup (stf.nodes ++ stf.pm.initKeys ++ [s])).filter
        (fun v => (stf.pm.get v).isEmpty) = [s]
    ∧ (∀ v, v ∈ sortDedup stf.leaves → g.children_map.get v = .empty) := by
  have hvis_iff : ∀ v, v ∈ sortDedup (stf.nodes ++ stf.pm.initKeys ++ [s]) ↔ Reach g s v := by
    intro v
    rw [mem_sortDedup, hnodes]
    simp only [List.nil_append, List.mem_append, List.mem_singleton]
    constructor
    · rintro (hik | rfl)
      · have hin := (mem_initKeys _ _).mp hik
        exact hinv.vis_reach v (hinv.pm_init_vis v hin.2)
      · exact ⟨0, Steps.refl v⟩
    · intro hr
      have hvvis := subInv_closed g N s stf hinv hq v hr
      by_cases hvs : v = s
      · exact Or.inr hvs
      · left
        rw [mem_initKeys]
        refine ⟨?_, hinv.vis_pm_init v hvvis hvs⟩
        rw [hinv.pmlen]
        exact hinv.vis_lt v hvvis
  refine ⟨hinv.ub_false, hvis_iff, ?_, ?_⟩
  · apply filter_nodup_unique
    · exact sortDedup_nodup _
    · rw [mem_sortDedup]
      simp
    · intro v _
      rw [isEmpty_iff]
      constructor
      · exact hinv.pm_empty_only_seed v
      · rintro rfl
        exact hinv.pm_seed
  · intro v hv
    exact hinv.leaves_g v (by rwa [mem_sortDedup] at hv)

/-- The subset operation on a single valid seed with no cycle back into the
seed: the UB flag stays false, the node set is the forward-reachable set, the
root vector is exactly the seed, and every leaf has an Empty child slot in the
parent graph. -/
theorem subset_single_spec (g : DirectedGraph) (s : Nat)
    (hs : s < g.interner.len)
    (HB : ¬ ∃ p, Reach g s p ∧ g.Edge p s)
    (HG1 : ∀ v, (g.childSyms v).Nodup)
    (HG2 : ∀ v c, g.Edge v c → c < g.interner.len) :
    (g.subsetMultiU32 [s]).2 = false
    ∧ (∀ v, v ∈ (g.subsetMultiU32 [s]).1.nodes ↔ Reach g s v)
    ∧ (g.subsetMultiU32 [s]).1.roots = [s]
    ∧ (∀ v, v ∈ (g.subsetMultiU32 [s]).1.leaves → g.children_map.get v = .empty) := by
  have hNpos : 0 < g.interner.len := Nat.lt_of_le_of_lt (Nat.zero_le s) hs
  have hpm1get : ∀ v, ((NodeMap.new g.interner.len).setSlot s .empty).get v
      = if v = s then .empty else .uninit := by
    intro v
    by_cases hv : v = s
    · rw [if_pos hv, hv, NodeMap.get_setSlot_self _ _ _ (by rw [NodeMap.len_new]; exact hs)]
    · rw [if_neg hv, NodeMap.get_setSlot_ne _ _ _ _ (fun hh => hv hh.symm), NodeMap.get_new]
  have hseedrfl : Reach g s s := ⟨0, Steps.refl s⟩
  have hmeas : ∀ (k : Nat), k ≤ g.interner.len →
      k + (g.interner.len - 1) * (g.interner.len + 1)
        < g.interner.len * g.interner.len + g.interner.len + 1 := by
    intro k hk
    have h1 : (g.interner.len - 1) * (g.interner.len + 1)
        ≤ g.interner.len * (g.interner.len + 1) :=
      Nat.mul_le_mul_right _ (Nat.sub_le _ 1)
    have h12 : (g.interner.len - 1) * (g.interner.len + 1) + (g.interner.len + 1)
        = g.interner.len * (g.interner.len + 1) := by
      have hlen : g.interner.len - 1 + 1 = g.interner.len := Nat.succ_pred_eq_of_pos hNpos
      calc (g.interner.len - 1) * (g.interner.len + 1) + (g.interner.len + 1)
          = ((g.interner.len - 1) + 1) * (g.interner.len + 1) := by ring
        _ = g.interner.len * (g.interner.len + 1) := by rw [hlen]
    have h2 : g.interner.len * (g.interner.len + 1)
        = g.interner.len * g.interner.len + g.interner.len := by ring
    omega
  -- case split on the seed's child slot in the parent graph
  rcases hgs : g.children_map.get s with _ | _ | children
  · -- Uninitialized seed slot
    have hinv1 : SubInv g g.interner.len s
        ⟨[], [s], NodeMap.new g.interner.len,
         (NodeMap.new g.interner.len).setSlot s .empty, [], 0, [], false⟩ := by
      constructor
      · rw [NodeMap.len_setSlot, NodeMap.len_new]
      · rw [NodeMap.len_new]
      · simp
      · intro v hv
        rw [List.mem_singleton.mp hv]
        exact hseedrfl
      · simp
      · intro v hv
        rw [List.mem_singleton.mp hv]
        exact hs
      · intro pc hpc
        simp at hpc
      · rw [hpm1get, if_pos rfl]
      · intro v hv
        rw [hpm1get] at hv
        by_cases hvv : v = s
        · exact hvv
        · rw [if_neg hvv] at hv
          exact absurd hv (by simp)
      · intro v hv
        rw [hpm1get] at hv
        by_cases hvv : v = s
        · rw [if_pos hvv] at hv
          simp [LazySet.isInit] at hv
        · rw [if_neg hvv] at hv
          simp [LazySet.isInit] at hv
      · intro v hv hvs
        exact absurd (List.mem_singleton.mp hv) hvs
      · intro v hv c hvc
        rw [List.mem_singleton.mp hv] at hvc
        obtain ⟨l, hl, _⟩ := edge_slot_init hvc
        rw [hgs] at hl
        exact LazySet.noConfusion hl
      · intro v hv
        rw [NodeMap.get_new] at hv
        exact absurd hv (by simp)
      · intro v hv
        simp at hv
      · rfl
    have hμ1 : subMeasure g.interner.len
        ⟨[], [s], NodeMap.new g.interner.len,
         (NodeMap.new g.interner.len).setSlot s .empty, [], 0, [], false⟩
        < g.interner.len * g.interner.len + g.interner.len + 1 := by
      unfold subMeasure
      simpa using hmeas 0 (Nat.zero_le _)
    obtain ⟨hinv2, hq2, hn2⟩ := subsetLoop_post g g.interner.len s HB HG1 HG2
      (g.interner.len * g.interner.len + g.interner.len + 1) _ hinv1 hμ1
    have hfin := subset_final g g.interner.len s _ hinv2 hq2 (by rw [hn2])
    unfold DirectedGraph.subsetMultiU32
    rw [if_neg (show ¬([s] : List Nat) = [] by simp)]
    simp only [List.foldl_cons, List.foldl_nil]
    unfold subsetSeed
    simp only [List.not_mem_nil, if_false]
    rw [hgs]
    exact ⟨hfin.1, hfin.2.1, hfin.2.2.1, hfin.2.2.2⟩
  · -- Empty seed slot: the seed is immediately a leaf
    have hcm1get : ∀ v, ((NodeMap.new g.interner.len).setSlot s .empty).get v
        = if v = s then .empty else .uninit := hpm1get
    have hinv1 : SubInv g g.interner.len s
        ⟨[s], [s], (NodeMap.new g.interner.len).setSlot s .empty,
         (NodeMap.new g.interner.len).setSlot s .empty, [], 0, [], false⟩ := by
      constructor
      · rw [NodeMap.len_setSlot, NodeMap.len_new]
      · rw [NodeMap.len_setSlot, NodeMap.len_new]
      · simp
      · intro v hv
        rw [List.mem_singleton.mp hv]
        exact hseedrfl
      · simp
      · intro v hv
        rw [List.mem_singleton.mp hv]
        exact hs
      · intro pc hpc
        simp at hpc
      · rw [hpm1get, if_pos rfl]
      · intro v hv
        rw [hpm1get] at hv
        by_cases hvv : v = s
        · exact hvv
        · rw [if_neg hvv] at hv
          exact absurd hv (by simp)
      · intro v hv
        rw [hpm1get] at hv
        by_cases hvv : v = s
        · rw [if_pos hvv] at hv
          simp [LazySet.isInit] at hv
        · rw [if_neg hvv] at hv
          simp [LazySet.isInit] at hv
      · intro v hv hvs
        exact absurd (List.mem_singleton.mp hv) hvs
      · intro v hv c hvc
        rw [List.mem_singleton.mp hv] at hvc
        obtain ⟨l, hl, _⟩ := edge_slot_init hvc
        rw [hgs] at hl
        exact LazySet.noConfusion hl
      · intro v hv
        rw [hcm1get] at hv
        by_cases hvv : v = s
        · rw [hvv]; exact hgs
        · rw [if_neg hvv] at hv
          exact absurd hv (by simp)
      · intro v hv
        rw [List.mem_singleton.mp hv]
        exact hgs
      · rfl
    have hμ1 : subMeasure g.interner.len
        ⟨[s], [s], (NodeMap.new g.interner.len).setSlot s .empty,
         (NodeMap.new g.interner.len).setSlot s .empty, [], 0, [], false⟩
        < g.interner.len * g.interner.len + g.interner.len + 1 := by
      unfold subMeasure
      simpa using hmeas 0 (Nat.zero_le _)
    obtain ⟨hinv2, hq2, hn2⟩ := subsetLoop_post g g.interner.len s HB HG1 HG2
      (g.interner.len * g.interner.len + g.interner.len + 1) _ hinv1 hμ1
    have hfin := subset_final g g.interner.len s _ hinv2 hq2 (by rw [hn2])
    unfold DirectedGraph.subsetMultiU32
    rw [if_neg (show ¬([s] : List Nat) = [] by simp)]
    simp only [List.foldl_cons, List.foldl_nil]
    unfold subsetSeed
    simp only [List.not_mem_nil, if_false]
    rw [hgs]
    exact ⟨hfin.1, hfin.2.1, hfin.2.2.1, hfin.2.2.2⟩
  · -- Initialized seed slot: enqueue the seed's children
    have hchild : g.childSyms s = children := by
      unfold DirectedGraph.childSyms
      rw [hgs]
      rfl
    have hchildE : ∀ c ∈ children, g.Edge s c := by
      intro c hc
      unfold DirectedGraph.Edge
      rw [hchild]
      exact hc
    have hchildlen : children.length ≤ g.interner.len :=
      nodup_bounded_length_le children _ (hchild ▸ HG1 s)
        (fun c hc => HG2 s c (hchildE c hc))
    have hinv1 : SubInv g g.interner.len s
        ⟨[], [s], NodeMap.new g.interner.len,
         (NodeMap.new g.interner.len).setSlot s .empty,
         children.map (fun c => (s, c)), 0, [], false⟩ := by
      constructor
      · rw [NodeMap.len_setSlot, NodeMap.len_new]
      · rw [NodeMap.len_new]
      · simp
      · intro v hv
        rw [List.mem_singleton.mp hv]
        exact hseedrfl
      · simp
      · intro v hv
        rw [List.mem_singleton.mp hv]
        exact hs
      · intro pc hpc
        obtain ⟨c, hc, rfl⟩ := List.mem_map.mp hpc
        exact ⟨hchildE c hc, by simp⟩
      · rw [hpm1get, if_pos rfl]
      · intro v hv
        rw [hpm1get] at hv
        by_cases hvv : v = s
        · exact hvv
        · rw [if_neg hvv] at hv
          exact absurd hv (by simp)
      · intro v hv
        rw [hpm1get] at hv
        by_cases hvv : v = s
        · rw [if_pos hvv] at hv
          simp [LazySet.isInit] at hv
        · rw [if_neg hvv] at hv
          simp [LazySet.isInit] at hv
      · intro v hv hvs
        exact absurd (List.mem_singleton.mp hv) hvs
      · intro v hv c hvc
        have hv2 : v = s := List.mem_singleton.mp hv
        subst hv2
        left
        apply List.mem_map.mpr
        refine ⟨c, ?_, rfl⟩
        rw [← hchild]
        exact hvc
      · intro v hv
        rw [NodeMap.get_new] at hv
        exact absurd hv (by simp)
      · intro v hv
        simp at hv
      · rfl
    have hμ1 : subMeasure g.interner.len
        ⟨[], [s], NodeMap.new g.interner.len,
         (NodeMap.new g.interner.len).setSlot s .empty,
         children.map (fun c => (s, c)), 0, [], false⟩
        < g.interner.len * g.interner.len + g.interner.len + 1 := by
      unfold subMeasure
      simpa using hmeas children.length hchildlen
    obtain ⟨hinv2, hq2, hn2⟩ := subsetLoop_post g g.interner.len s HB HG1 HG2
      (g.interner.len * g.interner.len + g.interner.len + 1) _ hinv1 hμ1
    have hfin := subset_final g g.interner.len s _ hinv2 hq2 (by rw [hn2])
    unfold DirectedGraph.subsetMultiU32
    rw [if_neg (show ¬([s] : List Nat) = [] by simp)]
    simp only [List.foldl_cons, List.foldl_nil]
    unfold subsetSeed
    simp only [List.not_mem_nil, if_false]
    rw [hgs]
    exact ⟨hfin.1, hfin.2.1, hfin.2.2.1, hfin.2.2.2⟩

theorem getInternal_ok_facts (g : DirectedGraph) (l : String) (s : Nat)
    (h : g.getInternal l = .ok s) :
    s < g.interner.len ∧ l ∈ g.interner.strs ∧ g.interner.strs.indexOf l = s := by
  unfold DirectedGraph.getInternal at h
  cases hr : g.interner.get l with
  | none => rw [hr] at h; exact absurd h (by simp)
  | some t =>
    rw [hr] at h
    have hts : t = s := by
      have h2 : (Except.ok t : Except GraphInteractionError Nat) = .ok s := h
      injection h2
    unfold Resolver.get at hr
    by_cases hm : l ∈ g.interner.strs
    · rw [if_pos hm] at hr
      have hidx : g.interner.strs.indexOf l = t := by injection hr
      refine ⟨?_, hm, hidx.trans hts⟩
      rw [← hts, ← hidx]
      exact List.indexOf_lt_length.mpr hm
    · rw [if_neg hm] at hr
      exact absurd hr (by simp)

theorem built_edge_lt (es : List (String × String)) :
    ∀ v c, (mkGraph es).Edge v c → c < (mkGraph es).interner.len := by
  intro v c h
  have hwf := mkBuilder_wf es
  have h2 : c ∈ ((mkBuilder es).buildDirected).childSyms v := h
  rw [childSyms_iff (mkBuilder es) hwf v c] at h2
  exact hwf.2.2 c (List.of_mem_zip h2).2

/-- C5 counterexample: on the two-cycle a → b → a, subset("a") does not
return a graph whose roots vector is the seed.  The traversal invokes or_init
on the seed's Empty parent slot (the flag is true), so the Rust behavior is
undefined; even the benign continuation modelled here produces an empty roots
vector instead of [0]. -/
theorem C5_subset_roots_counterexample :
    ((mkGraph [("a", "b"), ("b", "a")]).subsetMultiU32 [0]).2 = true
    ∧ ((mkGraph [("a", "b"), ("b", "a")]).subsetMultiU32 [0]).1.roots = []
    ∧ (mkGraph [("a", "b"), ("b", "a")]).getInternal "a" = .ok 0 :=
  ⟨by decide, by decide, by rfl⟩

/-- C5 (amended): for every finalized graph and interned label resolving to
seed s such that no forward-reachable node has an edge back into s, subset
returns the graph on exactly the forward-reachable set of s, with roots = [s]
and every leaf of the subset a leaf of the parent graph (and the traversal
never reaches the or_init undefined-behavior branch). -/
theorem C5_subset_closure_amended (es : List (String × String)) (l : String) (s : Nat)
    (hl : (mkGraph es).getInternal l = .ok s)
    (HB : ¬ ∃ p, Reach (mkGraph es) s p ∧ (mkGraph es).Edge p s) :
    (mkGraph es).subsetOp l = .ok ((mkGraph es).subsetMultiU32 [s])
    ∧ ((mkGraph es).subsetMultiU32 [s]).2 = false
    ∧ (∀ v, v ∈ ((mkGraph es).subsetMultiU32 [s]).1.nodes ↔ Reach (mkGraph es) s v)
    ∧ ((mkGraph es).subsetMultiU32 [s]).1.roots = [s]
    ∧ (∀ v, v ∈ ((mkGraph es).subsetMultiU32 [s]).1.leaves → v ∈ (mkGraph es).leaves) := by
  have hwf := mkBuilder_wf es
  have hlt := (getInternal_ok_facts (mkGraph es) l s hl).1
  have hHG1 : ∀ v, ((mkGraph es).childSyms v).Nodup :=
    fun v => childSyms_nodup (mkBuilder es) hwf v
  have hspec := subset_single_spec (mkGraph es) s hlt HB hHG1 (built_edge_lt es)
  refine ⟨?_, hspec.1, hspec.2.1, hspec.2.2.1, ?_⟩
  · unfold DirectedGraph.subsetOp
    rw [hl]
    rfl
  · intro v hv
    exact (leaves_iff_empty (mkBuilder es) hwf v).mpr (hspec.2.2.2 v hv)

/-- Witness for the amended C5 on the single edge a → b with seed "a". -/
theorem C5_subset_closure_amended_witness :
    ((mkGraph [("a", "b")]).subsetMultiU32 [0]).1.roots = [0]
    ∧ ((mkGraph [("a", "b")]).subsetMultiU32 [0]).2 = false := by
  have hb : ¬ ∃ p, Reach (mkGraph [("a", "b")]) 0 p ∧ (mkGraph [("a", "b")]).Edge p 0 := by
    rintro ⟨p, -, he⟩
    by_cases hp : p < 2
    · interval_cases p
      · exact absurd he (by decide)
      · exact absurd he (by decide)
    · push_neg at hp
      have hlen : (mkGraph [("a", "b")]).children_map.map.length = 2 := by decide
      have hu : (mkGraph [("a", "b")]).children_map.get p = .uninit :=
        NodeMap.get_of_len_le _ p (by omega)
      unfold DirectedGraph.Edge DirectedGraph.childSyms at he
      rw [hu] at he
      simp [LazySet.elems] at he
  have h := C5_subset_closure_amended [("a", "b")] "a" 0 (by rfl) hb
  exact ⟨h.2.2.2.1, h.2.1⟩

example : (mkGraph [("a", "b")]).roots = [0] := by decide
example : (mkGraph [("a", "b")]).leaves = [1] := by decide
example : (mkGraph [("a", "b"), ("a", "c")]).n_edges = 2 := by decide
example : (mkGraph [("a", "b"), ("a", "b")]).n_edges = 1 := by decide
example : (mkGraph [("a", "b"), ("a", "c")]).childSyms 0 = [1, 2] := by decide
example : (mkGraph [("a", "b"), ("c", "b")]).parentSyms 1 = [0, 2] := by decide

/-! ### DirectedAcyclicGraph::find_path: validity of the greedy walk (C7) -/

theorem getLast?_cons_ne_nil {α : Type} (a : α) (l : List α) (h : l ≠ []) :
    (a :: l).getLast? = l.getLast? := by
  cases l with
  | nil => exact absurd rfl h
  | cons b t => exact List.getLast?_cons_cons

/-- Every path the greedy walk returns is a valid srcId to goal path, given
that the accumulator (read in reverse) is a valid current to goal path. -/
theorem dagWalk_valid (g : DirectedGraph) (srcId goal : Nat) :
    ∀ slice current path p, IsPathList g current goal path.reverse →
      dagWalk g srcId slice current path = some p → IsPathList g srcId goal p := by
  intro slice
  induction slice with
  | nil =>
    intro current path p _ h
    exact absurd h (by simp [dagWalk])
  | cons n rest ih =>
    intro current path p hI h
    simp only [dagWalk] at h
    by_cases he : g.edgeExists n current = true
    · rw [if_pos he] at h
      have hedge : g.Edge n current := of_decide_eq_true he
      have hrev : (path ++ [n]).reverse = n :: path.reverse := by simp
      have hI2 : IsPathList g n goal (path ++ [n]).reverse := by
        rw [hrev]
        obtain ⟨hne, hhd, hlast, hch⟩ := hI
        refine ⟨List.cons_ne_nil _ _, rfl, ?_, ?_⟩
        · rw [getLast?_cons_ne_nil _ _ hne]
          exact hlast
        · rw [List.chain'_cons']
          refine ⟨?_, hch⟩
          intro b hb
          rw [hhd] at hb
          have hbc : current = b := by simpa using hb
          subst hbc
          exact hedge
      by_cases hn : n = srcId
      · rw [if_pos hn] at h
        have hp : (path ++ [n]).reverse = p := by injection h
        rw [← hp, ← hn]
        exact hI2
      · rw [if_neg hn] at h
        exact ih n (path ++ [n]) p hI2 h
    · rw [if_neg he] at h
      exact ih current path p hI h

/-- A valid path list witnesses reachability. -/
theorem isPathList_reach (g : DirectedGraph) :
    ∀ l a b, IsPathList g a b l → Reach g a b := by
  intro l
  induction l with
  | nil => intro a b h; exact absurd rfl h.1
  | cons x t ih =>
    intro a b h
    obtain ⟨-, hhd, hlast, hch⟩ := h
    have hxa : x = a := by simpa using hhd
    subst hxa
    cases t with
    | nil =>
      have hab : x = b := by simpa using hlast
      subst hab
      exact ⟨0, Steps.refl x⟩
    | cons y t2 =>
      rw [List.chain'_cons] at hch
      have hlast2 : (y :: t2).getLast? = some b := by
        rw [← getLast?_cons_ne_nil x (y :: t2) (List.cons_ne_nil y t2)]
        exact hlast
      obtain ⟨m, hm⟩ := ih y b ⟨List.cons_ne_nil y t2, rfl, hlast2, hch.2⟩
      exact ⟨m + 1, Steps.head hch.1 hm⟩

/-- Any nonempty result of the DAG find_path on symbols is a valid path. -/
theorem dag_findPathSyms_valid (d : DirectedAcyclicGraph) (s t : Nat)
    (hne : d.findPathSyms s t ≠ []) :
    IsPathList d.dg s t (d.findPathSyms s t) := by
  unfold DirectedAcyclicGraph.findPathSyms at hne ⊢
  by_cases hst : s = t
  · rw [if_pos hst]
    subst hst
    exact ⟨List.cons_ne_nil s [], rfl, rfl, List.chain'_singleton s⟩
  · rw [if_neg hst] at hne ⊢
    simp only at hne ⊢
    by_cases hlt : d.topoSort.indexOf s < d.topoSort.indexOf t
    · rw [if_pos hlt] at hne
      exact absurd rfl hne
    · rw [if_neg hlt] at hne ⊢
      cases hw : dagWalk d.dg s
          ((d.topoSort.drop (d.topoSort.indexOf t)).take
            (d.topoSort.indexOf s - d.topoSort.indexOf t + 1)) t [t] with
      | none => rw [hw] at hne; exact absurd rfl hne
      | some p =>
        show IsPathList d.dg s t p
        have hI : IsPathList d.dg t t ([t].reverse) :=
          ⟨List.cons_ne_nil t [], rfl, rfl, List.chain'_singleton t⟩
        exact dagWalk_valid d.dg s t _ t [t] p hI hw

/-- C7 counterexample: on the DAG with edges F→Y, F→T, D→T (symbols F=0, Y=1,
T=2, D=3, leaves-first topological order [2, 3, 1, 0]), find_path("F", "T")
returns the empty result even though the edge F→T exists, because the greedy
walk from T first steps into D (topologically between T and F) and gets stuck:
the result is not "empty exactly when no path exists". -/
theorem C7_dag_find_path_counterexample :
    (mkBuilder [("F", "Y"), ("F", "T"), ("D", "T")]).buildAcyclic
      = .ok ⟨mkGraph [("F", "Y"), ("F", "T"), ("D", "T")], [2, 3, 1, 0]⟩
    ∧ (DirectedAcyclicGraph.mk (mkGraph [("F", "Y"), ("F", "T"), ("D", "T")])
        [2, 3, 1, 0]).findPath "F" "T" = .ok []
    ∧ (mkGraph [("F", "Y"), ("F", "T"), ("D", "T")]).Edge 0 2
    ∧ (mkGraph [("F", "Y"), ("F", "T"), ("D", "T")]).getInternal "F" = .ok 0
    ∧ (mkGraph [("F", "Y"), ("F", "T"), ("D", "T")]).getInternal "T" = .ok 2 :=
  ⟨by rfl, by rfl, by decide, by rfl, by rfl⟩

/-- C7 (amended): DAG find_path returns [from] when from = to; every nonempty
result is a valid from-to path along edges; and when no from-to path exists the
result is empty.  (The converse — empty only when no path exists — is false.) -/
theorem C7_dag_find_path_amended (d : DirectedAcyclicGraph) (a b : String)
    (sa sb : Nat)
    (ha : d.dg.getInternal a = .ok sa) (hb : d.dg.getInternal b = .ok sb) :
    d.findPath a b = .ok ((d.findPathSyms sa sb).map d.dg.interner.resolve)
    ∧ (sa = sb → d.findPathSyms sa sb = [sa])
    ∧ (d.findPathSyms sa sb ≠ [] →
        IsPathList d.dg sa sb (d.findPathSyms sa sb) ∧ Reach d.dg sa sb)
    ∧ (¬ Reach d.dg sa sb → d.findPathSyms sa sb = []) := by
  refine ⟨?_, ?_, ?_, ?_⟩
  · unfold DirectedAcyclicGraph.findPath
    rw [ha, hb]
    rfl
  · intro hab
    unfold DirectedAcyclicGraph.findPathSyms
    rw [if_pos hab]
  · intro hne
    have hv := dag_findPathSyms_valid d sa sb hne
    exact ⟨hv, isPathList_reach d.dg _ sa sb hv⟩
  · intro hnr
    by_contra hne
    exact hnr (isPathList_reach d.dg _ sa sb (dag_findPathSyms_valid d sa sb hne))

/-! ### topological_sort correctness (C6): invariants of the Kahn loop -/

theorem set_of_len_le {α : Type} (l : List α) (i : Nat) (v : α) (h : l.length ≤ i) :
    l.set i v = l := by
  induction l generalizing i with
  | nil => simp
  | cons a t ih =>
    cases i with
    | zero => simp at h
    | succ j => simp only [List.set_cons_succ]; rw [ih j (by simpa using h)]

theorem NodeMap.get_setSlot_oob (m : NodeMap) (k j : Nat) (v : LazySet)
    (h : m.map.length ≤ k) : (m.setSlot k v).get j = m.get j := by
  unfold NodeMap.setSlot NodeMap.get
  rw [set_of_len_le m.map k v h]

theorem removeElem_elems (s : LazySet) (x : Nat) :
    (s.removeElem x).elems = s.elems.erase x := by
  cases s <;> simp [LazySet.removeElem, LazySet.elems]

theorem setSlot_removeElem_elems (m : NodeMap) (p x : Nat) :
    ((m.setSlot p ((m.get p).removeElem x)).get p).elems = ((m.get p).elems).erase x := by
  by_cases h : p < m.map.length
  · rw [NodeMap.get_setSlot_self m p _ h]
    exact removeElem_elems _ _
  · rw [NodeMap.get_setSlot_oob m p p _ (by omega)]
    rw [NodeMap.get_of_len_le m p (by omega)]
    simp [LazySet.elems]

theorem nodup_subset_length_le (l m : List Nat) (hnd : l.Nodup)
    (hsub : ∀ x ∈ l, x ∈ m) : l.length ≤ m.length := by
  have h1 : l.toFinset.card = l.length := by
    rw [List.card_toFinset, List.dedup_eq_self.mpr hnd]
  have h2 : l.toFinset ⊆ m.toFinset := by
    intro x hx
    exact List.mem_toFinset.mpr (hsub x (List.mem_toFinset.mp hx))
  calc l.length = l.toFinset.card := h1.symm
    _ ≤ m.toFinset.card := Finset.card_le_card h2
    _ ≤ m.length := m.toFinset_card_le

/-- Removing one from the value at each member of ps drops the sum over ns by
|ps|, when ps is a duplicate-free sublist of the duplicate-free index list. -/
theorem sum_sub_ones (ns : List Nat) (f g : Nat → Nat) :
    ∀ ps : List Nat, ns.Nodup → ps.Nodup → (∀ p ∈ ps, p ∈ ns) →
      (∀ v ∈ ps, g v + 1 = f v) → (∀ v ∈ ns, v ∉ ps → g v = f v) →
      (ns.map g).sum + ps.length = (ns.map f).sum := by
  induction ns with
  | nil =>
    intro ps _ _ hsub _ _
    cases ps with
    | nil => simp
    | cons p t => exact absurd (hsub p (by simp)) (by simp)
  | cons n rest ih =>
    intro ps hns hps hsub h1 h2
    by_cases hn : n ∈ ps
    · have hrec := ih (ps.erase n) (List.Nodup.of_cons hns) (hps.erase n) ?_ ?_ ?_
      · have hlen : (ps.erase n).length + 1 = ps.length := by
          have hp0 : 0 < ps.length := List.length_pos.mpr (List.ne_nil_of_mem hn)
          rw [List.length_erase_of_mem hn]
          omega
        have hfn := h1 n hn
        simp only [List.map_cons, List.sum_cons]
        omega
      · intro p hp
        have hpps := List.mem_of_mem_erase hp
        have hpn : p ≠ n := by
          intro hh
          rw [hh] at hp
          exact (hps.not_mem_erase) hp
        rcases List.mem_cons.mp (hsub p hpps) with h | h
        · exact absurd h hpn
        · exact h
      · intro v hv
        exact h1 v (List.mem_of_mem_erase hv)
      · intro v hv hvn
        refine h2 v (by simp [hv]) ?_
        intro hvps
        have : v = n := by
          by_contra hne
          exact hvn ((List.mem_erase_of_ne hne).mpr hvps)
        rw [this] at hv
        exact (List.nodup_cons.mp hns).1 hv
    · have hrec := ih ps (List.Nodup.of_cons hns) hps ?_ h1 ?_
      · have hgn : g n = f n := h2 n (by simp) hn
        simp only [List.map_cons, List.sum_cons]
        omega
      · intro p hp
        rcases List.mem_cons.mp (hsub p hp) with h | h
        · rw [h] at hp; exact absurd hp hn
        · exact h
      · intro v hv
        exact h2 v (by simp [hv])

theorem eq_singleton_of_erase_nil (l : List Nat) (a : Nat)
    (hm : a ∈ l) (h : l.erase a = []) : l = [a] := by
  cases l with
  | nil => simp at hm
  | cons b t =>
    rw [List.erase_cons] at h
    by_cases hba : b = a
    · rw [if_pos (by simp [hba])] at h
      rw [h, hba]
    · rw [if_neg (by simp [hba])] at h
      exact absurd h (by simp)

/-- What one pass of the inner edge-removal loop of topological_sort does. -/
structure KRSpec (node : Nat) (cm pm : NodeMap) (nE : Nat) (nd : List Nat)
    (s : List Nat) (ps : List Nat) (r : NodeMap × NodeMap × Nat × List Nat) : Prop where
  cm_elems : ∀ q, (r.1.get q).elems
      = if q ∈ ps then ((cm.get q).elems).erase node else (cm.get q).elems
  pm_node_mem : ∀ x, x ∈ ((r.2.1).get node).elems ↔ x ∈ s ∧ x ∉ ps
  pm_node_nodup : ((r.2.1).get node).elems.Nodup
  pm_other : ∀ c, c ≠ node → (r.2.1).get c = pm.get c
  pm_len : (r.2.1).len = pm.len
  ne : r.2.2.1 = nE - ps.length
  nd_out : r.2.2.2 = nd ++ ps.filter (fun p => ((cm.get p).elems).erase node = [])

theorem kahnRemove_spec (node : Nat) :
    ∀ (ps : List Nat) (cm pm : NodeMap) (nE : Nat) (nd : List Nat) (s : List Nat),
      pm.get node = .init s → ps.Nodup → (∀ p ∈ ps, p ∈ s) → s.Nodup →
      node < pm.len →
      KRSpec node cm pm nE nd s ps (kahnRemove node ps cm pm nE nd) := by
  intro ps
  induction ps with
  | nil =>
    intro cm pm nE nd s hpm _ _ hsnd _
    refine ⟨?_, ?_, ?_, ?_, ?_, ?_, ?_⟩
    · intro q; simp [kahnRemove]
    · intro x; rw [show kahnRemove node [] cm pm nE nd = (cm, pm, nE, nd) from rfl]
      rw [hpm]; simp [LazySet.elems]
    · rw [show kahnRemove node [] cm pm nE nd = (cm, pm, nE, nd) from rfl, hpm]
      simpa [LazySet.elems] using hsnd
    · intro c _; rfl
    · rfl
    · simp [kahnRemove]
    · simp [kahnRemove]
  | cons p rest ih =>
    intro cm pm nE nd s hpm hnodup hsub hsnd hnode
    have hples : p ∈ s := hsub p (by simp)
    have hstep : kahnRemove node (p :: rest) cm pm nE nd
        = kahnRemove node rest (cm.setSlot p ((cm.get p).removeElem node))
            (pm.setSlot node (.init (s.erase p))) (nE - 1)
            (match (cm.setSlot p ((cm.get p).removeElem node)).get p with
              | .init children => if children = [] then nd ++ [p] else nd
              | _ => nd ++ [p]) := by
      show (let cm2 := cm.setSlot p ((cm.get p).removeElem node); _) = _
      simp only [kahnRemove, hpm, if_pos hples]
    set cm2 := cm.setSlot p ((cm.get p).removeElem node) with hcm2
    set pm2 := pm.setSlot node (.init (s.erase p)) with hpm2
    set nd2 : List Nat := (match cm2.get p with
      | .init children => if children = [] then nd ++ [p] else nd
      | _ => nd ++ [p]) with hnd2
    have hpm2get : pm2.get node = .init (s.erase p) := by
      rw [hpm2]
      exact NodeMap.get_setSlot_self pm node _ hnode
    have hrec := ih cm2 pm2 (nE - 1) nd2 (s.erase p) hpm2get
      (List.Nodup.of_cons hnodup) ?_ (hsnd.erase p) ?_
    · have hpnr : p ∉ rest := (List.nodup_cons.mp hnodup).1
      have hcm2get : ∀ q, q ≠ p → cm2.get q = cm.get q := by
        intro q hq
        rw [hcm2]
        exact NodeMap.get_setSlot_ne cm p q _ (fun hh => hq hh.symm)
      have hcm2p : (cm2.get p).elems = ((cm.get p).elems).erase node := by
        rw [hcm2]
        exact setSlot_removeElem_elems cm p node
      rw [hstep]
      refine ⟨?_, ?_, ?_, ?_, ?_, ?_, ?_⟩
      · intro q
        rw [hrec.cm_elems q]
        by_cases hq1 : q ∈ rest
        · have hqp : q ≠ p := fun hh => hpnr (hh ▸ hq1)
          rw [if_pos hq1, if_pos (by simp [hq1]), hcm2get q hqp]
        · by_cases hq2 : q = p
          · subst hq2
            rw [if_neg hq1, if_pos (by simp), hcm2p]
          · rw [if_neg hq1, if_neg (by simp [hq1, hq2]), hcm2get q hq2]
      · intro x
        rw [hrec.pm_node_mem x]
        constructor
        · rintro ⟨hx1, hx2⟩
          have hx3 := List.mem_of_mem_erase hx1
          have hxp : x ≠ p := by
            intro hh
            rw [hh] at hx1
            exact hsnd.not_mem_erase hx1
          exact ⟨hx3, by simp [hxp, hx2]⟩
        · rintro ⟨hx1, hx2⟩
          simp only [List.mem_cons, not_or] at hx2
          exact ⟨(List.mem_erase_of_ne hx2.1).mpr hx1, hx2.2⟩
      · exact hrec.pm_node_nodup
      · intro c hc
        rw [hrec.pm_other c hc, hpm2]
        exact NodeMap.get_setSlot_ne pm node c _ (fun hh => hc hh.symm)
      · rw [hrec.pm_len, hpm2]
        exact NodeMap.len_setSlot pm node _
      · rw [hrec.ne]
        simp only [List.length_cons]
        omega
      · rw [hrec.nd_out]
        have hfc : rest.filter (fun q => ((cm2.get q).elems).erase node = [])
            = rest.filter (fun q => ((cm.get q).elems).erase node = []) := by
          apply List.filter_congr
          intro q hq
          rw [hcm2get q (fun hh => hpnr (hh ▸ hq))]
        rw [hfc]
        by_cases hcond : ((cm.get p).elems).erase node = []
        · have hnd2eq : nd2 = nd ++ [p] := by
            rw [hnd2]
            cases hshape : cm2.get p with
            | uninit => rfl
            | empty => rfl
            | init children =>
              have hch : children = ((cm.get p).elems).erase node := by
                rw [← hcm2p, hshape]
                rfl
              show (if children = [] then nd ++ [p] else nd) = nd ++ [p]
              rw [if_pos (hch.trans hcond)]
          rw [hnd2eq, List.filter_cons, if_pos (by simpa using hcond)]
          simp
        · have hnd2eq : nd2 = nd := by
            rw [hnd2]
            cases hshape : cm2.get p with
            | uninit =>
              exact absurd (by rw [← hcm2p, hshape]; rfl) hcond
            | empty =>
              exact absurd (by rw [← hcm2p, hshape]; rfl) hcond
            | init children =>
              have hch : children = ((cm.get p).elems).erase node := by
                rw [← hcm2p, hshape]
                rfl
              show (if children = [] then nd ++ [p] else nd) = nd
              rw [if_neg (by rw [hch]; exact hcond)]
          rw [hnd2eq, List.filter_cons, if_neg (by simpa using hcond)]
    · intro q hq
      have hqs := hsub q (by simp [hq])
      have hqp : q ≠ p := fun hh => (List.nodup_cons.mp hnodup).1 (hh ▸ hq)
      exact (List.mem_erase_of_ne hqp).mpr hqs
    · show node < (pm.setSlot node (LazySet.init (s.erase p))).map.length
      rw [NodeMap.len_setSlot]
      exact hnode

/-- The facts about a finalized graph that the Kahn loop relies on. -/
structure KahnFacts (g : DirectedGraph) : Prop where
  duality : ∀ p c, g.Edge p c ↔ p ∈ (g.parent_map.get c).elems
  pm_nodup : ∀ c, ((g.parent_map.get c).elems).Nodup
  nodes_nodup : g.nodes.Nodup
  edge_nodes_l : ∀ p c, g.Edge p c → p ∈ g.nodes
  edge_nodes_r : ∀ p c, g.Edge p c → c ∈ g.nodes
  nodes_lt_pm : ∀ v ∈ g.nodes, v < g.parent_map.len
  sum_edges : g.n_edges
    = (g.nodes.map (fun v => ((g.children_map.get v).elems).length)).sum
  cm_nodup : ∀ p, ((g.children_map.get p).elems).Nodup
  leaves_nodup : g.leaves.Nodup
  leaves_nodes : ∀ v ∈ g.leaves, v ∈ g.nodes
  leaves_empty : ∀ v ∈ g.leaves, (g.children_map.get v).elems = []
  leaves_complete : ∀ v ∈ g.nodes, v ∉ g.leaves → (g.children_map.get v).elems ≠ []

theorem kahnFacts_built (es : List (String × String)) : KahnFacts (mkGraph es) := by
  have hwf := mkBuilder_wf es
  have hpmlen : (mkGraph es).parent_map.len
      = (mkBuilder es).interner.strs.length := by
    have hinv := buildParentMap_inv (mkBuilder es).pairs
      (mkBuilder es).interner.strs.length
      (fun pc hpc => (pairs_wf (mkBuilder es) hwf pc hpc).2)
    show (fillEmpties (buildParentMap (mkBuilder es).pairs
        (mkBuilder es).interner.strs.length)
        ((mkBuilder es).buildDirected).nodes).map.length = _
    rw [fillEmpties_len]
    exact hinv.len
  refine ⟨?_, ?_, ?_, ?_, ?_, ?_, ?_, ?_, ?_, ?_, ?_, ?_⟩
  · intro p c
    exact build_duality (mkBuilder es) hwf p c
  · intro c
    exact parentSyms_nodup (mkBuilder es) hwf c
  · show (((mkBuilder es).buildDirected).nodes).Nodup
    rw [buildDirected_nodes]
    exact sortDedup_nodup _
  · intro p c h
    have h2 : c ∈ ((mkBuilder es).buildDirected).childSyms p := h
    rw [childSyms_iff (mkBuilder es) hwf p c] at h2
    exact (mem_nodes_iff (mkBuilder es) p).mpr (Or.inl (List.of_mem_zip h2).1)
  · intro p c h
    have h2 : c ∈ ((mkBuilder es).buildDirected).childSyms p := h
    rw [childSyms_iff (mkBuilder es) hwf p c] at h2
    exact (mem_nodes_iff (mkBuilder es) c).mpr (Or.inr (List.of_mem_zip h2).2)
  · intro v hv
    rw [hpmlen]
    rcases (mem_nodes_iff (mkBuilder es) v).mp hv with h | h
    · exact hwf.2.1 v h
    · exact hwf.2.2 v h
  · exact build_sum_children (mkBuilder es) hwf
  · intro p
    exact childSyms_nodup (mkBuilder es) hwf p
  · show (((mkBuilder es).buildDirected).leaves).Nodup
    rw [buildDirected_leaves]
    unfold findLeavesB
    exact sortDedup_nodup _
  · intro v hv
    have h := (mem_leaves_iff (mkBuilder es) v).mp hv
    exact (mem_nodes_iff (mkBuilder es) v).mpr (Or.inr h.1)
  · intro v hv
    have h := (mem_leaves_iff (mkBuilder es) v).mp hv
    rw [List.eq_nil_iff_forall_not_mem]
    intro c hc
    have h2 : c ∈ ((mkBuilder es).buildDirected).childSyms v := hc
    rw [childSyms_iff (mkBuilder es) hwf v c] at h2
    exact h.2 (List.of_mem_zip h2).1
  · intro v hv hnl
    rcases (mem_nodes_iff (mkBuilder es) v).mp hv with h | h
    · obtain ⟨c, hc⟩ := (mem_parents_iff_pairs (mkBuilder es) hwf v).mp h
      have h2 : c ∈ ((mkBuilder es).buildDirected).childSyms v :=
        (childSyms_iff (mkBuilder es) hwf v c).mpr hc
      exact List.ne_nil_of_mem h2
    · by_cases hp : v ∈ (mkBuilder es).parents
      · obtain ⟨c, hc⟩ := (mem_parents_iff_pairs (mkBuilder es) hwf v).mp hp
        have h2 : c ∈ ((mkBuilder es).buildDirected).childSyms v :=
          (childSyms_iff (mkBuilder es) hwf v c).mpr hc
        exact List.ne_nil_of_mem h2
      · exact absurd ((mem_leaves_iff (mkBuilder es) v).mpr ⟨h, hp⟩) hnl

/-- The invariant of the outer Kahn loop, relating the working copies to the
input graph and the output accumulated so far. -/
structure KInv (g : DirectedGraph) (cm pm : NodeMap) (nE : Nat)
    (noDeps res : List Nat) : Prop where
  pm_len : pm.len = g.parent_map.len
  cm_elems : ∀ p c, c ∈ (cm.get p).elems ↔ g.Edge p c ∧ c ∉ res
  pm_elems : ∀ p c, p ∈ (pm.get c).elems ↔ g.Edge p c ∧ c ∉ res
  cm_nodup : ∀ p, ((cm.get p).elems).Nodup
  pm_nodup : ∀ c, ((pm.get c).elems).Nodup
  ne_eq : nE = (g.nodes.map (fun v => ((cm.get v).elems).length)).sum
  nd_res_nodup : (noDeps ++ res).Nodup
  nd_nodes : ∀ v ∈ noDeps, v ∈ g.nodes
  res_nodes : ∀ v ∈ res, v ∈ g.nodes
  nd_empty : ∀ v ∈ noDeps, (cm.get v).elems = []
  complete : ∀ v ∈ g.nodes, v ∉ res → v ∉ noDeps → (cm.get v).elems ≠ []
  order : ∀ p c, g.Edge p c → p ∈ res → c ∈ res ∧ res.indexOf c < res.indexOf p

theorem kInv_init (g : DirectedGraph) (hg : KahnFacts g) :
    KInv g g.children_map g.parent_map g.n_edges g.leaves [] := by
  refine ⟨rfl, ?_, ?_, ?_, hg.pm_nodup, hg.sum_edges, ?_, hg.leaves_nodes, ?_, ?_, ?_, ?_⟩
  · intro p c
    simp only [List.not_mem_nil, not_false_iff, and_true]
    exact Iff.rfl
  · intro p c
    simp only [List.not_mem_nil, not_false_iff, and_true]
    exact (hg.duality p c).symm
  · exact hg.cm_nodup
  · simpa using hg.leaves_nodup
  · intro v hv
    simp at hv
  · exact hg.leaves_empty
  · intro v hv hr
    exact hg.leaves_complete v hv
  · intro p c _ hp
    simp at hp

/-- The Kahn loop preserves the invariant and terminates with no_deps empty
whenever the fuel dominates the number of nodes not yet output. -/
theorem kahnLoop_post (g : DirectedGraph) (hg : KahnFacts g) :
    ∀ (fuel : Nat) (cm pm : NodeMap) (nE : Nat) (noDeps res : List Nat),
      KInv g cm pm nE noDeps res →
      g.nodes.length + 1 ≤ fuel + res.length →
      KInv g (kahnLoop fuel cm pm nE noDeps res).1
        (kahnLoop fuel cm pm nE noDeps res).2.1
        (kahnLoop fuel cm pm nE noDeps res).2.2.1 []
        (kahnLoop fuel cm pm nE noDeps res).2.2.2 := by
  intro fuel
  induction fuel with
  | zero =>
    intro cm pm nE noDeps res hinv hfuel
    exfalso
    have hres_nodup : res.Nodup := hinv.nd_res_nodup.of_append_right
    have := nodup_subset_length_le res g.nodes hres_nodup hinv.res_nodes
    omega
  | succ fuel ih =>
    intro cm pm nE noDeps res hinv hfuel
    cases hnd : noDeps.getLast? with
    | none =>
      have hempty : noDeps = [] := List.getLast?_eq_none_iff.mp hnd
      subst hempty
      exact hinv
    | some node =>
      have hne' : noDeps ≠ [] := by
        intro h
        rw [h] at hnd
        simp at hnd
      have hsplit : noDeps.dropLast ++ [node] = noDeps :=
        List.dropLast_append_getLast? node (by rw [hnd]; rfl)
      have hnode_nd : node ∈ noDeps := by
        rw [← hsplit]
        exact List.mem_append.mpr (Or.inr (by simp))
      have hnode_nodes : node ∈ g.nodes := hinv.nd_nodes node hnode_nd
      have hnode_res : node ∉ res :=
        (List.disjoint_of_nodup_append hinv.nd_res_nodup) hnode_nd
      have hnode_empty : (cm.get node).elems = [] := hinv.nd_empty node hnode_nd
      have hndres : ((noDeps.dropLast ++ [node]) ++ res).Nodup := by
        rw [hsplit]
        exact hinv.nd_res_nodup
      have hnd_nodup : noDeps.dropLast.Nodup := hndres.of_append_left.of_append_left
      have hnode_nd_notmem : node ∉ noDeps.dropLast := by
        intro hmem
        exact (List.disjoint_of_nodup_append hndres.of_append_left) hmem (by simp)
      have hnd_res_disj : ∀ a ∈ noDeps.dropLast, a ∉ res :=
        fun a ha => (List.disjoint_of_nodup_append hndres) (List.mem_append.mpr (Or.inl ha))
      have hres_nodup : res.Nodup := hinv.nd_res_nodup.of_append_right
      have hresn_nodup : (res ++ [node]).Nodup := by
        refine hres_nodup.append (by simp) ?_
        intro a ha hb
        rw [show a = node from by simpa using hb] at ha
        exact hnode_res ha
      have hnd_sub : ∀ v ∈ noDeps.dropLast, v ∈ noDeps := by
        intro v hv
        rw [← hsplit]
        exact List.mem_append.mpr (Or.inl hv)
      have horder2 : ∀ p c, g.Edge p c → p ∈ res ++ [node] →
          c ∈ res ++ [node]
          ∧ (res ++ [node]).indexOf c < (res ++ [node]).indexOf p := by
        intro p c hE hp
        rcases List.mem_append.mp hp with hp | hp
        · obtain ⟨hc, hidxlt⟩ := hinv.order p c hE hp
          refine ⟨List.mem_append.mpr (Or.inl hc), ?_⟩
          rw [List.indexOf_append_of_mem hc, List.indexOf_append_of_mem hp]
          exact hidxlt
        · have hpn : p = node := by simpa using hp
          subst hpn
          have hc : c ∈ res := by
            by_contra hc
            have hmem := (hinv.cm_elems p c).mpr ⟨hE, hc⟩
            rw [hnode_empty] at hmem
            simp at hmem
          refine ⟨List.mem_append.mpr (Or.inl hc), ?_⟩
          rw [List.indexOf_append_of_mem hc, List.indexOf_append_of_not_mem hnode_res]
          have h1 : res.indexOf c < res.length := List.indexOf_lt_length.mpr hc
          have h2 : ([p] : List Nat).indexOf p = 0 := by simp
          omega
      have hb2 : g.nodes.length + 1 ≤ fuel + (res ++ [node]).length := by
        simp only [List.length_append, List.length_cons, List.length_nil]
        omega
      simp only [kahnLoop, hnd]
      cases hslot : pm.get node with
      | uninit =>
        have hps : (pm.get node).elems = [] := by rw [hslot]; rfl
        have hnoparent : ∀ p, ¬ g.Edge p node := by
          intro p hE
          have hmem := (hinv.pm_elems p node).mpr ⟨hE, hnode_res⟩
          rw [hps] at hmem
          simp at hmem
        refine ih cm pm nE noDeps.dropLast (res ++ [node]) ?_ hb2
        refine ⟨hinv.pm_len, ?_, ?_, hinv.cm_nodup, hinv.pm_nodup, hinv.ne_eq, ?_, ?_, ?_, ?_, ?_, horder2⟩
        · intro p c
          rw [hinv.cm_elems p c]
          constructor
          · rintro ⟨hE, hc⟩
            refine ⟨hE, ?_⟩
            intro hcr
            rcases List.mem_append.mp hcr with h | h
            · exact hc h
            · exact hnoparent p ((by simpa using h) ▸ hE)
          · rintro ⟨hE, hc⟩
            exact ⟨hE, fun h => hc (List.mem_append.mpr (Or.inl h))⟩
        · intro p c
          rw [hinv.pm_elems p c]
          constructor
          · rintro ⟨hE, hc⟩
            refine ⟨hE, ?_⟩
            intro hcr
            rcases List.mem_append.mp hcr with h | h
            · exact hc h
            · exact hnoparent p ((by simpa using h) ▸ hE)
          · rintro ⟨hE, hc⟩
            exact ⟨hE, fun h => hc (List.mem_append.mpr (Or.inl h))⟩
        · refine hnd_nodup.append hresn_nodup ?_
          intro a ha hb
          rcases List.mem_append.mp hb with h | h
          · exact hnd_res_disj a ha h
          · exact hnode_nd_notmem ((by simpa using h) ▸ ha)
        · intro v hv
          exact hinv.nd_nodes v (hnd_sub v hv)
        · intro v hv
          rcases List.mem_append.mp hv with h | h
          · exact hinv.res_nodes v h
          · exact (by simpa using h) ▸ hnode_nodes
        · intro v hv
          exact hinv.nd_empty v (hnd_sub v hv)
        · intro v hv hvr hvn
          have hv1 : v ∉ res := fun h => hvr (List.mem_append.mpr (Or.inl h))
          have hv2 : v ≠ node := fun h => hvr (List.mem_append.mpr (Or.inr (by simp [h])))
          have hv3 : v ∉ noDeps := by
            rw [← hsplit]
            intro h
            rcases List.mem_append.mp h with h | h
            · exact hvn h
            · exact hv2 (by simpa using h)
          exact hinv.complete v hv hv1 hv3
      | empty =>
        have hps : (pm.get node).elems = [] := by rw [hslot]; rfl
        have hnoparent : ∀ p, ¬ g.Edge p node := by
          intro p hE
          have hmem := (hinv.pm_elems p node).mpr ⟨hE, hnode_res⟩
          rw [hps] at hmem
          simp at hmem
        refine ih cm pm nE noDeps.dropLast (res ++ [node]) ?_ hb2
        refine ⟨hinv.pm_len, ?_, ?_, hinv.cm_nodup, hinv.pm_nodup, hinv.ne_eq, ?_, ?_, ?_, ?_, ?_, horder2⟩
        · intro p c
          rw [hinv.cm_elems p c]
          constructor
          · rintro ⟨hE, hc⟩
            refine ⟨hE, ?_⟩
            intro hcr
            rcases List.mem_append.mp hcr with h | h
            · exact hc h
            · exact hnoparent p ((by simpa using h) ▸ hE)
          · rintro ⟨hE, hc⟩
            exact ⟨hE, fun h => hc (List.mem_append.mpr (Or.inl h))⟩
        · intro p c
          rw [hinv.pm_elems p c]
          constructor
          · rintro ⟨hE, hc⟩
            refine ⟨hE, ?_⟩
            intro hcr
            rcases List.mem_append.mp hcr with h | h
            · exact hc h
            · exact hnoparent p ((by simpa using h) ▸ hE)
          · rintro ⟨hE, hc⟩
            exact ⟨hE, fun h => hc (List.mem_append.mpr (Or.inl h))⟩
        · refine hnd_nodup.append hresn_nodup ?_
          intro a ha hb
          rcases List.mem_append.mp hb with h | h
          · exact hnd_res_disj a ha h
          · exact hnode_nd_notmem ((by simpa using h) ▸ ha)
        · intro v hv
          exact hinv.nd_nodes v (hnd_sub v hv)
        · intro v hv
          rcases List.mem_append.mp hv with h | h
          · exact hinv.res_nodes v h
          · exact (by simpa using h) ▸ hnode_nodes
        · intro v hv
          exact hinv.nd_empty v (hnd_sub v hv)
        · intro v hv hvr hvn
          have hv1 : v ∉ res := fun h => hvr (List.mem_append.mpr (Or.inl h))
          have hv2 : v ≠ node := fun h => hvr (List.mem_append.mpr (Or.inr (by simp [h])))
          have hv3 : v ∉ noDeps := by
            rw [← hsplit]
            intro h
            rcases List.mem_append.mp h with h | h
            · exact hvn h
            · exact hv2 (by simpa using h)
          exact hinv.complete v hv hv1 hv3
      | init s =>
        have hs_nodup : s.Nodup := by
          have h := hinv.pm_nodup node
          rw [hslot] at h
          exact h
        have hnodelt : node < pm.len := by
          rw [hinv.pm_len]
          exact hg.nodes_lt_pm node hnode_nodes
        have hkr := kahnRemove_spec node s cm pm nE noDeps.dropLast s hslot
          hs_nodup (fun p hp => hp) hs_nodup hnodelt
        have hs_edge : ∀ p, p ∈ s ↔ g.Edge p node := by
          intro p
          have h := hinv.pm_elems p node
          rw [hslot] at h
          have h2 : p ∈ s ↔ g.Edge p node ∧ node ∉ res := h
          rw [h2]
          simp [hnode_res]
        have hel : (LazySet.init s).elems = s := rfl
        rw [hel]
        set r := kahnRemove node s cm pm nE noDeps.dropLast with hrdef
        set pushed := s.filter (fun p => ((cm.get p).elems).erase node = []) with hpushdef
        have hs_sub_nodes : ∀ p ∈ s, p ∈ g.nodes :=
          fun p hp => hg.edge_nodes_l p node ((hs_edge p).mp hp)
        have hnode_in_cm : ∀ p ∈ s, node ∈ (cm.get p).elems :=
          fun p hp => (hinv.cm_elems p node).mpr ⟨(hs_edge p).mp hp, hnode_res⟩
        have hpushed_nodup : pushed.Nodup := hs_nodup.filter _
        have hpushed_sub : ∀ p ∈ pushed, p ∈ s := fun p hp => List.mem_of_mem_filter hp
        have hpushed_cond : ∀ p ∈ pushed, ((cm.get p).elems).erase node = [] := by
          intro p hp
          have h := List.of_mem_filter hp
          simpa using h
        have hpushed_single : ∀ p ∈ pushed, (cm.get p).elems = [node] := by
          intro p hp
          exact eq_singleton_of_erase_nil _ node (hnode_in_cm p (hpushed_sub p hp))
            (hpushed_cond p hp)
        have hpushed_ne_node : ∀ p ∈ pushed, p ≠ node := by
          intro p hp h
          have h1 := hpushed_single p hp
          rw [h, hnode_empty] at h1
          simp at h1
        have hpushed_not_res : ∀ p ∈ pushed, p ∉ res := by
          intro p hp hmem
          have hE := (hs_edge p).mp (hpushed_sub p hp)
          exact hnode_res (hinv.order p node hE hmem).1
        refine ih _ _ _ _ (res ++ [node]) ?_ hb2
        refine ⟨?_, ?_, ?_, ?_, ?_, ?_, ?_, ?_, ?_, ?_, ?_, horder2⟩
        · rw [hkr.pm_len]
          exact hinv.pm_len
        · intro p c
          rw [hkr.cm_elems p]
          by_cases hp : p ∈ s
          · rw [if_pos hp, (hinv.cm_nodup p).mem_erase_iff, hinv.cm_elems p c]
            constructor
            · rintro ⟨hcn, hE, hcr⟩
              refine ⟨hE, ?_⟩
              intro h
              rcases List.mem_append.mp h with h | h
              · exact hcr h
              · exact hcn (by simpa using h)
            · rintro ⟨hE, hcr⟩
              refine ⟨?_, hE, fun h => hcr (List.mem_append.mpr (Or.inl h))⟩
              intro h
              exact hcr (List.mem_append.mpr (Or.inr (by simp [h])))
          · rw [if_neg hp, hinv.cm_elems p c]
            constructor
            · rintro ⟨hE, hcr⟩
              refine ⟨hE, ?_⟩
              intro h
              rcases List.mem_append.mp h with h | h
              · exact hcr h
              · have hcn : c = node := by simpa using h
                exact hp ((hs_edge p).mpr (hcn ▸ hE))
            · rintro ⟨hE, hcr⟩
              exact ⟨hE, fun h => hcr (List.mem_append.mpr (Or.inl h))⟩
        · intro p c
          by_cases hc : c = node
          · subst hc
            rw [hkr.pm_node_mem p]
            constructor
            · rintro ⟨h1, h2⟩
              exact absurd h1 h2
            · rintro ⟨hE, hcr⟩
              exact absurd (List.mem_append.mpr (Or.inr (by simp))) hcr
          · rw [hkr.pm_other c hc, hinv.pm_elems p c]
            constructor
            · rintro ⟨hE, hcr⟩
              refine ⟨hE, ?_⟩
              intro h
              rcases List.mem_append.mp h with h | h
              · exact hcr h
              · exact hc (by simpa using h)
            · rintro ⟨hE, hcr⟩
              exact ⟨hE, fun h => hcr (List.mem_append.mpr (Or.inl h))⟩
        · intro p
          rw [hkr.cm_elems p]
          by_cases hp : p ∈ s
          · rw [if_pos hp]
            exact (hinv.cm_nodup p).erase node
          · rw [if_neg hp]
            exact hinv.cm_nodup p
        · intro c
          by_cases hc : c = node
          · subst hc
            exact hkr.pm_node_nodup
          · rw [hkr.pm_other c hc]
            exact hinv.pm_nodup c
        · rw [hkr.ne]
          have hsum := sum_sub_ones g.nodes (fun v => ((cm.get v).elems).length)
            (fun v => ((r.1.get v).elems).length) s hg.nodes_nodup hs_nodup
            hs_sub_nodes ?_ ?_
          · have hne := hinv.ne_eq
            omega
          · intro v hv
            show ((r.1.get v).elems).length + 1 = ((cm.get v).elems).length
            rw [hkr.cm_elems v, if_pos hv]
            have hmem := hnode_in_cm v hv
            have h1 : 0 < ((cm.get v).elems).length :=
              List.length_pos.mpr (List.ne_nil_of_mem hmem)
            rw [List.length_erase_of_mem hmem]
            omega
          · intro v _ hv
            show ((r.1.get v).elems).length = ((cm.get v).elems).length
            rw [hkr.cm_elems v, if_neg hv]
        · rw [hkr.nd_out]
          refine (hnd_nodup.append hpushed_nodup ?_).append hresn_nodup ?_
          · intro a ha hb
            have h1 := hinv.nd_empty a (hnd_sub a ha)
            rw [hpushed_single a hb] at h1
            simp at h1
          · intro a ha hb
            rcases List.mem_append.mp ha with h | h
            · rcases List.mem_append.mp hb with h2 | h2
              · exact hnd_res_disj a h h2
              · exact hnode_nd_notmem ((by simpa using h2) ▸ h)
            · rcases List.mem_append.mp hb with h2 | h2
              · exact hpushed_not_res a h h2
              · exact hpushed_ne_node a h (by simpa using h2)
        · rw [hkr.nd_out]
          intro v hv
          rcases List.mem_append.mp hv with h | h
          · exact hinv.nd_nodes v (hnd_sub v h)
          · exact hs_sub_nodes v (hpushed_sub v h)
        · intro v hv
          rcases List.mem_append.mp hv with h | h
          · exact hinv.res_nodes v h
          · exact (by simpa using h) ▸ hnode_nodes
        · rw [hkr.nd_out]
          intro v hv
          rcases List.mem_append.mp hv with h | h
          · rw [hkr.cm_elems v]
            by_cases hv2 : v ∈ s
            · rw [if_pos hv2, hinv.nd_empty v (hnd_sub v h)]
              rfl
            · rw [if_neg hv2]
              exact hinv.nd_empty v (hnd_sub v h)
          · rw [hkr.cm_elems v, if_pos (hpushed_sub v h)]
            exact hpushed_cond v h
        · intro v hv hvr hvn
          rw [hkr.nd_out] at hvn
          have hv1 : v ∉ res := fun h => hvr (List.mem_append.mpr (Or.inl h))
          have hv2 : v ≠ node :=
            fun h => hvr (List.mem_append.mpr (Or.inr (by simp [h])))
          have hv3 : v ∉ noDeps := by
            rw [← hsplit]
            intro h
            rcases List.mem_append.mp h with h | h
            · exact hvn (List.mem_append.mpr (Or.inl h))
            · exact hv2 (by simpa using h)
          have hold : (cm.get v).elems ≠ [] := hinv.complete v hv hv1 hv3
          rw [hkr.cm_elems v]
          by_cases hvs : v ∈ s
          · rw [if_pos hvs]
            intro hzero
            apply hvn
            exact List.mem_append.mpr
              (Or.inr (List.mem_filter.mpr ⟨hvs, by simpa using hzero⟩))
          · rw [if_neg hvs]
            exact hold

/-- A chain yields a walk between any two of its positions. -/
theorem steps_of_chain (g : DirectedGraph) (l : List Nat) (hch : l.Chain' g.Edge) :
    ∀ j i : Nat, ∀ hij : i ≤ j, ∀ hj : j < l.length,
      Steps g (l.get ⟨i, by omega⟩) (l.get ⟨j, hj⟩) (j - i) := by
  intro j
  induction j with
  | zero =>
    intro i hi hj
    have hi0 : i = 0 := by omega
    subst hi0
    exact Steps.refl _
  | succ j ihj =>
    intro i hi hj
    by_cases hij : i = j + 1
    · subst hij
      simp only [Nat.sub_self]
      exact Steps.refl _
    · have hij2 : i ≤ j := by omega
      have hj2 : j < l.length := by omega
      have hstep := ihj i hij2 hj2
      have hedge : g.Edge (l.get ⟨j, hj2⟩) (l.get ⟨j + 1, hj⟩) :=
        List.chain'_iff_get.mp hch j (by omega)
      have harith : j + 1 - i = (j - i) + 1 := by omega
      rw [harith]
      exact steps_trans hstep (steps_single hedge)

/-- In a successor-closed vertex set there are walks of every length. -/
theorem exists_walk_in_closed (g : DirectedGraph) (U : List Nat)
    (hcl : ∀ v ∈ U, ∃ c, c ∈ U ∧ g.Edge v c) (v0 : Nat) (hv0 : v0 ∈ U) :
    ∀ n, ∃ l : List Nat, l.length = n + 1 ∧ l.Chain' g.Edge ∧ ∀ x ∈ l, x ∈ U := by
  intro n
  induction n with
  | zero => exact ⟨[v0], rfl, List.chain'_singleton v0, by simpa using hv0⟩
  | succ n ihn =>
    obtain ⟨l, hlen, hch, hU⟩ := ihn
    have hlne : l ≠ [] := by
      intro h
      rw [h] at hlen
      simp at hlen
    obtain ⟨c, hcU, hcE⟩ := hcl (l.getLast hlne) (hU _ (List.getLast_mem hlne))
    refine ⟨l ++ [c], by simp [hlen], ?_, ?_⟩
    · rw [List.chain'_append]
      refine ⟨hch, List.chain'_singleton c, ?_⟩
      intro x hx y hy
      rw [List.getLast?_eq_getLast l hlne] at hx
      have hx2 : l.getLast hlne = x := by simpa using hx
      have hy2 : c = y := by simpa using hy
      rw [← hx2, ← hy2]
      exact hcE
    · intro x hx
      rcases List.mem_append.mp hx with h | h
      · exact hU x h
      · rw [show x = c from by simpa using h]
        exact hcU

/-- A nonempty duplicate-free successor-closed vertex set forces a cycle. -/
theorem hasCycle_of_closed (g : DirectedGraph) (U : List Nat) (hU : U.Nodup)
    (hcl : ∀ v ∈ U, ∃ c, c ∈ U ∧ g.Edge v c) (v0 : Nat) (hv0 : v0 ∈ U) :
    HasCycle g := by
  obtain ⟨l, hlen, hch, hsub⟩ := exists_walk_in_closed g U hcl v0 hv0 U.length
  have hnd : ¬ l.Nodup := by
    intro h
    have := nodup_subset_length_le l U h hsub
    omega
  rw [List.nodup_iff_injective_get] at hnd
  obtain ⟨a, b, hab, hne⟩ := Function.not_injective_iff.mp hnd
  rcases Nat.lt_or_ge a.val b.val with hlt | hge
  · have hsteps := steps_of_chain g l hch b.val a.val (by omega) b.isLt
    have hsteps2 : Steps g (l.get a) (l.get b) (b.val - a.val) := hsteps
    rw [← hab] at hsteps2
    exact ⟨l.get a, b.val - a.val, by omega, hsteps2⟩
  · have hblt : b.val < a.val := by
      rcases Nat.lt_or_ge b.val a.val with h | h
      · exact h
      · exact absurd (Fin.ext (by omega)) hne
    have hsteps := steps_of_chain g l hch a.val b.val (by omega) a.isLt
    have hsteps2 : Steps g (l.get b) (l.get a) (a.val - b.val) := hsteps
    rw [hab] at hsteps2
    exact ⟨l.get b, a.val - b.val, by omega, hsteps2⟩

/-- A children-before-parents order on a list makes positive walks strictly
decrease the index, so no cycle can exist among its members. -/
theorem steps_index_lt (g : DirectedGraph) (ts : List Nat)
    (hord : ∀ p c, g.Edge p c → c ∈ ts ∧ ts.indexOf c < ts.indexOf p) :
    ∀ n a b, Steps g a b n → 0 < n → ts.indexOf b < ts.indexOf a := by
  intro n
  induction n with
  | zero =>
    intro a b _ h0
    omega
  | succ n ihn =>
    intro a b h _
    obtain ⟨mid, hmid, hedge⟩ := steps_snoc h
    have h1 := (hord mid b hedge).2
    cases Nat.eq_zero_or_pos n with
    | inl h0 =>
      subst h0
      have hma : mid = a := by cases hmid; rfl
      rw [hma] at h1
      exact h1
    | inr hpos =>
      exact lt_trans h1 (ihn a mid hmid hpos)

/-- Full characterization of topological_sort via the Kahn invariants. -/
theorem topologicalSort_spec (g : DirectedGraph) (hg : KahnFacts g) :
    ((topologicalSort g).isOk = true ↔ ¬ HasCycle g)
    ∧ ∀ ts, topologicalSort g = .ok ts →
        ts.Perm g.nodes ∧ ∀ p c, g.Edge p c → c ∈ ts ∧ ts.indexOf c < ts.indexOf p := by
  have hfin := kahnLoop_post g hg (g.nodes.length + 1) g.children_map g.parent_map
    g.n_edges g.leaves [] (kInv_init g hg) (by simp)
  set K := kahnLoop (g.nodes.length + 1) g.children_map g.parent_map g.n_edges
    g.leaves [] with hK
  set res := K.2.2.2 with hres
  have htop : topologicalSort g = if K.2.2.1 ≠ 0 then .error .mk else .ok res := rfl
  by_cases h0 : K.2.2.1 = 0
  · have hok : topologicalSort g = .ok res := by
      rw [htop, if_neg (by simpa using h0)]
    have hallz : ∀ v ∈ g.nodes, (K.1.get v).elems = [] := by
      intro v hv
      have hsum := hfin.ne_eq
      rw [h0] at hsum
      have h1 := List.sum_eq_zero_iff.mp hsum.symm
      have h2 := h1 (((K.1.get v).elems).length) (List.mem_map.mpr ⟨v, hv, rfl⟩)
      exact List.length_eq_zero.mp h2
    have hsubres : ∀ v ∈ g.nodes, v ∈ res := by
      intro v hv
      by_contra hvr
      exact hfin.complete v hv hvr (by simp) (hallz v hv)
    have hresnodup : res.Nodup := by simpa using hfin.nd_res_nodup
    have hperm : res.Perm g.nodes := by
      apply List.perm_of_nodup_nodup_toFinset_eq hresnodup hg.nodes_nodup
      ext a
      simp only [List.mem_toFinset]
      exact ⟨fun h => hfin.res_nodes a h, fun h => hsubres a h⟩
    have hord : ∀ p c, g.Edge p c → c ∈ res ∧ res.indexOf c < res.indexOf p := by
      intro p c hE
      exact hfin.order p c hE (hsubres p (hg.edge_nodes_l p c hE))
    have hnc : ¬ HasCycle g := by
      rintro ⟨v, n, hpos, hsteps⟩
      have := steps_index_lt g res hord n v v hsteps hpos
      omega
    constructor
    · rw [hok]
      exact ⟨fun _ => hnc, fun _ => rfl⟩
    · intro ts hts
      rw [hok] at hts
      injection hts with hts2
      subst hts2
      exact ⟨hperm, hord⟩
  · have herr : topologicalSort g = .error .mk := by
      rw [htop, if_pos h0]
    set U := g.nodes.filter (fun v => ¬ v ∈ res) with hUdef
    have hUnodup : U.Nodup := hg.nodes_nodup.filter _
    have hUmem : ∀ v, v ∈ U ↔ v ∈ g.nodes ∧ v ∉ res := by
      intro v
      rw [hUdef, List.mem_filter]
      simp
    have hclosed : ∀ v ∈ U, ∃ c, c ∈ U ∧ g.Edge v c := by
      intro v hv
      obtain ⟨hvn, hvr⟩ := (hUmem v).mp hv
      have hne := hfin.complete v hvn hvr (by simp)
      obtain ⟨c, hc⟩ := List.exists_mem_of_ne_nil _ hne
      have hcE := (hfin.cm_elems v c).mp hc
      exact ⟨c, (hUmem c).mpr ⟨hg.edge_nodes_r v c hcE.1, hcE.2⟩, hcE.1⟩
    have hex : ∃ v, v ∈ U := by
      by_contra hno
      push_neg at hno
      apply h0
      rw [hfin.ne_eq]
      apply List.sum_eq_zero
      intro x hx
      obtain ⟨v, hvn, hvx⟩ := List.mem_map.mp hx
      rw [← hvx]
      by_cases hvr : v ∈ res
      · rw [List.length_eq_zero, List.eq_nil_iff_forall_not_mem]
        intro c hc
        have h2 := (hfin.cm_elems v c).mp hc
        exact h2.2 (hfin.order v c h2.1 hvr).1
      · exact absurd ((hUmem v).mpr ⟨hvn, hvr⟩) (hno v)
    obtain ⟨v0, hv0⟩ := hex
    have hcyc : HasCycle g := hasCycle_of_closed g U hUnodup hclosed v0 hv0
    constructor
    · have hfalse : (topologicalSort g).isOk = false := by
        rw [herr]
        rfl
      constructor
      · intro h
        rw [hfalse] at h
        exact absurd h (by simp)
      · intro hnc
        exact absurd hcyc hnc
    · intro ts hts
      rw [herr] at hts
      exact Except.noConfusion hts

/-- C6: topological_sort on a finalized graph succeeds exactly when the graph
has no directed cycle, and on success the output is a permutation of the node
list in which, for every edge (p, c), the child c appears before the parent p
(the leaves-first order). -/
theorem C6_topological_sort_correct (es : List (String × String)) :
    ((topologicalSort (mkGraph es)).isOk = true ↔ ¬ HasCycle (mkGraph es))
    ∧ ∀ ts, topologicalSort (mkGraph es) = .ok ts →
        ts.Perm (mkGraph es).nodes
        ∧ ∀ p c, (mkGraph es).Edge p c → c ∈ ts ∧ ts.indexOf c < ts.indexOf p :=
  topologicalSort_spec (mkGraph es) (kahnFacts_built es)

/-! ### find_path correctness (C3): a depth-annotated image of the BFS -/

/-- The BFS inner scan with ghost depth annotations on queue and visited. -/
def bfsScanG (goal current kc : Nat) :
    List Nat → List (Nat × Nat) → List (Nat × Nat) → List (Nat × Nat) →
    List (Nat × Nat) × List (Nat × Nat) × List (Nat × Nat) × Bool
  | [], queue, visited, log => (queue, visited, log, false)
  | c :: rest, queue, visited, log =>
    if c ∈ visited.map Prod.fst then bfsScanG goal current kc rest queue visited log
    else
      let visited2 := visited ++ [(c, kc + 1)]
      let log2 := log ++ [(c, current)]
      if c = goal then (queue, visited2, log2, true)
      else bfsScanG goal current kc rest (queue ++ [(c, kc + 1)]) visited2 log2

/-- The BFS outer loop with ghost depth annotations. -/
def bfsLoopG (g : DirectedGraph) (srcId goal : Nat) :
    Nat → List (Nat × Nat) → List (Nat × Nat) → List (Nat × Nat) → List Nat
  | 0, _, _, _ => []
  | fuel + 1, queue, visited, log =>
    match queue with
    | [] => []
    | (current, kc) :: rest =>
      match g.children_map.get current with
      | .init children =>
        let r := bfsScanG goal current kc children rest visited log
        if r.2.2.2 then constructPath r.2.2.1 srcId goal
        else bfsLoopG g srcId goal fuel r.1 r.2.1 r.2.2.1
      | _ => bfsLoopG g srcId goal fuel rest visited log

theorem bfsScanG_proj (goal current kc : Nat) :
    ∀ (children : List Nat) (qd vd log : List (Nat × Nat)),
      bfsScan goal current children (qd.map Prod.fst) (vd.map Prod.fst) log
        = ((bfsScanG goal current kc children qd vd log).1.map Prod.fst,
           (bfsScanG goal current kc children qd vd log).2.1.map Prod.fst,
           (bfsScanG goal current kc children qd vd log).2.2.1,
           (bfsScanG goal current kc children qd vd log).2.2.2) := by
  intro children
  induction children with
  | nil => intro qd vd log; rfl
  | cons c rest ih =>
    intro qd vd log
    simp only [bfsScan, bfsScanG]
    by_cases hm : c ∈ vd.map Prod.fst
    · rw [if_pos hm, if_pos hm]
      exact ih qd vd log
    · rw [if_neg hm, if_neg hm]
      by_cases hg : c = goal
      · rw [if_pos hg, if_pos hg]
        simp [List.map_append]
      · rw [if_neg hg, if_neg hg]
        have h := ih (qd ++ [(c, kc + 1)]) (vd ++ [(c, kc + 1)]) (log ++ [(c, current)])
        simpa [List.map_append] using h

theorem bfsLoopG_proj (g : DirectedGraph) (srcId goal : Nat) :
    ∀ (fuel : Nat) (qd vd log : List (Nat × Nat)),
      bfsLoop g srcId goal fuel (qd.map Prod.fst) (vd.map Prod.fst) log
        = bfsLoopG g srcId goal fuel qd vd log := by
  intro fuel
  induction fuel with
  | zero => intro qd vd log; rfl
  | succ fuel ih =>
    intro qd vd log
    cases qd with
    | nil => rfl
    | cons e rest =>
      obtain ⟨current, kc⟩ := e
      cases hslot : g.children_map.get current with
      | uninit =>
        simp only [bfsLoop, bfsLoopG, List.map_cons, hslot]
        exact ih rest vd log
      | empty =>
        simp only [bfsLoop, bfsLoopG, List.map_cons, hslot]
        exact ih rest vd log
      | init children =>
        simp only [bfsLoop, bfsLoopG, List.map_cons, hslot]
        rw [bfsScanG_proj goal current kc children rest vd log]
        by_cases hf : (bfsScanG goal current kc children rest vd log).2.2.2 = true
        · rw [if_pos hf, if_pos hf]
        · rw [if_neg hf, if_neg hf]
          exact ih _ _ _

theorem constructPathGo_acc (parents : List (Nat × Nat)) (st : Nat) :
    ∀ (fuel cur : Nat) (acc : List Nat),
      constructPathGo parents st fuel cur acc
        = acc ++ constructPathGo parents st fuel cur [] := by
  intro fuel
  induction fuel with
  | zero => intro cur acc; simp [constructPathGo]
  | succ fuel ih =>
    intro cur acc
    simp only [constructPathGo]
    by_cases hcur : cur = st
    · rw [if_pos hcur, if_pos hcur]
      simp
    · rw [if_neg hcur, if_neg hcur]
      cases hf : parents.find? (fun pr => pr.1 = cur) with
      | none =>
        show acc = acc ++ ([] : List Nat)
        simp
      | some pr =>
        show constructPathGo parents st fuel pr.2 (acc ++ [pr.2])
          = acc ++ constructPathGo parents st fuel pr.2 ([] ++ [pr.2])
        rw [ih pr.2 (acc ++ [pr.2]), ih pr.2 ([] ++ [pr.2])]
        simp

theorem constructPathGo_stable (parents : List (Nat × Nat)) (x c0 st : Nat)
    (hpar : ∀ e ∈ parents, e.2 ≠ x) :
    ∀ (fuel cur : Nat) (acc : List Nat), cur ≠ x →
      constructPathGo (parents ++ [(x, c0)]) st fuel cur acc
        = constructPathGo parents st fuel cur acc := by
  intro fuel
  induction fuel with
  | zero => intro cur acc _; rfl
  | succ fuel ih =>
    intro cur acc hcx
    simp only [constructPathGo]
    by_cases hcur : cur = st
    · rw [if_pos hcur, if_pos hcur]
    · rw [if_neg hcur, if_neg hcur]
      rw [List.find?_append]
      cases hf : parents.find? (fun pr => pr.1 = cur) with
      | none =>
        have hnew : ([(x, c0)] : List (Nat × Nat)).find? (fun pr => pr.1 = cur)
            = none := by
          rw [List.find?_cons_of_neg]
          · rfl
          · simp
            exact fun h => hcx h.symm
        rw [hnew]
        rfl
      | some pr =>
        show constructPathGo (parents ++ [(x, c0)]) st fuel pr.2 (acc ++ [pr.2])
          = constructPathGo parents st fuel pr.2 (acc ++ [pr.2])
        exact ih pr.2 (acc ++ [pr.2])
          (hpar pr (List.mem_of_find?_eq_some hf))

/-- Appending an edge at the end of a path list. -/
theorem isPathList_snoc (g : DirectedGraph) (a b x : Nat) (P : List Nat)
    (hP : IsPathList g a b P) (hE : g.Edge b x) : IsPathList g a x (P ++ [x]) := by
  obtain ⟨hne, hhd, hlast, hch⟩ := hP
  refine ⟨by simp, ?_, ?_, ?_⟩
  · cases P with
    | nil => exact absurd rfl hne
    | cons p0 tl => simpa using hhd
  · exact List.getLast?_concat P
  · rw [List.chain'_append]
    refine ⟨hch, List.chain'_singleton x, ?_⟩
    intro u hu y hy
    rw [hlast] at hu
    have hu2 : b = u := by simpa using hu
    have hy2 : x = y := by simpa using hy
    rw [← hu2, ← hy2]
    exact hE

/-- A path list of length n + 1 is a walk of exactly n edges. -/
theorem isPathList_steps (g : DirectedGraph) :
    ∀ (l : List Nat) (a b : Nat), IsPathList g a b l → Steps g a b (l.length - 1) := by
  intro l
  induction l with
  | nil => intro a b h; exact absurd rfl h.1
  | cons x t ih =>
    intro a b h
    obtain ⟨-, hhd, hlast, hch⟩ := h
    have hxa : x = a := by simpa using hhd
    subst hxa
    cases t with
    | nil =>
      have hab : x = b := by simpa using hlast
      subst hab
      exact Steps.refl x
    | cons y t2 =>
      rw [List.chain'_cons] at hch
      have hlast2 : (y :: t2).getLast? = some b := by
        rw [← getLast?_cons_ne_nil x (y :: t2) (List.cons_ne_nil y t2)]
        exact hlast
      have hs := ih y b ⟨List.cons_ne_nil y t2, rfl, hlast2, hch.2⟩
      have harith : (x :: y :: t2).length - 1 = ((y :: t2).length - 1) + 1 := by
        simp
      rw [harith]
      exact Steps.head hch.1 hs

/-- The BFS scan/loop invariant on a depth-annotated state: every visited
entry carries its exact breadth-first distance from the source, the log
reconstructs a shortest path for it, and the queue holds at most two adjacent
levels. -/
structure SInv (g : DirectedGraph) (s t kc : Nat)
    (qd vd log : List (Nat × Nat)) : Prop where
  src_mem : (s, 0) ∈ vd
  sound : ∀ e ∈ vd, Steps g s e.1 e.2
  minimal : ∀ e ∈ vd, ∀ m, Steps g s e.1 m → e.2 ≤ m
  nodup : (vd.map Prod.fst).Nodup
  goal_fresh : t ∉ vd.map Prod.fst
  log_keys : ∀ e ∈ log, e.1 ∈ vd.map Prod.fst ∧ e.2 ∈ vd.map Prod.fst ∧ e.1 ≠ s
  log_path : ∀ e ∈ vd, ∀ fuel, e.2 ≤ fuel →
    IsPathList g s e.1 ((constructPathGo log s fuel e.1 [e.1]).reverse)
    ∧ (constructPathGo log s fuel e.1 [e.1]).length = e.2 + 1
  depth_bound : ∀ e ∈ vd, e.2 ≤ log.length
  vd_lt : ∀ e ∈ vd, e.1 < g.interner.len
  levels : ∃ A B, qd = A ++ B ∧ (∀ x ∈ A, x.2 = kc) ∧ (∀ x ∈ B, x.2 = kc + 1)

theorem bfsScanG_spec (g : DirectedGraph) (s t current kc : Nat) :
    ∀ (children : List Nat) (qd vd log : List (Nat × Nat)),
      (∀ c ∈ children, g.Edge current c) →
      (∀ c ∈ children, c < g.interner.len) →
      (current, kc) ∈ vd →
      (∀ c, c ∉ vd.map Prod.fst → ∀ m, Steps g s c m → kc + 1 ≤ m) →
      SInv g s t kc qd vd log →
      (((bfsScanG t current kc children qd vd log).2.2.2 = false
          ∧ (∃ n, (bfsScanG t current kc children qd vd log).2.1 = vd ++ n
              ∧ (bfsScanG t current kc children qd vd log).1 = qd ++ n)
          ∧ (∀ c ∈ children,
              c ∈ (bfsScanG t current kc children qd vd log).2.1.map Prod.fst)
          ∧ SInv g s t kc (bfsScanG t current kc children qd vd log).1
              (bfsScanG t current kc children qd vd log).2.1
              (bfsScanG t current kc children qd vd log).2.2.1)
        ∨ ((bfsScanG t current kc children qd vd log).2.2.2 = true
          ∧ IsPathList g s t
              (constructPath (bfsScanG t current kc children qd vd log).2.2.1 s t)
          ∧ (constructPath (bfsScanG t current kc children qd vd log).2.2.1 s t).length
              = kc + 2
          ∧ (∀ m, Steps g s t m → kc + 1 ≤ m))) := by
  intro children
  induction children with
  | nil =>
    intro qd vd log _ _ _ _ hSI
    refine Or.inl ⟨rfl, ⟨[], ?_, ?_⟩, by simp, hSI⟩
    · show vd = vd ++ ([] : List (Nat × Nat))
      simp
    · show qd = qd ++ ([] : List (Nat × Nat))
      simp
  | cons c rest ih =>
    intro qd vd log hE hB hcur hmin hSI
    have hcurm : current ∈ vd.map Prod.fst := List.mem_map_of_mem Prod.fst hcur
    have hsteps : Steps g s current kc := hSI.sound (current, kc) hcur
    simp only [bfsScanG]
    by_cases hm : c ∈ vd.map Prod.fst
    · rw [if_pos hm]
      have hrec := ih qd vd log (fun x hx => hE x (by simp [hx]))
        (fun x hx => hB x (by simp [hx])) hcur hmin hSI
      rcases hrec with ⟨hf, ⟨n, hv, hq⟩, hcl, hSI3⟩ | hright
      · refine Or.inl ⟨hf, ⟨n, hv, hq⟩, ?_, hSI3⟩
        intro x hx
        rcases List.mem_cons.mp hx with h | h
        · subst h
          rw [hv, List.map_append]
          exact List.mem_append.mpr (Or.inl hm)
        · exact hcl x h
      · exact Or.inr hright
    · rw [if_neg hm]
      have hEc : g.Edge current c := hE c (by simp)
      have hclt : c < g.interner.len := hB c (by simp)
      have hsound_c : Steps g s c (kc + 1) :=
        steps_trans hsteps (steps_single hEc)
      have hmin_c : ∀ m, Steps g s c m → kc + 1 ≤ m := hmin c hm
      have hsm : s ∈ vd.map Prod.fst := List.mem_map_of_mem Prod.fst hSI.src_mem
      have hcs : c ≠ s := fun h => hm (h ▸ hsm)
      have hccur : c ≠ current := fun h => hm (h ▸ hcurm)
      have hkc_log : kc ≤ log.length := hSI.depth_bound (current, kc) hcur
      have hlognone : log.find? (fun pr => pr.1 = c) = none := by
        cases hf2 : log.find? (fun pr => pr.1 = c) with
        | none => rfl
        | some pr =>
          have hmem := List.mem_of_find?_eq_some hf2
          have hp := List.find?_some hf2
          have hpc : pr.1 = c := by simpa using hp
          exact absurd (hpc ▸ (hSI.log_keys pr hmem).1) hm
      have hstab : ∀ f v acc, v ∈ vd.map Prod.fst →
          constructPathGo (log ++ [(c, current)]) s f v acc
            = constructPathGo log s f v acc := by
        intro f v acc hv
        refine constructPathGo_stable log c current s ?_ f v acc
          (fun h => hm (h ▸ hv))
        intro e he
        exact fun h => hm (h ▸ (hSI.log_keys e he).2.1)
      have hnewgo : ∀ f, constructPathGo (log ++ [(c, current)]) s (f + 1) c [c]
          = [c] ++ constructPathGo log s f current [current] := by
        intro f
        have hstep1 : constructPathGo (log ++ [(c, current)]) s (f + 1) c [c]
            = constructPathGo (log ++ [(c, current)]) s f current ([c] ++ [current]) := by
          simp only [constructPathGo]
          rw [if_neg hcs, List.find?_append, hlognone]
          have hfind : ([(c, current)] : List (Nat × Nat)).find? (fun pr => pr.1 = c)
              = some (c, current) := by
            rw [List.find?_cons_of_pos]
            simp
          rw [hfind]
          rfl
        rw [hstep1, constructPathGo_acc _ _ f current ([c] ++ [current]),
          hstab f current [] hcurm, List.append_assoc]
        rw [← constructPathGo_acc log s f current [current]]
      have hnewpath : ∀ fuel, kc + 1 ≤ fuel →
          IsPathList g s c
            ((constructPathGo (log ++ [(c, current)]) s fuel c [c]).reverse)
          ∧ (constructPathGo (log ++ [(c, current)]) s fuel c [c]).length
              = (kc + 1) + 1 := by
        intro fuel hfuel
        obtain ⟨f, rfl⟩ : ∃ f, fuel = f + 1 := ⟨fuel - 1, by omega⟩
        have hold : IsPathList g s current
              ((constructPathGo log s f current [current]).reverse)
            ∧ (constructPathGo log s f current [current]).length = kc + 1 :=
          hSI.log_path (current, kc) hcur f (by omega)
        rw [hnewgo f]
        constructor
        · rw [List.reverse_append]
          simp only [List.reverse_cons, List.reverse_nil, List.nil_append]
          exact isPathList_snoc g s current c _ hold.1 hEc
        · simp only [List.length_append, List.length_cons, List.length_nil]
          omega
      by_cases hg : c = t
      · rw [if_pos hg]
        refine Or.inr ⟨rfl, ?_, ?_, ?_⟩
        · show IsPathList g s t (constructPath (log ++ [(c, current)]) s t)
          subst hg
          unfold constructPath
          have hfb : kc + 1 ≤ (log ++ [(c, current)]).length + 1 := by
            simp only [List.length_append, List.length_cons, List.length_nil]
            omega
          exact (hnewpath _ hfb).1
        · show (constructPath (log ++ [(c, current)]) s t).length = kc + 2
          subst hg
          unfold constructPath
          rw [List.length_reverse]
          have hfb : kc + 1 ≤ (log ++ [(c, current)]).length + 1 := by
            simp only [List.length_append, List.length_cons, List.length_nil]
            omega
          exact (hnewpath _ hfb).2
        · subst hg
          exact hmin_c
      · rw [if_neg hg]
        have hSI2 : SInv g s t kc (qd ++ [(c, kc + 1)]) (vd ++ [(c, kc + 1)])
            (log ++ [(c, current)]) := by
          refine ⟨List.mem_append.mpr (Or.inl hSI.src_mem), ?_, ?_, ?_, ?_, ?_, ?_, ?_, ?_, ?_⟩
          · intro e he
            rcases List.mem_append.mp he with h | h
            · exact hSI.sound e h
            · rw [show e = (c, kc + 1) from by simpa using h]
              exact hsound_c
          · intro e he m hme
            rcases List.mem_append.mp he with h | h
            · exact hSI.minimal e h m hme
            · rw [show e = (c, kc + 1) from by simpa using h] at hme ⊢
              exact hmin_c m hme
          · rw [List.map_append]
            refine hSI.nodup.append (by simp) ?_
            intro a ha hb
            rw [show a = c from by simpa using hb] at ha
            exact hm ha
          · rw [List.map_append]
            intro ht
            rcases List.mem_append.mp ht with h | h
            · exact hSI.goal_fresh h
            · have h2 : t = c := by simpa using h
              exact hg h2.symm
          · intro e he
            rcases List.mem_append.mp he with h | h
            · obtain ⟨h1, h2, h3⟩ := hSI.log_keys e h
              exact ⟨by rw [List.map_append]; exact List.mem_append.mpr (Or.inl h1),
                by rw [List.map_append]; exact List.mem_append.mpr (Or.inl h2), h3⟩
            · rw [show e = (c, current) from by simpa using h]
              refine ⟨?_, ?_, hcs⟩
              · rw [List.map_append]; simp
              · rw [List.map_append]; exact List.mem_append.mpr (Or.inl hcurm)
          · intro e he fuel hfuel
            rcases List.mem_append.mp he with h | h
            · have hev : e.1 ∈ vd.map Prod.fst := List.mem_map_of_mem Prod.fst h
              rw [hstab fuel e.1 [e.1] hev]
              exact hSI.log_path e h fuel hfuel
            · have he2 : e = (c, kc + 1) := by simpa using h
              subst he2
              exact hnewpath fuel hfuel
          · intro e he
            rcases List.mem_append.mp he with h | h
            · have := hSI.depth_bound e h
              simp only [List.length_append, List.length_cons, List.length_nil]
              omega
            · rw [show e = (c, kc + 1) from by simpa using h]
              simp only [List.length_append, List.length_cons, List.length_nil]
              omega
          · intro e he
            rcases List.mem_append.mp he with h | h
            · exact hSI.vd_lt e h
            · rw [show e = (c, kc + 1) from by simpa using h]
              exact hclt
          · obtain ⟨A, B, hq, hA, hB2⟩ := hSI.levels
            refine ⟨A, B ++ [(c, kc + 1)], by rw [hq, List.append_assoc], hA, ?_⟩
            intro x hx
            rcases List.mem_append.mp hx with h | h
            · exact hB2 x h
            · rw [show x = (c, kc + 1) from by simpa using h]
        have hrec := ih (qd ++ [(c, kc + 1)]) (vd ++ [(c, kc + 1)])
          (log ++ [(c, current)]) (fun x hx => hE x (by simp [hx]))
          (fun x hx => hB x (by simp [hx]))
          (List.mem_append.mpr (Or.inl hcur)) ?_ hSI2
        · rcases hrec with ⟨hf, ⟨n, hv, hq⟩, hcl, hSI3⟩ | hright
          · refine Or.inl ⟨hf, ⟨(c, kc + 1) :: n, ?_, ?_⟩, ?_, hSI3⟩
            · rw [hv, List.append_assoc]
              rfl
            · rw [hq, List.append_assoc]
              rfl
            · intro x hx
              rcases List.mem_cons.mp hx with h | h
              · rw [hv, h, List.map_append]
                refine List.mem_append.mpr (Or.inl ?_)
                rw [List.map_append]
                simp
              · exact hcl x h
          · exact Or.inr hright
        · intro x hx m hxm
          have hx2 : x ∉ vd.map Prod.fst := by
            intro h
            apply hx
            rw [List.map_append]
            exact List.mem_append.mpr (Or.inl h)
          exact hmin x hx2 m hxm

/-- The outer-loop invariant: the visited list splits into processed nodes
(whose children are all visited) followed by the queue, and the scan invariant
holds at the frontier depth. -/
structure LInv (g : DirectedGraph) (s t : Nat)
    (qd vd log : List (Nat × Nat)) : Prop where
  closed : ∃ pd, vd = pd ++ qd ∧ ∀ w ∈ pd, ∀ c, g.Edge w.1 c → c ∈ vd.map Prod.fst
  scan : ∃ D, SInv g s t D qd vd log

/-- Every walk from the source to an unvisited vertex crosses the queue. -/
theorem bfs_separation (g : DirectedGraph) (s t : Nat) (qd vd log : List (Nat × Nat))
    (hL : LInv g s t qd vd log) :
    ∀ m v, Steps g s v m → v ∉ vd.map Prod.fst →
      ∃ q m', q ∈ qd ∧ Steps g q.1 v m' ∧ 1 ≤ m' ∧ q.2 + m' ≤ m := by
  obtain ⟨pd, hvd, hclosed⟩ := hL.closed
  obtain ⟨D, hSI⟩ := hL.scan
  intro m
  induction m with
  | zero =>
    intro v hsv hv
    cases hsv
    exact absurd (List.mem_map_of_mem Prod.fst hSI.src_mem) hv
  | succ m ihm =>
    intro v hsv hv
    obtain ⟨w, hw, hwe⟩ := steps_snoc hsv
    by_cases hwm : w ∈ vd.map Prod.fst
    · obtain ⟨e, he, hew⟩ := List.mem_map.mp hwm
      have hee : g.Edge e.1 v := by rw [hew]; exact hwe
      have hes : Steps g s e.1 m := by rw [hew]; exact hw
      rw [hvd] at he
      rcases List.mem_append.mp he with hp | hq
      · exact absurd (hclosed e hp v hee) hv
      · refine ⟨e, 1, hq, steps_single hee, le_refl 1, ?_⟩
        have hmin := hSI.minimal e (by rw [hvd]; exact List.mem_append.mpr (Or.inr hq))
          m hes
        omega
    · obtain ⟨q, m', hq, hst, hm1, hle⟩ := ihm w hw hwm
      exact ⟨q, m' + 1, hq, steps_trans hst (steps_single hwe), by omega, by omega⟩

/-- The BFS loop either reports unreachability with an empty result or returns
a shortest path to the goal. -/
theorem bfsLoopG_spec (g : DirectedGraph) (s t : Nat)
    (HB : ∀ v c, g.Edge v c → c < g.interner.len) :
    ∀ (fuel : Nat) (qd vd log : List (Nat × Nat)),
      LInv g s t qd vd log →
      qd.length + (g.interner.len - vd.length) < fuel →
      ((bfsLoopG g s t fuel qd vd log = [] ∧ ¬ Reach g s t)
        ∨ (∃ kc, IsPathList g s t (bfsLoopG g s t fuel qd vd log)
            ∧ (bfsLoopG g s t fuel qd vd log).length = kc + 2
            ∧ (∀ m, Steps g s t m → kc + 1 ≤ m))) := by
  intro fuel
  induction fuel with
  | zero =>
    intro qd vd log _ hfuel
    exfalso
    omega
  | succ fuel ih =>
    intro qd vd log hL hfuel
    obtain ⟨pd, hvd, hclosed⟩ := hL.closed
    obtain ⟨D, hSI⟩ := hL.scan
    cases qd with
    | nil =>
      left
      refine ⟨rfl, ?_⟩
      rintro ⟨m, hm⟩
      obtain ⟨q, m', hq2, -⟩ := bfs_separation g s t [] vd log
        ⟨⟨pd, hvd, hclosed⟩, ⟨D, hSI⟩⟩ m t hm hSI.goal_fresh
      simp at hq2
    | cons e rest =>
      obtain ⟨current, kc⟩ := e
      have hcur_vd : (current, kc) ∈ vd := by
        rw [hvd]
        exact List.mem_append.mpr (Or.inr (by simp))
      have hheadmin : ∀ q ∈ (current, kc) :: rest, kc ≤ q.2 := by
        obtain ⟨A, B, hq, hA, hB2⟩ := hSI.levels
        cases A with
        | nil =>
          simp only [List.nil_append] at hq
          have hkc : kc = D + 1 := by
            have := hB2 (current, kc) (by rw [← hq]; simp)
            simpa using this
          intro q hqm
          rw [hq] at hqm
          rw [hkc, hB2 q hqm]
        | cons a A2 =>
          have ha : a = (current, kc) ∧ rest = A2 ++ B := by
            rw [List.cons_append] at hq
            exact ⟨(List.cons.injEq _ _ _ _ ▸ hq).1.symm, by
              have := (List.cons.injEq _ _ _ _ ▸ hq).2; exact this⟩
          have hkc : kc = D := by
            have := hA a (by simp)
            rw [ha.1] at this
            simpa using this
          intro q hqm
          rw [hq] at hqm
          rcases List.mem_append.mp hqm with h | h
          · rw [hkc, hA q h]
          · rw [hB2 q h]
            omega
      have hrestlev : ∃ A2 B2, rest = A2 ++ B2 ∧ (∀ x ∈ A2, x.2 = kc)
          ∧ (∀ x ∈ B2, x.2 = kc + 1) := by
        obtain ⟨A, B, hq, hA, hB2⟩ := hSI.levels
        cases A with
        | nil =>
          simp only [List.nil_append] at hq
          have hkc : kc = D + 1 := by
            have := hB2 (current, kc) (by rw [← hq]; simp)
            simpa using this
          refine ⟨rest, [], by simp, ?_, by simp⟩
          intro x hx
          have hxB : x ∈ B := by rw [← hq]; simp [hx]
          rw [hB2 x hxB, hkc]
        | cons a A2 =>
          have hrest : rest = A2 ++ B := by
            rw [List.cons_append] at hq
            have := (List.cons.injEq _ _ _ _ ▸ hq).2
            exact this
          have hkc : kc = D := by
            have ha : a = (current, kc) := by
              rw [List.cons_append] at hq
              exact (List.cons.injEq _ _ _ _ ▸ hq).1.symm
            have := hA a (by simp)
            rw [ha] at this
            simpa using this
          refine ⟨A2, B, hrest, ?_, ?_⟩
          · intro x hx
            rw [hkc]
            exact hA x (by simp [hx])
          · intro x hx
            rw [hkc]
            exact hB2 x hx
      have hSIrest : SInv g s t kc rest vd log :=
        ⟨hSI.src_mem, hSI.sound, hSI.minimal, hSI.nodup, hSI.goal_fresh,
          hSI.log_keys, hSI.log_path, hSI.depth_bound, hSI.vd_lt, hrestlev⟩
      have hminnew : ∀ c, c ∉ vd.map Prod.fst → ∀ m, Steps g s c m → kc + 1 ≤ m := by
        intro c hc m hm
        obtain ⟨q, m', hq2, hst, hm1, hle⟩ := bfs_separation g s t
          ((current, kc) :: rest) vd log ⟨⟨pd, hvd, hclosed⟩, ⟨D, hSI⟩⟩ m c hm hc
        have := hheadmin q hq2
        omega
      have hvdlen : vd.length ≤ g.interner.len := by
        have h1 := nodup_bounded_length_le (vd.map Prod.fst) g.interner.len
          hSI.nodup ?_
        · simpa using h1
        · intro x hx
          obtain ⟨e, he, rfl⟩ := List.mem_map.mp hx
          exact hSI.vd_lt e he
      cases hslot : g.children_map.get current with
      | uninit =>
        have hnoedge : ∀ c, ¬ g.Edge current c := by
          intro c hc
          have h2 : c ∈ (g.children_map.get current).elems := hc
          rw [hslot] at h2
          simp [LazySet.elems] at h2
        have hred : bfsLoopG g s t (fuel + 1) ((current, kc) :: rest) vd log
            = bfsLoopG g s t fuel rest vd log := by
          simp only [bfsLoopG, hslot]
        rw [hred]
        refine ih rest vd log ⟨⟨pd ++ [(current, kc)], ?_, ?_⟩, ⟨kc, hSIrest⟩⟩ ?_
        · rw [hvd, List.append_assoc]
          rfl
        · intro w hw c hc
          rcases List.mem_append.mp hw with h | h
          · exact hclosed w h c hc
          · have hwc : w = (current, kc) := by simpa using h
            rw [hwc] at hc
            exact absurd hc (hnoedge c)
        · simp only [List.length_cons] at hfuel
          omega
      | empty =>
        have hnoedge : ∀ c, ¬ g.Edge current c := by
          intro c hc
          have h2 : c ∈ (g.children_map.get current).elems := hc
          rw [hslot] at h2
          simp [LazySet.elems] at h2
        have hred : bfsLoopG g s t (fuel + 1) ((current, kc) :: rest) vd log
            = bfsLoopG g s t fuel rest vd log := by
          simp only [bfsLoopG, hslot]
        rw [hred]
        refine ih rest vd log ⟨⟨pd ++ [(current, kc)], ?_, ?_⟩, ⟨kc, hSIrest⟩⟩ ?_
        · rw [hvd, List.append_assoc]
          rfl
        · intro w hw c hc
          rcases List.mem_append.mp hw with h | h
          · exact hclosed w h c hc
          · have hwc : w = (current, kc) := by simpa using h
            rw [hwc] at hc
            exact absurd hc (hnoedge c)
        · simp only [List.length_cons] at hfuel
          omega
      | init children =>
        have hchild_edge : ∀ c ∈ children, g.Edge current c := by
          intro c hc
          show c ∈ (g.children_map.get current).elems
          rw [hslot]
          exact hc
        have hchild_lt : ∀ c ∈ children, c < g.interner.len :=
          fun c hc => HB current c (hchild_edge c hc)
        have hscan := bfsScanG_spec g s t current kc children rest vd log
          hchild_edge hchild_lt hcur_vd hminnew hSIrest
        have hred : bfsLoopG g s t (fuel + 1) ((current, kc) :: rest) vd log
            = (if (bfsScanG t current kc children rest vd log).2.2.2 = true
                then constructPath (bfsScanG t current kc children rest vd log).2.2.1 s t
                else bfsLoopG g s t fuel (bfsScanG t current kc children rest vd log).1
                  (bfsScanG t current kc children rest vd log).2.1
                  (bfsScanG t current kc children rest vd log).2.2.1) := by
          simp only [bfsLoopG, hslot]
        rcases hscan with ⟨hf, ⟨n, hv, hqn⟩, hcl, hSI2⟩ | ⟨hf, hpath, hlen, hmin⟩
        · rw [hred, if_neg (by rw [hf]; simp)]
          have hvdlen2 : (bfsScanG t current kc children rest vd log).2.1.length
              ≤ g.interner.len := by
            have h1 := nodup_bounded_length_le
              ((bfsScanG t current kc children rest vd log).2.1.map Prod.fst)
              g.interner.len hSI2.nodup ?_
            · simpa using h1
            · intro x hx
              obtain ⟨e, he, rfl⟩ := List.mem_map.mp hx
              exact hSI2.vd_lt e he
          have hlv : (bfsScanG t current kc children rest vd log).2.1.length
              = vd.length + n.length := by
            rw [hv]
            simp
          have hlq : (bfsScanG t current kc children rest vd log).1.length
              = rest.length + n.length := by
            rw [hqn]
            simp
          refine ih _ _ _ ⟨⟨pd ++ [(current, kc)], ?_, ?_⟩, ⟨kc, hSI2⟩⟩ ?_
          · rw [hv, hqn, hvd]
            simp [List.append_assoc]
          · intro w hw c hc
            rcases List.mem_append.mp hw with h | h
            · have h2 := hclosed w h c hc
              rw [hv, List.map_append]
              exact List.mem_append.mpr (Or.inl h2)
            · have hwc : w = (current, kc) := by simpa using h
              rw [hwc] at hc
              have hcch : c ∈ children := by
                have h2 : c ∈ (g.children_map.get current).elems := hc
                rw [hslot] at h2
                exact h2
              exact hcl c hcch
          · simp only [List.length_cons] at hfuel
            omega
        · rw [hred, if_pos hf]
          exact Or.inr ⟨kc, hpath, hlen, hmin⟩

/-- find_path on symbols: the empty result means unreachability, and any
other result is a shortest path. -/
theorem findPathSyms_spec (g : DirectedGraph) (s t : Nat)
    (HB : ∀ v c, g.Edge v c → c < g.interner.len)
    (hs : s < g.interner.len) (hst : s ≠ t) :
    (g.findPathSyms s t = [] ∧ ¬ Reach g s t)
    ∨ (∃ kc, IsPathList g s t (g.findPathSyms s t)
        ∧ (g.findPathSyms s t).length = kc + 2
        ∧ (∀ m, Steps g s t m → kc + 1 ≤ m)) := by
  unfold DirectedGraph.findPathSyms
  rw [if_neg hst]
  have hproj := bfsLoopG_proj g s t (g.interner.len + 1) [(s, 0)] [(s, 0)] []
  have hmap : ([(s, 0)] : List (Nat × Nat)).map Prod.fst = [s] := rfl
  rw [hmap] at hproj
  rw [hproj]
  have hgo : ∀ fuel, constructPathGo [] s fuel s [s] = [s] := by
    intro fuel
    cases fuel with
    | zero => rfl
    | succ f => simp [constructPathGo]
  refine bfsLoopG_spec g s t HB (g.interner.len + 1) [(s, 0)] [(s, 0)] []
    ⟨⟨[], rfl, by simp⟩, ⟨0, ?_, ?_, ?_, ?_, ?_, ?_, ?_, ?_, ?_, ?_⟩⟩ ?_
  · simp
  · intro e he
    rw [show e = (s, 0) from by simpa using he]
    exact Steps.refl s
  · intro e he m _
    rw [show e = (s, 0) from by simpa using he]
    exact Nat.zero_le m
  · simp
  · intro ht
    have h2 : t = s := by simpa using ht
    exact hst h2.symm
  · intro e he
    simp at he
  · intro e he fuel hfuel
    have he2 : e = (s, 0) := by simpa using he
    subst he2
    rw [hgo fuel]
    refine ⟨⟨by simp, rfl, rfl, List.chain'_singleton s⟩, rfl⟩
  · intro e he
    rw [show e = (s, 0) from by simpa using he]
    exact Nat.zero_le _
  · intro e he
    rw [show e = (s, 0) from by simpa using he]
    exact hs
  · exact ⟨[(s, 0)], [], rfl, by simp, by simp⟩
  · simp only [List.length_cons, List.length_nil]
    omega

/-- C3: find_path is a breadth-first shortest-path search: labels resolve and
the result is the symbol path resolved; from = to yields the singleton; the
result is empty exactly when the target is unreachable; and any nonempty
result is a valid from-to path whose edge count is minimal over all walks. -/
theorem C3_find_path_bfs_shortest (es : List (String × String)) (a b : String)
    (sa sb : Nat)
    (ha : (mkGraph es).getInternal a = .ok sa)
    (hb : (mkGraph es).getInternal b = .ok sb) :
    (mkGraph es).findPath a b
      = .ok (((mkGraph es).findPathSyms sa sb).map (mkGraph es).interner.resolve)
    ∧ (sa = sb → (mkGraph es).findPathSyms sa sb = [sa])
    ∧ ((mkGraph es).findPathSyms sa sb = [] ↔ ¬ Reach (mkGraph es) sa sb)
    ∧ (sa ≠ sb → (mkGraph es).findPathSyms sa sb ≠ [] →
        IsPathList (mkGraph es) sa sb ((mkGraph es).findPathSyms sa sb)
        ∧ Steps (mkGraph es) sa sb (((mkGraph es).findPathSyms sa sb).length - 1)
        ∧ ∀ m, Steps (mkGraph es) sa sb m →
            ((mkGraph es).findPathSyms sa sb).length ≤ m + 1) := by
  have hsa := (getInternal_ok_facts (mkGraph es) a sa ha).1
  have hHB := built_edge_lt es
  refine ⟨?_, ?_, ?_, ?_⟩
  · unfold DirectedGraph.findPath
    rw [ha, hb]
    rfl
  · intro h
    unfold DirectedGraph.findPathSyms
    rw [if_pos h]
  · by_cases hst : sa = sb
    · subst hst
      have heq : (mkGraph es).findPathSyms sa sa = [sa] := by
        unfold DirectedGraph.findPathSyms
        rw [if_pos rfl]
      rw [heq]
      constructor
      · intro h
        exact absurd h (by simp)
      · intro h
        exact absurd ⟨0, Steps.refl sa⟩ h
    · rcases findPathSyms_spec (mkGraph es) sa sb hHB hsa hst with
        ⟨hemp, hnr⟩ | ⟨kc, hpath, hlen, hmin⟩
      · rw [hemp]
        exact ⟨fun _ => hnr, fun _ => rfl⟩
      · constructor
        · intro h
          rw [h] at hlen
          simp at hlen
        · intro h
          exact absurd (isPathList_reach (mkGraph es) _ sa sb hpath) h
  · intro hst hne
    rcases findPathSyms_spec (mkGraph es) sa sb hHB hsa hst with
      ⟨hemp, _⟩ | ⟨kc, hpath, hlen, hmin⟩
    · exact absurd hemp hne
    · refine ⟨hpath, isPathList_steps (mkGraph es) _ sa sb hpath, ?_⟩
      intro m hm
      have := hmin m hm
      omega

/-- Witness for C3 on the single edge a → b. -/
theorem C3_find_path_bfs_shortest_witness :
    (mkGraph [("a", "b")]).findPath "a" "b"
      = .ok (((mkGraph [("a", "b")]).findPathSyms 0 1).map
          (mkGraph [("a", "b")]).interner.resolve)
    ∧ (mkGraph [("a", "b")]).findPathSyms 0 1 ≠ [] :=
  ⟨(C3_find_path_bfs_shortest [("a", "b")] "a" "b" 0 1 (by rfl) (by rfl)).1, by decide⟩

/-- Witness for the amended C7 on the single edge a → b. -/
theorem C7_dag_find_path_amended_witness :
    (DirectedAcyclicGraph.mk (mkGraph [("a", "b")]) [1, 0]).findPath "a" "b"
      = .ok (((DirectedAcyclicGraph.mk (mkGraph [("a", "b")])
          [1, 0]).findPathSyms 0 1).map (mkGraph [("a", "b")]).interner.resolve)
    ∧ (DirectedAcyclicGraph.mk (mkGraph [("a", "b")]) [1, 0]).findPathSyms 0 1 ≠ [] :=
  ⟨(C7_dag_find_path_amended (DirectedAcyclicGraph.mk (mkGraph [("a", "b")]) [1, 0])
      "a" "b" 0 1 (by rfl) (by rfl)).1, by decide⟩

end OW
